import Mathlib

/-!
QJsonPath: path-addressed get / set / remove on JSON values

A shallow embedding of `src/qjsonpath.cpp` (the recursive accessor
`__handleJsonAttribute`, the public `get` / `set` / `remove` entry points and the
string-path parser `splitPath`) together with the properties established about it.

Conventions of the embedding

* `QString` is a list of characters; `QJsonValue` is the tagged JSON variant of Qt.
* The Qt containers are library code outside the repository.  They are modelled by
  the functions of the `QJsonObject` and `QJsonArray` namespaces below, following
  their documented behaviour: an object is a map kept in key order, `operator[]` on
  an object creates a missing key with Null, inserting Undefined into an object
  removes the key, and an array slot never keeps Undefined (it keeps Null).
* A C++ reference parameter that is updated in place is the return value here.
* An access that Qt guards with an assertion (`path[0]` on an empty list, `arr[idx]`
  outside the bounds of the array) is a `Fault`; the functions return
  `Except Fault _`.
* The process-wide separator `_handleJsonAttribute_separator` is an explicit
  argument `sep`; `QString::toInt` is an explicit argument `toInt` of the parser.
-/

/-- Text, as a list of characters (`QString`). -/
abbrev QString := List Char

/-- The tagged JSON value (`QJsonValue`); the constructors are the values of
`QJsonValue::Type`.  The payload of a number is never inspected by the code under
study; it is carried as an integer. -/
inductive QJsonValue where
  | null
  | bool (b : Bool)
  | double (d : Int)
  | string (s : QString)
  | array (a : List QJsonValue)
  | object (o : List (QString × QJsonValue))
  | undefined

/-- One element of a path list: a `QVariant` holding a `QString` or an `int`.  A
`QVariant` of another type is turned away by lines 44-47 of the accessor and is not
a segment. -/
inductive Segment where
  | Name (s : QString)
  | Index (i : Int)
  deriving DecidableEq

/-- The operation selector of the accessor. -/
inductive HANDLE_JSON_OP where
  | SET
  | GET
  | REMOVE
  deriving DecidableEq

/-- The ways in which a run of the accessor violates a Qt precondition. -/
inductive Fault where
  | pathIndexOutOfRange
  | arrayIndexOutOfRange
  deriving DecidableEq

/-- The object container (`QJsonObject`): key / value entries kept in key order. -/
abbrev QJsonObject := List (QString × QJsonValue)

/-- The array container (`QJsonArray`). -/
abbrev QJsonArray := List QJsonValue

namespace QJsonValue

/-- Models `QJsonValue::isObject`. -/
def isObject : QJsonValue → Bool
  | object _ => true
  | _ => false

/-- Models `QJsonValue::isArray`. -/
def isArray : QJsonValue → Bool
  | array _ => true
  | _ => false

/-- Models `QJsonValue::isUndefined`. -/
def isUndefined : QJsonValue → Bool
  | undefined => true
  | _ => false

/-- Models `QJsonValue::toObject`: the object held, the empty object otherwise. -/
def toObject : QJsonValue → QJsonObject
  | object o => o
  | _ => []

/-- Models `QJsonValue::toArray`: the array held, the empty array otherwise. -/
def toArray : QJsonValue → QJsonArray
  | array a => a
  | _ => []

/-- Modelled from the spec: undefined is never persisted inside a tree.  The form in
which a value is kept in an array slot: undefined is kept as null. -/
def stored : QJsonValue → QJsonValue
  | undefined => null
  | v => v

end QJsonValue

open QJsonValue Segment HANDLE_JSON_OP

namespace QJsonObject

/-- Models `QJsonObject::contains`. -/
def contains : QJsonObject → QString → Bool
  | [], _ => false
  | (k, _) :: rest, key => if k = key then true else contains rest key

/-- Models `QJsonObject::value`: the value stored under `key`, undefined when absent. -/
def value : QJsonObject → QString → QJsonValue
  | [], _ => undefined
  | (k, v) :: rest, key => if k = key then v else value rest key

/-- Models `QJsonObject::remove`: the object without `key`. -/
def remove : QJsonObject → QString → QJsonObject
  | [], _ => []
  | (k, v) :: rest, key => if k = key then remove rest key else (k, v) :: remove rest key

/-- Places a new entry at its position in key order. -/
def insertSorted : QJsonObject → QString → QJsonValue → QJsonObject
  | [], key, v => [(key, v)]
  | (k, w) :: rest, key, v =>
    if key < k then (key, v) :: (k, w) :: rest else (k, w) :: insertSorted rest key v

/-- Replaces the value of the entry with key `key`. -/
def replace : QJsonObject → QString → QJsonValue → QJsonObject
  | [], _, _ => []
  | (k, w) :: rest, key, v => if k = key then (k, v) :: rest else (k, w) :: replace rest key v

/-- Models `QJsonObject::insert` for a value other than undefined: the entry of an existing
key is overwritten, a new key is added. -/
def put (o : QJsonObject) (key : QString) (v : QJsonValue) : QJsonObject :=
  if contains o key then replace o key v else insertSorted o key v

/-- Models `QJsonObject::insert`: inserting undefined removes the key. -/
def insert (o : QJsonObject) (key : QString) (v : QJsonValue) : QJsonObject :=
  if v.isUndefined then remove o key else put o key v

/-- The non-const `QJsonObject::operator[]`: when the key is absent an entry holding
null is created; the result is the object and the value the reference designates. -/
def ref (o : QJsonObject) (key : QString) : QJsonObject × QJsonValue :=
  if contains o key then (o, value o key) else (insertSorted o key null, null)

end QJsonObject

namespace QJsonArray

/-- The loop `while (idx >= arr.size()) arr.append(QJsonValue())`, run `n` times. -/
def appendNulls : Nat → QJsonArray → QJsonArray
  | 0, arr => arr
  | n + 1, arr => appendNulls n (arr ++ [null])

/-- The growth loop of SET: it runs `idx + 1 - size` times when `idx >= size` and not
at all otherwise. -/
def grow (arr : QJsonArray) (idx : Int) : QJsonArray :=
  appendNulls (idx + 1 - arr.length).toNat arr

/-- Lines 84-86 of the accessor: `int idx = path[0].toInt(); if (idx < 0) idx =
arr.size() ? arr.size() + idx : 0;`. -/
def resolveIndex (arr : QJsonArray) (n : Int) : Int :=
  if n < 0 then (if arr.length ≠ 0 then arr.length + n else 0) else n

/-- Models `QJsonArray::removeAt`. -/
def removeAt (arr : QJsonArray) (i : Nat) : QJsonArray := arr.eraseIdx i

/-- Assignment through `arr[i]` (`QJsonArray::replace`). -/
def assign (arr : QJsonArray) (i : Nat) (v : QJsonValue) : QJsonArray := arr.set i v.stored

end QJsonArray

/-- The recursive accessor `__handleJsonAttribute(value, path, newValue, op)`; the
result is the final content of the reference parameter `value`.

With a `Name` at the head of the path lines 20-31 leave an object in `value` or
return, so line 49 takes the object branch; with an `Index` lines 32-43 leave an
array and line 82 takes the array branch. -/
def handleJsonAttribute : QJsonValue → List Segment → QJsonValue → HANDLE_JSON_OP →
    Except Fault QJsonValue
  | _, [], _, _ => .error .pathIndexOutOfRange
  | value, Name keyName :: rest, newValue, op =>
    if !value.isObject && op = GET then .ok undefined
    else if !value.isObject && op = REMOVE then .ok value
    else
      -- SET on a value that is no object starts from `QJsonObject()`
      let obj : QJsonObject := value.toObject
      if op = GET && !obj.contains keyName then .ok undefined
      else if op = REMOVE && !obj.contains keyName then .ok value
      else
        let (obj1, subValue) := obj.ref keyName
        match rest with
        | _ :: _ =>
          match handleJsonAttribute subValue rest newValue op with
          | .error e => .error e
          | .ok subValue1 =>
            match op with
            | GET => .ok subValue1
            | _ => .ok (object (obj1.insert keyName subValue1))
        | [] =>
          match op with
          | SET => .ok (object (obj1.insert keyName newValue))
          | REMOVE => .ok (object (if obj1.contains keyName then obj1.remove keyName else obj1))
          | GET => .ok subValue
  | value, Index n :: rest, newValue, op =>
    if !value.isArray && op = GET then .ok undefined
    else if !value.isArray && op = REMOVE then .ok value
    else
      -- SET on a value that is no array starts from `QJsonArray()`
      let arr : QJsonArray := value.toArray
      let idx : Int := QJsonArray.resolveIndex arr n
      let arr1 : QJsonArray := if op = SET then QJsonArray.grow arr idx else arr
      if op = GET && (idx < 0 || idx ≥ arr1.length) then .ok undefined
      else if op = REMOVE && (idx < 0 || idx ≥ arr1.length) then .ok value
      else if idx < 0 || idx ≥ arr1.length then .error .arrayIndexOutOfRange
      else
        let subValue := arr1.getD idx.toNat undefined
        match rest with
        | _ :: _ =>
          match handleJsonAttribute subValue rest newValue op with
          | .error e => .error e
          | .ok subValue1 =>
            match op with
            | GET => .ok subValue1
            | _ => .ok (array (QJsonArray.assign arr1 idx.toNat subValue1))
        | [] =>
          match op with
          | SET => .ok (array (QJsonArray.assign arr1 idx.toNat newValue))
          | REMOVE => .ok (array (QJsonArray.removeAt arr1 idx.toNat))
          | GET => .ok subValue


/-- Models `QString::mid(position, n)` (library code): `n` characters from `position`; an
empty text when `position` lies behind the end, and whatever is available when fewer
than `n` characters remain or `n` is negative. -/
def QString.mid (s : QString) (position n : Int) : QString :=
  if position > s.length then []
  else if position < 0 then
    if n < 0 || n + position ≥ s.length then s
    else if n + position ≤ 0 then []
    else s.take (n + position).toNat
  else if n < 0 || n > s.length - position then s.drop position.toNat
  else (s.drop position.toNat).take n.toNat

/-- The local variables of `splitPath` that live across iterations: the list `p`
built so far, `i0_name` and `i0_idx`. -/
structure SplitState where
  p : List Segment
  i0_name : Int
  i0_idx : Int
  deriving DecidableEq

/-- The body of the `for` loop of `splitPath` at position `i` holding character `c`.
`toInt` is `QString::toInt`: `some idx` when `ok` is set, `none` otherwise. -/
def splitStep (sep : Char) (toInt : QString → Option Int) (path : QString)
    (st : SplitState) (i : Nat) (c : Char) : SplitState :=
  if c = sep then
    { p := if st.i0_name ≥ 0 then st.p ++ [Name (path.mid st.i0_name (i - st.i0_name))]
           else st.p,
      i0_name := i + 1,
      i0_idx := -1 }
  else if c = '[' then
    { st with i0_idx := i + 1 }
  else if c = ']' ∧ st.i0_idx > 0 then
    let sIdx := path.mid st.i0_idx (i - st.i0_idx)
    match toInt sIdx with
    | some idx =>
      let n := st.i0_idx - 1 - st.i0_name
      { p := (if st.i0_name ≥ 0 ∧ n > 0 then st.p ++ [Name (path.mid st.i0_name n)]
              else st.p) ++ [Index idx],
        i0_name := -1,
        i0_idx := -1 }
    | none => st
  else st

/-- The `for` loop of `splitPath`: the body is run for `i = 0, 1, ..., n - 1`. -/
def splitLoop (sep : Char) (toInt : QString → Option Int) (path : QString) :
    Nat → SplitState
  | 0 => { p := [], i0_name := 0, i0_idx := -1 }
  | i + 1 =>
    match path[i]? with
    | some c => splitStep sep toInt path (splitLoop sep toInt path i) i c
    | none => splitLoop sep toInt path i

/-- Models `QJsonPath::splitPath(path)` with the separator `sep` in force. -/
def splitPath (sep : Char) (toInt : QString → Option Int) (path : QString) : List Segment :=
  let st := splitLoop sep toInt path path.length
  if st.i0_name ≥ 0 then st.p ++ [Name (path.mid st.i0_name (path.length - st.i0_name))]
  else st.p

namespace QJsonPath

/-- Models `QJsonPath::set(QJsonValue& root, const QVariantList& path, newValue)`. -/
def set (root : QJsonValue) (path : List Segment) (newValue : QJsonValue) :
    Except Fault QJsonValue :=
  handleJsonAttribute root path newValue SET

/-- Models `QJsonPath::get(const QJsonValue& root, const QVariantList& path, defaultValue)`. -/
def get (root : QJsonValue) (path : List Segment) (defaultValue : QJsonValue) :
    Except Fault QJsonValue :=
  match handleJsonAttribute root path null GET with
  | .error e => .error e
  | .ok value => .ok (if value.isUndefined then defaultValue else value)

/-- Models `QJsonPath::remove(QJsonValue& root, const QVariantList& path)`. -/
def remove (root : QJsonValue) (path : List Segment) : Except Fault QJsonValue :=
  handleJsonAttribute root path null REMOVE

/-- Models `QJsonPath::set(T& root, const QString& path, newValue)` of the header. -/
def set_str (sep : Char) (toInt : QString → Option Int) (root : QJsonValue) (path : QString)
    (newValue : QJsonValue) : Except Fault QJsonValue :=
  set root (splitPath sep toInt path) newValue

/-- Models `QJsonPath::get(T& root, const QString& path, defaultValue)` of the header. -/
def get_str (sep : Char) (toInt : QString → Option Int) (root : QJsonValue) (path : QString)
    (defaultValue : QJsonValue) : Except Fault QJsonValue :=
  get root (splitPath sep toInt path) defaultValue

/-- Models `QJsonPath::remove(T& root, const QString& path)` of the header. -/
def remove_str (sep : Char) (toInt : QString → Option Int) (root : QJsonValue)
    (path : QString) : Except Fault QJsonValue :=
  remove root (splitPath sep toInt path)

end QJsonPath

/-- The character of a decimal digit. -/
def digitChar (d : Nat) : Char := Char.ofNat (48 + d)

/-- The value of a decimal digit character. -/
def digitVal (c : Char) : Option Nat :=
  if 48 ≤ c.toNat ∧ c.toNat ≤ 57 then some (c.toNat - 48) else none

/-- The decimal digits of `n`, most significant first; `fuel` bounds the count. -/
def natDigitsAux : Nat → Nat → List Char
  | 0, _ => []
  | fuel + 1, n =>
    if n < 10 then [digitChar n] else natDigitsAux fuel (n / 10) ++ [digitChar (n % 10)]

/-- The decimal digits of `n`. -/
def natDigits (n : Nat) : List Char := natDigitsAux (n + 1) n

/-- The decimal text of an integer: a minus sign for a negative number, then digits. -/
def decimal (n : Int) : QString :=
  if n < 0 then '-' :: natDigits n.natAbs else natDigits n.natAbs

/-- Reads a run of decimal digits onto the accumulator `acc`. -/
def parseDigits : List Char → Nat → Option Nat
  | [], acc => some acc
  | c :: cs, acc =>
    match digitVal c with
    | some d => parseDigits cs (acc * 10 + d)
    | none => none

/-- Modelled from the spec: the captured text parses as a base-10, optionally signed,
integer.  Stands for `QString::toInt(&ok)` with a 32-bit `int`: an optional sign,
then at least one decimal digit, the value within the range of `int`. -/
def toIntDec (s : QString) : Option Int :=
  match s with
  | [] => none
  | '-' :: ds =>
    if ds = [] then none
    else match parseDigits ds 0 with
      | some v => if v ≤ 2147483648 then some (-(v : Int)) else none
      | none => none
  | '+' :: ds =>
    if ds = [] then none
    else match parseDigits ds 0 with
      | some v => if v ≤ 2147483647 then some (v : Int) else none
      | none => none
  | ds =>
    match parseDigits ds 0 with
    | some v => if v ≤ 2147483647 then some (v : Int) else none
    | none => none

/-- The state of `splitPath` read as text: the list built so far, the characters
read since `i0_name` (when `i0_name >= 0`) and the characters read since `i0_idx`
(when `i0_idx > 0`). -/
structure ScanState where
  p : List Segment
  name : Option QString
  idx : Option QString
  deriving DecidableEq

/-- A character that changes neither `i0_name` nor `i0_idx` extends both texts. -/
def ScanState.push (st : ScanState) (c : Char) : ScanState :=
  { st with name := st.name.map (· ++ [c]), idx := st.idx.map (· ++ [c]) }

/-- The list `p` after the name in front of a parsed index has been flushed: `nm` is
the text since `i0_name`, `t` the text between the brackets. -/
def flushName (p : List Segment) (name : Option QString) (t : QString) : List Segment :=
  match name with
  | some nm =>
    if nm.length - (t.length + 1) > 0 then p ++ [Name (nm.take (nm.length - (t.length + 1)))]
    else p
  | none => p

/-- One iteration of the loop of `splitPath` on a `ScanState`. -/
def scanStep (sep : Char) (toInt : QString → Option Int) (st : ScanState) (c : Char) :
    ScanState :=
  if c = sep then
    { p := match st.name with
           | some nm => st.p ++ [Name nm]
           | none => st.p,
      name := some [],
      idx := none }
  else if c = '[' then
    { st with name := st.name.map (· ++ [c]), idx := some [] }
  else if c = ']' then
    match st.idx with
    | some t =>
      match toInt t with
      | some n => { p := flushName st.p st.name t ++ [Index n], name := none, idx := none }
      | none => st.push c
    | none => st.push c
  else st.push c

/-- The loop of `splitPath` on a `ScanState`, over the characters of the text. -/
def scan (sep : Char) (toInt : QString → Option Int) (st : ScanState) (s : QString) :
    ScanState :=
  s.foldl (scanStep sep toInt) st

/-- The statement after the loop of `splitPath`: the pending name is appended. -/
def ScanState.finish (st : ScanState) : List Segment :=
  match st.name with
  | some nm => st.p ++ [Name nm]
  | none => st.p

/-- The text-level reading of `splitPath`. -/
def splitPathScan (sep : Char) (toInt : QString → Option Int) (path : QString) :
    List Segment :=
  (scan sep toInt { p := [], name := some [], idx := none } path).finish

/-- The `ScanState` that a `SplitState` stands for at position `i` of `path`. -/
def SplitState.abs (path : QString) (i : Nat) (st : SplitState) : ScanState :=
  { p := st.p,
    name := if st.i0_name ≥ 0 then some ((path.take i).drop st.i0_name.toNat) else none,
    idx := if st.i0_idx > 0 then some ((path.take i).drop st.i0_idx.toNat) else none }

/-- The invariant of the loop of `splitPath` at position `i`. -/
def SplitState.Inv (i : Nat) (st : SplitState) : Prop :=
  -1 ≤ st.i0_name ∧ st.i0_name ≤ i ∧ -1 ≤ st.i0_idx ∧ st.i0_idx ≤ i ∧
    (st.i0_idx > 0 → st.i0_name < st.i0_idx)

/-- The substrings of `s` between consecutive occurrences of `sep`. -/
def fieldsOf (sep : Char) : QString → List QString
  | [] => [[]]
  | c :: cs =>
    if c = sep then [] :: fieldsOf sep cs
    else
      match fieldsOf sep cs with
      | f :: fs => (c :: f) :: fs
      | [] => [[c]]

/-- Every negative Index `-k` of the path finds, when SET reaches it, an array that
holds at least `k` elements once the growth loop of SET has run. -/
def negativeInRange : QJsonValue → List Segment → Bool
  | _, [] => true
  | v, Name k :: rest => negativeInRange (QJsonObject.ref v.toObject k).2 rest
  | v, Index n :: rest =>
    let idx := QJsonArray.resolveIndex v.toArray n
    let arr1 := QJsonArray.grow v.toArray idx
    decide (-n ≤ arr1.length) && negativeInRange (arr1.getD idx.toNat undefined) rest

/-- Every Index of the path is zero or positive. -/
def nonNegative : List Segment → Bool
  | [] => true
  | Name _ :: rest => nonNegative rest
  | Index n :: rest => decide (0 ≤ n) && nonNegative rest

/-- When the last segment of the path is an Index `i`, the array that SET finds at
that place holds no element behind position `i`. -/
def noElementAfter : QJsonValue → List Segment → Bool
  | _, [] => true
  | _, [Name _] => true
  | v, [Index n] => decide ((v.toArray.length : Int) ≤ n + 1)
  | v, Name k :: rest => noElementAfter (QJsonObject.ref v.toObject k).2 rest
  | v, Index n :: rest =>
    noElementAfter ((QJsonArray.grow v.toArray n).getD n.toNat undefined) rest

mutual
/-- The invariant of the data model: no container of the tree holds Undefined. -/
def QJsonValue.persisted : QJsonValue → Bool
  | .array a => persistedAll a
  | .object o => persistedEntries o
  | _ => true
/-- No element of the array is Undefined or holds Undefined. -/
def persistedAll : List QJsonValue → Bool
  | [] => true
  | v :: vs => !v.isUndefined && v.persisted && persistedAll vs
/-- No value of the object is Undefined or holds Undefined. -/
def persistedEntries : List (QString × QJsonValue) → Bool
  | [] => true
  | (_, v) :: es => !v.isUndefined && v.persisted && persistedEntries es
end

/-- Resolution of a path as the specification words it: a Name needs an Object that
has the key, an Index needs an Array and a position, counted from the end when the
Index is negative (`length + N`), that is at least 0 and below the length. -/
def resolve : QJsonValue → List Segment → Option QJsonValue
  | v, [] => some v
  | object o, Name k :: rest =>
    if QJsonObject.contains o k then resolve (QJsonObject.value o k) rest else none
  | array a, Index n :: rest =>
    let pos : Int := if n < 0 then a.length + n else n
    if pos < 0 ∨ pos ≥ a.length then none else resolve (a.getD pos.toNat undefined) rest
  | _, _ => none

/-- The text `p` with every `c1` replaced by `c2` (`QString::replace`). -/
def replaceChar (c1 c2 : Char) (p : QString) : QString :=
  p.map (fun c => if c = c1 then c2 else c)

/-- The canonical text of a segment list from the segment at hand on: a Name is
written as its text, after the separator unless it is the first segment; an Index
`n` is written as `[`, the decimal text of `n`, `]`. -/
def renderFrom (sep : Char) : Bool → List Segment → QString
  | _, [] => []
  | first, Name s :: rest => (if first then s else sep :: s) ++ renderFrom sep false rest
  | _, Index n :: rest => ('[' :: decimal n ++ [']']) ++ renderFrom sep false rest

/-- The canonical text of a segment list. -/
def renderPath (sep : Char) (segs : List Segment) : QString := renderFrom sep true segs

/-- A character of the decimal text of an integer: the minus sign or a digit. -/
def isDecimalChar (c : Char) : Bool :=
  decide (c = '-') || decide (48 ≤ c.toNat ∧ c.toNat ≤ 57)

/-- A segment of a canonical list: a Name is not empty and holds neither the separator
nor a bracket; an Index fits a 32-bit signed integer. -/
def canonicalSegment (sep : Char) : Segment → Bool
  | Name s => decide (s ≠ []) && decide (sep ∉ s) && decide ('[' ∉ s) && decide (']' ∉ s)
  | Index n => decide (-2147483648 ≤ n) && decide (n ≤ 2147483647)

/-- The texts that stand between a `]` and the nearest `[` before it in the same
separator-delimited part of the text; `cur` is the text read since that `[`, when
there is one. -/
def bracketTexts (sep : Char) : Option QString → QString → List QString
  | _, [] => []
  | cur, c :: cs =>
    if c = sep then bracketTexts sep none cs
    else if c = '[' then bracketTexts sep (some []) cs
    else if c = ']' then
      match cur with
      | some t => t :: bracketTexts sep (some (t ++ [c])) cs
      | none => bracketTexts sep none cs
    else bracketTexts sep (cur.map (· ++ [c])) cs

/-- The ways in which a call through a root-type adapter fails: inside the accessor,
or at the assertion of the adapter on the type of the result. -/
inductive RootFault where
  | engine (f : Fault)
  | rootType
  deriving DecidableEq

/-- The overload `_handleJsonAttribute(QJsonObject& obj, path, newValue, op)`, lines
138-146: the root is wrapped as a value, the accessor runs, and the result is
unwrapped unless it is an array, which the assertion of line 145 turns away. -/
def handleJsonAttribute_QJsonObject (obj : QJsonObject) (path : List Segment)
    (newValue : QJsonValue) (op : HANDLE_JSON_OP) : Except RootFault QJsonObject :=
  match handleJsonAttribute (object obj) path newValue op with
  | .error e => .error (.engine e)
  | .ok val => if !val.isArray then .ok val.toObject else .error .rootType

/-- The overload `_handleJsonAttribute(QJsonArray& arr, path, newValue, op)`, lines
148-156: the result is unwrapped when it is an array, and the assertion of line 155
turns away anything else. -/
def handleJsonAttribute_QJsonArray (arr : QJsonArray) (path : List Segment)
    (newValue : QJsonValue) (op : HANDLE_JSON_OP) : Except RootFault QJsonArray :=
  match handleJsonAttribute (array arr) path newValue op with
  | .error e => .error (.engine e)
  | .ok val => if val.isArray then .ok val.toArray else .error .rootType

namespace QJsonPath

/-- Models `QJsonPath::set(QJsonObject& root, const QVariantList& path, newValue)`. -/
def set_QJsonObject (root : QJsonObject) (path : List Segment) (newValue : QJsonValue) :
    Except RootFault QJsonObject :=
  handleJsonAttribute_QJsonObject root path newValue SET

/-- Models `QJsonPath::set(QJsonArray& root, const QVariantList& path, newValue)`. -/
def set_QJsonArray (root : QJsonArray) (path : List Segment) (newValue : QJsonValue) :
    Except RootFault QJsonArray :=
  handleJsonAttribute_QJsonArray root path newValue SET

/-- Models `QJsonPath::remove(QJsonObject& root, const QVariantList& path)`. -/
def remove_QJsonObject (root : QJsonObject) (path : List Segment) :
    Except RootFault QJsonObject :=
  handleJsonAttribute_QJsonObject root path null REMOVE

/-- Models `QJsonPath::remove(QJsonArray& root, const QVariantList& path)`. -/
def remove_QJsonArray (root : QJsonArray) (path : List Segment) :
    Except RootFault QJsonArray :=
  handleJsonAttribute_QJsonArray root path null REMOVE

/-- A sequence of Set calls on a generic root, each on the result of the one before. -/
def setAll : QJsonValue → List (List Segment × QJsonValue) → Except Fault QJsonValue
  | root, [] => .ok root
  | root, (path, x) :: calls =>
    match set root path x with
    | .error e => .error e
    | .ok root1 => setAll root1 calls

/-- A sequence of Set calls through the object-rooted adapter. -/
def setAll_QJsonObject :
    QJsonObject → List (List Segment × QJsonValue) → Except RootFault QJsonObject
  | root, [] => .ok root
  | root, (path, x) :: calls =>
    match set_QJsonObject root path x with
    | .error e => .error e
    | .ok root1 => setAll_QJsonObject root1 calls

/-- A sequence of Set calls through the array-rooted adapter. -/
def setAll_QJsonArray :
    QJsonArray → List (List Segment × QJsonValue) → Except RootFault QJsonArray
  | root, [] => .ok root
  | root, (path, x) :: calls =>
    match set_QJsonArray root path x with
    | .error e => .error e
    | .ok root1 => setAll_QJsonArray root1 calls

end QJsonPath

/-- The first segment of the path is a Name. -/
def startsWithName : List Segment → Bool
  | Name _ :: _ => true
  | _ => false

/-- The first segment of the path is an Index. -/
def startsWithIndex : List Segment → Bool
  | Index _ :: _ => true
  | _ => false

/-- Every array slot that the growth loop of SET created along the path, other than
the slot the path runs through, holds Null: `v` is the value before SET and `v1` the
value after it. -/
def GrowthSlotsNull : QJsonValue → QJsonValue → List Segment → Prop
  | _, _, [] => True
  | v, v1, Name k :: rest =>
    GrowthSlotsNull (QJsonObject.ref v.toObject k).2 (QJsonObject.value v1.toObject k) rest
  | v, v1, Index n :: rest =>
    (∀ j : Nat, v.toArray.length ≤ j → j < v1.toArray.length →
      (j : Int) ≠ QJsonArray.resolveIndex v.toArray n → v1.toArray[j]? = some null) ∧
    GrowthSlotsNull
      ((QJsonArray.grow v.toArray (QJsonArray.resolveIndex v.toArray n)).getD
        (QJsonArray.resolveIndex v.toArray n).toNat undefined)
      (v1.toArray.getD (QJsonArray.resolveIndex v.toArray n).toNat undefined) rest

/-- Every key of the object is above `k` in key order. -/
def keysAbove (k : QString) : QJsonObject → Bool
  | [] => true
  | (k2, _) :: es => decide (k < k2) && keysAbove k es

/-- The entries of the object stand in strictly ascending key order, the order in
which `QJsonObject` keeps them: no key occurs twice. -/
def keysOrdered : QJsonObject → Bool
  | [] => true
  | (k, _) :: es => keysAbove k es && keysOrdered es

mutual
/-- The invariant of `QJsonObject` over a whole tree: every object of the tree keeps
its entries in strictly ascending key order. -/
def QJsonValue.keysSorted : QJsonValue → Bool
  | .array a => keysSortedAll a
  | .object o => keysOrdered o && keysSortedEntries o
  | _ => true
/-- Every element of the array satisfies `keysSorted`. -/
def keysSortedAll : List QJsonValue → Bool
  | [] => true
  | v :: vs => v.keysSorted && keysSortedAll vs
/-- Every value of the object satisfies `keysSorted`. -/
def keysSortedEntries : List (QString × QJsonValue) → Bool
  | [] => true
  | (_, v) :: es => v.keysSorted && keysSortedEntries es
end

/-- The composition `get(remove(set(V, P, X), P), P)`: SET of `x` at the path, REMOVE
at the same path on the root SET returned, GET at the same path on the root REMOVE
returned. -/
def setRemoveGet (v : QJsonValue) (path : List Segment) (x : QJsonValue) :
    Except Fault QJsonValue :=
  (QJsonPath.set v path x).bind fun root =>
    (QJsonPath.remove root path).bind fun root1 => QJsonPath.get root1 path undefined

/-- The paths on which GET finds nothing after SET and REMOVE, read along the walk SET
makes from `v` (a Name finds the value under its key, Null when there is none; an
Index finds the element at its resolved position of the grown array).  The last
segment is a Name, or an Index `i >= 0` on an array that holds no element behind
position `i`, or an Index `-k` on an array that is empty or holds exactly `k`
elements.  An Index before the last is an Index `i >= 0`, or an Index `-k` on an
array that holds at least `k` elements once SET has grown it, and the walk goes on
from the element it addresses; or it is an Index `-k`, `k >= 2`, on an empty array,
where REMOVE and GET resolve below the start of the one-element array SET has made
and nothing more is asked. -/
def closesGap : QJsonValue → List Segment → Bool
  | _, [] => false
  | _, [Name _] => true
  | v, Name k :: rest => closesGap (QJsonObject.ref v.toObject k).2 rest
  | v, [Index n] =>
    if 0 ≤ n then decide ((v.toArray.length : Int) ≤ n + 1)
    else decide (v.toArray.length = 0 ∨ (v.toArray.length : Int) = -n)
  | v, Index n :: rest =>
    let idx := QJsonArray.resolveIndex v.toArray n
    let arr1 := QJsonArray.grow v.toArray idx
    if -n ≤ (arr1.length : Int) then closesGap (arr1.getD idx.toNat undefined) rest
    else decide (v.toArray.length = 0)

theorem QString.mid_of_le (s : QString) (a n : Nat) (h : a + n ≤ s.length) :
    QString.mid s a n = (s.drop a).take n := by
  unfold QString.mid
  have h1 : ¬ ((a : Int) > (s.length : Int)) := by omega
  have h2 : ¬ ((a : Int) < 0) := by omega
  have h3 : ((n : Int) < 0 || decide ((n : Int) > (s.length : Int) - (a : Int))) = false := by
    simp; omega
  simp only [h1, h2, h3, if_false, Int.toNat_ofNat]
  simp

theorem take_drop_succ (path : QString) (a i : Nat) (c : Char) (ha : a ≤ i)
    (hc : path[i]? = some c) :
    (path.take (i + 1)).drop a = (path.take i).drop a ++ [c] := by
  have hi : i < path.length := by
    rcases List.getElem?_eq_some_iff.1 hc with ⟨h, _⟩
    exact h
  rw [List.take_succ, hc]
  simp only [Option.toList]
  rw [List.drop_append_of_le_length]
  simp [List.length_take]; omega

theorem QString.mid_slice (path : QString) (a i : Nat) (ha : a ≤ i) (hi : i ≤ path.length) :
    QString.mid path (a : Int) ((i : Int) - (a : Int)) = (path.take i).drop a := by
  have h := QString.mid_of_le path a (i - a) (by omega)
  have e : ((i - a : Nat) : Int) = (i : Int) - (a : Int) := by omega
  rw [e] at h
  rw [h, List.drop_take]

theorem QString.mid_front (path : QString) (a b i : Nat) (hab : a < b) (hb : b ≤ i)
    (hi : i ≤ path.length) :
    QString.mid path (a : Int) ((b : Int) - 1 - (a : Int)) =
      ((path.take i).drop a).take
        (((path.take i).drop a).length - (((path.take i).drop b).length + 1)) := by
  have h := QString.mid_of_le path a (b - 1 - a) (by omega)
  have e : ((b - 1 - a : Nat) : Int) = (b : Int) - 1 - (a : Int) := by omega
  rw [e] at h
  rw [h, List.drop_take, List.take_take]
  simp only [List.length_drop, List.length_take]
  congr 1
  omega

theorem splitStep_keep (sep : Char) (toInt : QString → Option Int) (path : QString)
    (st : SplitState) (i : Nat) (c : Char) (hsep : c ≠ sep) (hopen : c ≠ '[')
    (h : c ≠ ']' ∨ ¬ st.i0_idx > 0 ∨ toInt (path.mid st.i0_idx (i - st.i0_idx)) = none) :
    splitStep sep toInt path st i c = st := by
  unfold splitStep
  rw [if_neg hsep, if_neg hopen]
  by_cases hc : c = ']' ∧ st.i0_idx > 0
  · rw [if_pos hc]
    rcases h with h | h | h
    · exact absurd hc.1 h
    · exact absurd hc.2 h
    · simp only [h]
  · rw [if_neg hc]

theorem scanStep_push (sep : Char) (toInt : QString → Option Int) (st : ScanState) (c : Char)
    (hsep : c ≠ sep) (hopen : c ≠ '[')
    (h : c ≠ ']' ∨ st.idx = none ∨ ∃ t, st.idx = some t ∧ toInt t = none) :
    scanStep sep toInt st c = st.push c := by
  unfold scanStep
  rw [if_neg hsep, if_neg hopen]
  by_cases hc : c = ']'
  · rw [if_pos hc]
    rcases h with h | h | ⟨t, h1, h2⟩
    · exact absurd hc h
    · simp only [h]
    · simp only [h1, h2]
  · rw [if_neg hc]

theorem scanStep_index (sep : Char) (toInt : QString → Option Int) (st : ScanState)
    (t : QString) (n : Int) (hsep : ']' ≠ sep) (hidx : st.idx = some t)
    (hto : toInt t = some n) :
    scanStep sep toInt st ']' =
      { p := flushName st.p st.name t ++ [Index n], name := none, idx := none } := by
  unfold scanStep
  rw [if_neg hsep, if_neg (by decide), if_pos rfl]
  simp only [hidx, hto]

theorem splitStep_abs (sep : Char) (toInt : QString → Option Int) (path : QString)
    (st : SplitState) (i : Nat) (c : Char) (hc : path[i]? = some c)
    (hinv : st.Inv i) :
    (splitStep sep toInt path st i c).Inv (i + 1) ∧
      (splitStep sep toInt path st i c).abs path (i + 1) =
        scanStep sep toInt (st.abs path i) c := by
  have hi : i < path.length := by
    rcases List.getElem?_eq_some_iff.1 hc with ⟨h, _⟩
    exact h
  obtain ⟨hn1, hn2, hx1, hx2, hnx⟩ := hinv
  by_cases hsep : c = sep
  · unfold splitStep scanStep
    simp only [hsep, if_true]
    refine ⟨⟨by simp; omega, by simp, by simp, by simp; omega, by simp⟩, ?_⟩
    by_cases hn : st.i0_name ≥ 0
    · obtain ⟨a, ha⟩ := Int.eq_ofNat_of_zero_le hn
      have hai : a ≤ i := by omega
      simp [SplitState.abs, ha, QString.mid_slice path a i hai (by omega)]
      omega
    · simp [SplitState.abs, hn]
      omega
  · have hname : (if st.i0_name ≥ 0 then some ((path.take (i + 1)).drop st.i0_name.toNat)
          else none) =
        Option.map (· ++ [c])
          (if st.i0_name ≥ 0 then some ((path.take i).drop st.i0_name.toNat) else none) := by
      by_cases hn : st.i0_name ≥ 0
      · obtain ⟨a, ha⟩ := Int.eq_ofNat_of_zero_le hn
        simp [ha, take_drop_succ path a i c (by omega) hc]
      · simp [hn]
    have hidx : (if st.i0_idx > 0 then some ((path.take (i + 1)).drop st.i0_idx.toNat)
          else none) =
        Option.map (· ++ [c])
          (if st.i0_idx > 0 then some ((path.take i).drop st.i0_idx.toNat) else none) := by
      by_cases hn : st.i0_idx > 0
      · obtain ⟨b, hb⟩ := Int.eq_ofNat_of_zero_le (le_of_lt hn)
        simp [hb, take_drop_succ path b i c (by omega) hc]
      · simp [hn]
    have hpush : (st.Inv (i + 1)) ∧ st.abs path (i + 1) = (st.abs path i).push c := by
      refine ⟨⟨hn1, by omega, hx1, by omega, hnx⟩, ?_⟩
      simp only [SplitState.abs, ScanState.push, hname, hidx]
    by_cases hopen : c = '['
    · subst hopen
      unfold splitStep scanStep
      rw [if_neg hsep, if_neg hsep, if_pos rfl, if_pos rfl]
      refine ⟨⟨hn1, by simp; omega, by simp; omega, by simp, by simp; omega⟩, ?_⟩
      simp only [SplitState.abs, hname]
      simp
    · by_cases hclose : c = ']'
      · by_cases hx : st.i0_idx > 0
        · obtain ⟨b, hb⟩ := Int.eq_ofNat_of_zero_le (le_of_lt hx)
          have hb0 : 0 < b := by omega
          have hbi : b ≤ i := by omega
          have hmid := QString.mid_slice path b i hbi (by omega)
          have habs : (st.abs path i).idx = some ((path.take i).drop b) := by
            simp [SplitState.abs, hb, hb0]
          cases hto : toInt ((path.take i).drop b) with
          | none =>
            rw [splitStep_keep sep toInt path st i c hsep hopen
                (Or.inr (Or.inr (by rw [hb, hmid]; exact hto))),
              scanStep_push sep toInt _ c hsep hopen (Or.inr (Or.inr ⟨_, habs, hto⟩))]
            exact hpush
          | some n =>
            subst hclose
            rw [scanStep_index sep toInt _ _ n hsep habs hto]
            unfold splitStep
            rw [if_neg hsep, if_neg hopen, if_pos ⟨rfl, hx⟩]
            simp only [hb, hmid, hto]
            refine ⟨⟨by simp, by simp; omega, by simp, by simp; omega, by simp⟩, ?_⟩
            by_cases hn : st.i0_name ≥ 0
            · obtain ⟨a, ha⟩ := Int.eq_ofNat_of_zero_le hn
              have hab : a < b := by
                have := hnx hx
                omega
              have hpre := QString.mid_front path a b i hab hbi (by omega)
              have hlen : ((path.take i).drop a).length - (((path.take i).drop b).length + 1) =
                  b - 1 - a := by
                simp only [List.length_drop, List.length_take]
                omega
              have hnm : (st.abs path i).name = some ((path.take i).drop a) := by
                simp [SplitState.abs, ha]
              have hp : (st.abs path i).p = st.p := rfl
              have hgoal : flushName (st.abs path i).p (st.abs path i).name
                    ((path.take i).drop b) =
                  if (a : Int) ≥ 0 ∧ (b : Int) - 1 - (a : Int) > 0 then
                    st.p ++ [Name (path.mid (a : Int) ((b : Int) - 1 - (a : Int)))]
                  else st.p := by
                rw [hnm, hp]
                unfold flushName
                simp only [hlen, hpre]
                by_cases hpos : (0 : Int) < (b : Int) - 1 - (a : Int)
                · rw [if_pos (by omega), if_pos ⟨by omega, by omega⟩]
                · rw [if_neg (by omega), if_neg (by omega)]
              rw [hgoal]
              simp [SplitState.abs, ha]
            · simp [SplitState.abs, flushName, hn]
        · rw [splitStep_keep sep toInt path st i c hsep hopen (Or.inr (Or.inl hx)),
            scanStep_push sep toInt _ c hsep hopen
              (Or.inr (Or.inl (by simp [SplitState.abs, hx])))]
          exact hpush
      · rw [splitStep_keep sep toInt path st i c hsep hopen (Or.inl hclose),
          scanStep_push sep toInt _ c hsep hopen (Or.inl hclose)]
        exact hpush

theorem splitLoop_abs (sep : Char) (toInt : QString → Option Int) (path : QString) :
    ∀ i : Nat, i ≤ path.length →
      (splitLoop sep toInt path i).Inv i ∧
        (splitLoop sep toInt path i).abs path i =
          scan sep toInt { p := [], name := some [], idx := none } (path.take i)
  | 0, _ => by
    refine ⟨⟨by simp [splitLoop], by simp [splitLoop], by simp [splitLoop],
      by simp [splitLoop], by simp [splitLoop]⟩, ?_⟩
    simp [splitLoop, SplitState.abs, scan]
  | i + 1, h => by
    have hi : i < path.length := h
    obtain ⟨hinv, habs⟩ := splitLoop_abs sep toInt path i (by omega)
    have hc : path[i]? = some path[i] := List.getElem?_eq_getElem hi
    have hstep := splitStep_abs sep toInt path _ i _ hc hinv
    have hloop : splitLoop sep toInt path (i + 1) =
        splitStep sep toInt path (splitLoop sep toInt path i) i path[i] := by
      simp only [splitLoop, hc]
    rw [hloop]
    refine ⟨hstep.1, ?_⟩
    rw [hstep.2, habs, List.take_succ, hc]
    simp only [scan, Option.toList, List.foldl_append, List.foldl_cons, List.foldl_nil]

/-- The index-based loop of `splitPath` and its reading on texts agree. -/
theorem splitPath_eq_scan (sep : Char) (toInt : QString → Option Int) (path : QString) :
    splitPath sep toInt path = splitPathScan sep toInt path := by
  obtain ⟨hinv, habs⟩ := splitLoop_abs sep toInt path path.length (le_refl _)
  obtain ⟨hn1, hn2, -, -, -⟩ := hinv
  unfold splitPath splitPathScan
  rw [List.take_length] at habs
  rw [← habs]
  simp only [ScanState.finish, SplitState.abs]
  by_cases hn : (splitLoop sep toInt path path.length).i0_name ≥ 0
  · obtain ⟨a, ha⟩ := Int.eq_ofNat_of_zero_le hn
    have hm := QString.mid_slice path a path.length (by omega) (le_refl _)
    simp [ha, hm]
  · simp [hn]

namespace QJsonObject

theorem contains_insertSorted_self (o : QJsonObject) (k : QString) (v : QJsonValue) :
    contains (insertSorted o k v) k = true := by
  induction o with
  | nil => simp [insertSorted, contains]
  | cons e rest ih =>
    obtain ⟨k', w⟩ := e
    unfold insertSorted
    by_cases h : k < k'
    · simp [h, contains]
    · simp only [h, if_false, contains, ih]
      simp

theorem value_insertSorted_self (o : QJsonObject) (k : QString) (v : QJsonValue)
    (h : contains o k = false) : value (insertSorted o k v) k = v := by
  induction o with
  | nil => simp [insertSorted, value]
  | cons e rest ih =>
    obtain ⟨k', w⟩ := e
    have hk : ¬ k' = k := by
      intro e
      simp [contains, e] at h
    have hrest : contains rest k = false := by
      simpa [contains, hk] using h
    unfold insertSorted
    by_cases hlt : k < k'
    · simp [hlt, value]
    · simp [hlt, value, hk, ih hrest]

theorem contains_insertSorted_ne (o : QJsonObject) (k k' : QString) (v : QJsonValue)
    (h : k ≠ k') : contains (insertSorted o k v) k' = contains o k' := by
  induction o with
  | nil => simp [insertSorted, contains, h]
  | cons e rest ih =>
    obtain ⟨k1, w⟩ := e
    unfold insertSorted
    by_cases hlt : k < k1
    · simp [hlt, contains, h]
    · simp [hlt, contains, ih]

theorem value_insertSorted_ne (o : QJsonObject) (k k' : QString) (v : QJsonValue)
    (h : k ≠ k') : value (insertSorted o k v) k' = value o k' := by
  induction o with
  | nil => simp [insertSorted, value, h]
  | cons e rest ih =>
    obtain ⟨k1, w⟩ := e
    unfold insertSorted
    by_cases hlt : k < k1
    · simp [hlt, value, h]
    · simp [hlt, value, ih]

theorem contains_replace (o : QJsonObject) (k k' : QString) (v : QJsonValue) :
    contains (replace o k v) k' = contains o k' := by
  induction o with
  | nil => simp [replace]
  | cons e rest ih =>
    obtain ⟨k1, w⟩ := e
    unfold replace
    by_cases h1 : k1 = k
    · simp [h1, contains]
    · simp [h1, contains, ih]

theorem value_replace_self (o : QJsonObject) (k : QString) (v : QJsonValue)
    (h : contains o k = true) : value (replace o k v) k = v := by
  induction o with
  | nil => simp [contains] at h
  | cons e rest ih =>
    obtain ⟨k1, w⟩ := e
    unfold replace
    by_cases h1 : k1 = k
    · simp [h1, value]
    · have hrest : contains rest k = true := by simpa [contains, h1] using h
      simp [h1, value, ih hrest]

theorem value_replace_ne (o : QJsonObject) (k k' : QString) (v : QJsonValue)
    (h : k ≠ k') : value (replace o k v) k' = value o k' := by
  induction o with
  | nil => simp [replace]
  | cons e rest ih =>
    obtain ⟨k1, w⟩ := e
    unfold replace
    by_cases h1 : k1 = k
    · have : ¬ k1 = k' := by
        rw [h1]
        exact h
      simp [h1, value, h]
    · simp [h1, value, ih]

theorem replace_value_self (o : QJsonObject) (k : QString) :
    replace o k (value o k) = o := by
  induction o with
  | nil => simp [replace]
  | cons e rest ih =>
    obtain ⟨k1, w⟩ := e
    unfold replace
    by_cases h1 : k1 = k
    · simp [h1, value]
    · simp [h1, value, ih]

theorem contains_remove_self (o : QJsonObject) (k : QString) :
    contains (remove o k) k = false := by
  induction o with
  | nil => simp [remove, contains]
  | cons e rest ih =>
    obtain ⟨k1, w⟩ := e
    unfold remove
    by_cases h1 : k1 = k
    · simp [h1, ih]
    · simp [h1, contains, ih]

theorem remove_of_not_contains (o : QJsonObject) (k : QString) (h : contains o k = false) :
    remove o k = o := by
  induction o with
  | nil => simp [remove]
  | cons e rest ih =>
    obtain ⟨k1, w⟩ := e
    have hk : ¬ k1 = k := by
      intro e
      simp [contains, e] at h
    have hrest : contains rest k = false := by
      simpa [contains, hk] using h
    simp [remove, hk, ih hrest]

theorem value_of_not_contains (o : QJsonObject) (k : QString) (h : contains o k = false) :
    value o k = undefined := by
  induction o with
  | nil => simp [value]
  | cons e rest ih =>
    obtain ⟨k1, w⟩ := e
    have hk : ¬ k1 = k := by
      intro e
      simp [contains, e] at h
    have hrest : contains rest k = false := by
      simpa [contains, hk] using h
    simp [value, hk, ih hrest]

theorem contains_put_self (o : QJsonObject) (k : QString) (v : QJsonValue) :
    contains (put o k v) k = true := by
  unfold put
  by_cases h : contains o k = true
  · simp [h, contains_replace]
  · simp [h, contains_insertSorted_self]

theorem value_put_self (o : QJsonObject) (k : QString) (v : QJsonValue) :
    value (put o k v) k = v := by
  unfold put
  by_cases h : contains o k = true
  · simp [h, value_replace_self]
  · simp only [h]
    exact value_insertSorted_self o k v (by simpa using h)

theorem contains_ref (o : QJsonObject) (k : QString) : contains (ref o k).1 k = true := by
  unfold ref
  by_cases h : contains o k = true
  · simp [h]
  · simp [h, contains_insertSorted_self]

end QJsonObject

theorem handle_get_name_last (v : QJsonValue) (k : QString) (nv : QJsonValue) :
    handleJsonAttribute v [Name k] nv GET =
      .ok (if QJsonObject.contains v.toObject k then QJsonObject.value v.toObject k
        else undefined) := by
  cases v <;> simp [handleJsonAttribute, isObject, toObject, QJsonObject.contains,
    QJsonObject.ref]
  rename_i o
  by_cases h : QJsonObject.contains o k = true
  · simp [h]
  · simp [h]

theorem handle_get_name_more (v : QJsonValue) (k : QString) (r : Segment) (rs : List Segment)
    (nv : QJsonValue) :
    handleJsonAttribute v (Name k :: r :: rs) nv GET =
      if QJsonObject.contains v.toObject k then
        handleJsonAttribute (QJsonObject.value v.toObject k) (r :: rs) nv GET
      else .ok undefined := by
  cases v <;> simp [handleJsonAttribute, isObject, toObject, QJsonObject.contains,
    QJsonObject.ref]
  rename_i o
  by_cases h : QJsonObject.contains o k = true
  · simp [h]
    cases handleJsonAttribute (QJsonObject.value o k) (r :: rs) nv GET <;> rfl
  · simp [h]

theorem handle_set_name_last (v : QJsonValue) (k : QString) (nv : QJsonValue) :
    handleJsonAttribute v [Name k] nv SET =
      .ok (object (QJsonObject.insert (QJsonObject.ref v.toObject k).1 k nv)) := by
  simp [handleJsonAttribute]

theorem handle_set_name_more (v : QJsonValue) (k : QString) (r : Segment) (rs : List Segment)
    (nv : QJsonValue) :
    handleJsonAttribute v (Name k :: r :: rs) nv SET =
      match handleJsonAttribute (QJsonObject.ref v.toObject k).2 (r :: rs) nv SET with
      | .error e => .error e
      | .ok s => .ok (object (QJsonObject.insert (QJsonObject.ref v.toObject k).1 k s)) := by
  simp [handleJsonAttribute]

theorem handle_remove_name_last (v : QJsonValue) (k : QString) (nv : QJsonValue) :
    handleJsonAttribute v [Name k] nv REMOVE =
      .ok (if QJsonObject.contains v.toObject k then
          object (QJsonObject.remove v.toObject k) else v) := by
  cases v <;> simp [handleJsonAttribute, isObject, toObject, QJsonObject.contains,
    QJsonObject.ref]
  rename_i o
  by_cases h : QJsonObject.contains o k = true
  · simp [h]
  · simp [h]

theorem handle_remove_name_more (v : QJsonValue) (k : QString) (r : Segment)
    (rs : List Segment) (nv : QJsonValue) :
    handleJsonAttribute v (Name k :: r :: rs) nv REMOVE =
      if QJsonObject.contains v.toObject k then
        match handleJsonAttribute (QJsonObject.value v.toObject k) (r :: rs) nv REMOVE with
        | .error e => .error e
        | .ok s => .ok (object (QJsonObject.insert v.toObject k s))
      else .ok v := by
  cases v <;> simp [handleJsonAttribute, isObject, toObject, QJsonObject.contains,
    QJsonObject.ref]
  rename_i o
  by_cases h : QJsonObject.contains o k = true
  · simp [h]
  · simp [h]

theorem resolveIndex_nil_out (n : Int) :
    ¬ (0 ≤ QJsonArray.resolveIndex [] n ∧ QJsonArray.resolveIndex [] n < 0) := by
  omega

theorem handle_get_index_last (v : QJsonValue) (n : Int) (nv : QJsonValue) :
    handleJsonAttribute v [Index n] nv GET =
      .ok (if 0 ≤ QJsonArray.resolveIndex v.toArray n ∧
            QJsonArray.resolveIndex v.toArray n < v.toArray.length then
          v.toArray.getD (QJsonArray.resolveIndex v.toArray n).toNat undefined
        else undefined) := by
  cases v with
  | array a =>
    simp [handleJsonAttribute, isArray, toArray]
    generalize QJsonArray.resolveIndex a n = idx
    by_cases h : 0 ≤ idx ∧ idx < a.length
    · have h1 : ¬ (idx < 0 ∨ (a.length : Int) ≤ idx) := by omega
      simp [h, h1]
    · have h1 : (idx < 0 ∨ (a.length : Int) ≤ idx) := by omega
      simp [h, h1]
  | _ => simp [handleJsonAttribute, isArray, toArray, resolveIndex_nil_out]

theorem handle_get_index_more (v : QJsonValue) (n : Int) (r : Segment) (rs : List Segment)
    (nv : QJsonValue) :
    handleJsonAttribute v (Index n :: r :: rs) nv GET =
      if 0 ≤ QJsonArray.resolveIndex v.toArray n ∧
          QJsonArray.resolveIndex v.toArray n < v.toArray.length then
        handleJsonAttribute
          (v.toArray.getD (QJsonArray.resolveIndex v.toArray n).toNat undefined) (r :: rs) nv GET
      else .ok undefined := by
  cases v with
  | array a =>
    simp [handleJsonAttribute, isArray, toArray]
    generalize QJsonArray.resolveIndex a n = idx
    by_cases h : 0 ≤ idx ∧ idx < a.length
    · have h1 : ¬ (idx < 0 ∨ (a.length : Int) ≤ idx) := by omega
      simp [h, h1]
      split <;> simp [*]
    · have h1 : (idx < 0 ∨ (a.length : Int) ≤ idx) := by omega
      simp [h, h1]
  | _ =>
    simp only [toArray, List.length_nil, Nat.cast_zero, if_neg (resolveIndex_nil_out n)]
    simp [handleJsonAttribute, isArray]

theorem handle_remove_index_last (v : QJsonValue) (n : Int) (nv : QJsonValue) :
    handleJsonAttribute v [Index n] nv REMOVE =
      .ok (if 0 ≤ QJsonArray.resolveIndex v.toArray n ∧
            QJsonArray.resolveIndex v.toArray n < v.toArray.length then
          array (QJsonArray.removeAt v.toArray (QJsonArray.resolveIndex v.toArray n).toNat)
        else v) := by
  cases v with
  | array a =>
    simp [handleJsonAttribute, isArray, toArray]
    generalize QJsonArray.resolveIndex a n = idx
    by_cases h : 0 ≤ idx ∧ idx < a.length
    · have h1 : ¬ (idx < 0 ∨ (a.length : Int) ≤ idx) := by omega
      simp [h, h1]
    · have h1 : (idx < 0 ∨ (a.length : Int) ≤ idx) := by omega
      simp [h, h1]
  | _ =>
    simp only [toArray, List.length_nil, Nat.cast_zero, if_neg (resolveIndex_nil_out n)]
    simp [handleJsonAttribute, isArray]

theorem handle_remove_index_more (v : QJsonValue) (n : Int) (r : Segment)
    (rs : List Segment) (nv : QJsonValue) :
    handleJsonAttribute v (Index n :: r :: rs) nv REMOVE =
      if 0 ≤ QJsonArray.resolveIndex v.toArray n ∧
          QJsonArray.resolveIndex v.toArray n < v.toArray.length then
        match handleJsonAttribute
          (v.toArray.getD (QJsonArray.resolveIndex v.toArray n).toNat undefined)
          (r :: rs) nv REMOVE with
        | .error e => .error e
        | .ok s => .ok (array (QJsonArray.assign v.toArray
            (QJsonArray.resolveIndex v.toArray n).toNat s))
      else .ok v := by
  cases v with
  | array a =>
    simp [handleJsonAttribute, isArray, toArray]
    generalize QJsonArray.resolveIndex a n = idx
    by_cases h : 0 ≤ idx ∧ idx < a.length
    · have h1 : ¬ (idx < 0 ∨ (a.length : Int) ≤ idx) := by omega
      simp [h, h1]
    · have h1 : (idx < 0 ∨ (a.length : Int) ≤ idx) := by omega
      simp [h, h1]
  | _ =>
    simp only [toArray, List.length_nil, Nat.cast_zero, if_neg (resolveIndex_nil_out n)]
    simp [handleJsonAttribute, isArray]

theorem handle_set_index_last (v : QJsonValue) (n : Int) (nv : QJsonValue) :
    handleJsonAttribute v [Index n] nv SET =
      if 0 ≤ QJsonArray.resolveIndex v.toArray n ∧
          QJsonArray.resolveIndex v.toArray n <
            (QJsonArray.grow v.toArray (QJsonArray.resolveIndex v.toArray n)).length then
        .ok (array (QJsonArray.assign
          (QJsonArray.grow v.toArray (QJsonArray.resolveIndex v.toArray n))
          (QJsonArray.resolveIndex v.toArray n).toNat nv))
      else .error .arrayIndexOutOfRange := by
  simp only [handleJsonAttribute]
  generalize QJsonArray.resolveIndex v.toArray n = idx
  generalize QJsonArray.grow v.toArray idx = arr1
  by_cases h : 0 ≤ idx ∧ idx < arr1.length
  · have h1 : ¬ (idx < 0 ∨ (arr1.length : Int) ≤ idx) := by omega
    simp [h, h1]
  · have h1 : (idx < 0 ∨ (arr1.length : Int) ≤ idx) := by omega
    simp [h, h1]

theorem handle_set_index_more (v : QJsonValue) (n : Int) (r : Segment) (rs : List Segment)
    (nv : QJsonValue) :
    handleJsonAttribute v (Index n :: r :: rs) nv SET =
      if 0 ≤ QJsonArray.resolveIndex v.toArray n ∧
          QJsonArray.resolveIndex v.toArray n <
            (QJsonArray.grow v.toArray (QJsonArray.resolveIndex v.toArray n)).length then
        match handleJsonAttribute
          ((QJsonArray.grow v.toArray (QJsonArray.resolveIndex v.toArray n)).getD
            (QJsonArray.resolveIndex v.toArray n).toNat undefined) (r :: rs) nv SET with
        | .error e => .error e
        | .ok s => .ok (array (QJsonArray.assign
            (QJsonArray.grow v.toArray (QJsonArray.resolveIndex v.toArray n))
            (QJsonArray.resolveIndex v.toArray n).toNat s))
      else .error .arrayIndexOutOfRange := by
  simp only [handleJsonAttribute]
  generalize QJsonArray.resolveIndex v.toArray n = idx
  generalize QJsonArray.grow v.toArray idx = arr1
  by_cases h : 0 ≤ idx ∧ idx < arr1.length
  · have h1 : ¬ (idx < 0 ∨ (arr1.length : Int) ≤ idx) := by omega
    simp [h, h1]
  · have h1 : (idx < 0 ∨ (arr1.length : Int) ≤ idx) := by omega
    simp [h, h1]

namespace QJsonArray

theorem appendNulls_eq (n : Nat) (arr : QJsonArray) :
    appendNulls n arr = arr ++ List.replicate n null := by
  induction n generalizing arr with
  | zero => simp [appendNulls]
  | succ n ih =>
    rw [appendNulls, ih, List.replicate_succ, List.append_assoc]
    rfl

theorem grow_eq (arr : QJsonArray) (idx : Int) :
    grow arr idx = arr ++ List.replicate (idx + 1 - arr.length).toNat null := by
  rw [grow, appendNulls_eq]

theorem grow_of_lt (arr : QJsonArray) (idx : Int) (h : idx < arr.length) :
    grow arr idx = arr := by
  rw [grow_eq]
  have : (idx + 1 - arr.length).toNat = 0 := by omega
  simp [this]

theorem length_grow (arr : QJsonArray) (idx : Int) :
    ((grow arr idx).length : Int) = max (arr.length : Int) (idx + 1) := by
  rw [grow_eq]
  simp only [List.length_append, List.length_replicate]
  omega

theorem resolveIndex_in_grow (arr : QJsonArray) (n : Int)
    (h : -n ≤ ((grow arr (resolveIndex arr n)).length : Int)) :
    0 ≤ resolveIndex arr n ∧
      resolveIndex arr n < ((grow arr (resolveIndex arr n)).length : Int) := by
  have hl := length_grow arr (resolveIndex arr n)
  rw [hl] at h ⊢
  unfold resolveIndex at h ⊢
  by_cases hn : n < 0
  · by_cases he : arr.length ≠ 0
    · simp only [hn, he, if_true] at h ⊢
      omega
    · simp only [hn, he, if_true, if_false] at h ⊢
      omega
  · simp only [hn, if_false] at h ⊢
    omega

theorem resolveIndex_assign_grow (arr : QJsonArray) (n : Int) (v : QJsonValue)
    (h : -n ≤ ((grow arr (resolveIndex arr n)).length : Int)) :
    resolveIndex (assign (grow arr (resolveIndex arr n)) (resolveIndex arr n).toNat v) n =
      resolveIndex arr n := by
  have hl := length_grow arr (resolveIndex arr n)
  have hlen : (assign (grow arr (resolveIndex arr n)) (resolveIndex arr n).toNat v).length =
      (grow arr (resolveIndex arr n)).length := by
    simp [assign]
  rw [hl] at h
  generalize hA : assign (grow arr (resolveIndex arr n)) (resolveIndex arr n).toNat v = A at hlen
  have hA2 : (A.length : Int) = max (arr.length : Int) (resolveIndex arr n + 1) := by
    rw [hlen, hl]
  unfold resolveIndex at h hA2 ⊢
  by_cases hn : n < 0
  · by_cases he : arr.length ≠ 0
    · simp only [hn, he, if_true] at h hA2 ⊢
      have : A.length ≠ 0 := by omega
      simp only [this, ne_eq, not_false_eq_true, if_true]
      omega
    · simp only [hn, he, if_true, if_false] at h hA2 ⊢
      have : A.length ≠ 0 := by omega
      simp only [this, ne_eq, not_false_eq_true, if_true]
      omega
  · simp only [hn, if_false]

theorem getD_assign_self (arr : QJsonArray) (i : Nat) (v : QJsonValue) (h : i < arr.length) :
    (assign arr i v).getD i undefined = v.stored := by
  simp [assign, List.getD_eq_getElem?_getD, List.getElem?_set, h]

end QJsonArray

theorem stored_of_ne_undefined (v : QJsonValue) (h : v.isUndefined = false) : v.stored = v := by
  cases v <;> simp [stored, isUndefined] at h ⊢

theorem insert_of_ne_undefined (o : QJsonObject) (k : QString) (v : QJsonValue)
    (h : v.isUndefined = false) : QJsonObject.insert o k v = QJsonObject.put o k v := by
  simp [QJsonObject.insert, h]

theorem toObject_object (o : QJsonObject) : (object o).toObject = o := rfl

theorem toArray_array (a : QJsonArray) : (array a).toArray = a := rfl

/-- SET followed by GET along the same path returns the value written. -/
theorem handle_set_then_get (nv : QJsonValue) :
    ∀ (path : List Segment) (v x : QJsonValue), path ≠ [] → x.isUndefined = false →
      negativeInRange v path = true →
      ∃ v1, handleJsonAttribute v path x SET = .ok v1 ∧ v1.isUndefined = false ∧
        handleJsonAttribute v1 path nv GET = .ok x
  | [], _, _, h, _, _ => absurd rfl h
  | [Name k], v, x, _, hx, _ => by
    refine ⟨object (QJsonObject.insert (QJsonObject.ref v.toObject k).1 k x),
      handle_set_name_last v k x, rfl, ?_⟩
    rw [handle_get_name_last, insert_of_ne_undefined _ _ _ hx]
    simp [toObject_object, QJsonObject.contains_put_self, QJsonObject.value_put_self]
  | Name k :: r :: rs, v, x, _, hx, hneg => by
    have hneg1 : negativeInRange (QJsonObject.ref v.toObject k).2 (r :: rs) = true := by
      simpa [negativeInRange] using hneg
    obtain ⟨s1, hset, hs1, hget⟩ :=
      handle_set_then_get nv (r :: rs) _ x (by simp) hx hneg1
    refine ⟨object (QJsonObject.insert (QJsonObject.ref v.toObject k).1 k s1), ?_, rfl, ?_⟩
    · rw [handle_set_name_more, hset]
    · rw [handle_get_name_more, insert_of_ne_undefined _ _ _ hs1]
      simp [toObject_object, QJsonObject.contains_put_self, QJsonObject.value_put_self, hget]
  | [Index n], v, x, _, hx, hneg => by
    have hlen : -n ≤ ((QJsonArray.grow v.toArray (QJsonArray.resolveIndex v.toArray n)).length
        : Int) := by
      simpa [negativeInRange] using hneg
    have hin := QJsonArray.resolveIndex_in_grow _ _ hlen
    refine ⟨array (QJsonArray.assign
      (QJsonArray.grow v.toArray (QJsonArray.resolveIndex v.toArray n))
      (QJsonArray.resolveIndex v.toArray n).toNat x), ?_, ?_, ?_⟩
    · rw [handle_set_index_last, if_pos hin]
    · rfl
    · rw [handle_get_index_last]
      simp only [toArray_array, QJsonArray.resolveIndex_assign_grow _ _ _ hlen]
      have hl : (QJsonArray.assign (QJsonArray.grow v.toArray (QJsonArray.resolveIndex v.toArray n))
          (QJsonArray.resolveIndex v.toArray n).toNat x).length =
          (QJsonArray.grow v.toArray (QJsonArray.resolveIndex v.toArray n)).length := by
        simp [QJsonArray.assign]
      rw [hl, if_pos hin, QJsonArray.getD_assign_self _ _ _ (by omega),
        stored_of_ne_undefined _ hx]
  | Index n :: r :: rs, v, x, _, hx, hneg => by
    have hboth : -n ≤ ((QJsonArray.grow v.toArray (QJsonArray.resolveIndex v.toArray n)).length
        : Int) ∧ negativeInRange
          ((QJsonArray.grow v.toArray (QJsonArray.resolveIndex v.toArray n)).getD
            (QJsonArray.resolveIndex v.toArray n).toNat undefined) (r :: rs) = true := by
      simpa [negativeInRange] using hneg
    obtain ⟨hlen, hneg1⟩ := hboth
    have hin := QJsonArray.resolveIndex_in_grow _ _ hlen
    obtain ⟨s1, hset, hs1, hget⟩ :=
      handle_set_then_get nv (r :: rs) _ x (by simp) hx hneg1
    refine ⟨array (QJsonArray.assign
      (QJsonArray.grow v.toArray (QJsonArray.resolveIndex v.toArray n))
      (QJsonArray.resolveIndex v.toArray n).toNat s1), ?_, ?_, ?_⟩
    · rw [handle_set_index_more, if_pos hin, hset]
    · rfl
    · rw [handle_get_index_more]
      simp only [toArray_array, QJsonArray.resolveIndex_assign_grow _ _ _ hlen]
      have hl : (QJsonArray.assign (QJsonArray.grow v.toArray (QJsonArray.resolveIndex v.toArray n))
          (QJsonArray.resolveIndex v.toArray n).toNat s1).length =
          (QJsonArray.grow v.toArray (QJsonArray.resolveIndex v.toArray n)).length := by
        simp [QJsonArray.assign]
      rw [hl, if_pos hin, QJsonArray.getD_assign_self _ _ _ (by omega),
        stored_of_ne_undefined _ hs1]
      exact hget

theorem resolveIndex_of_nonneg (arr : QJsonArray) (n : Int) (h : 0 ≤ n) :
    QJsonArray.resolveIndex arr n = n := by
  unfold QJsonArray.resolveIndex
  rw [if_neg (by omega)]

theorem length_assign (arr : QJsonArray) (i : Nat) (v : QJsonValue) :
    (QJsonArray.assign arr i v).length = arr.length := by
  simp [QJsonArray.assign]

/-- SET, then REMOVE, then GET along the same path finds nothing, provided that no
array element follows the one addressed. -/
theorem handle_set_remove_get (nv nv1 : QJsonValue) :
    ∀ (path : List Segment) (v x : QJsonValue), path ≠ [] → nonNegative path = true →
      noElementAfter v path = true →
      ∃ v1 v2, handleJsonAttribute v path x SET = .ok v1 ∧ v1.isUndefined = false ∧
        handleJsonAttribute v1 path nv REMOVE = .ok v2 ∧ v2.isUndefined = false ∧
        handleJsonAttribute v2 path nv1 GET = .ok undefined
  | [], _, _, h, _, _ => absurd rfl h
  | [Name k], v, x, _, _, _ => by
    refine ⟨object (QJsonObject.insert (QJsonObject.ref v.toObject k).1 k x),
      if QJsonObject.contains (QJsonObject.insert (QJsonObject.ref v.toObject k).1 k x) k
      then object (QJsonObject.remove
        (QJsonObject.insert (QJsonObject.ref v.toObject k).1 k x) k)
      else object (QJsonObject.insert (QJsonObject.ref v.toObject k).1 k x),
      handle_set_name_last v k x, rfl, ?_, ?_, ?_⟩
    · rw [handle_remove_name_last, toObject_object]
    · split <;> rfl
    · rw [handle_get_name_last]
      by_cases hc : QJsonObject.contains
          (QJsonObject.insert (QJsonObject.ref v.toObject k).1 k x) k = true
      · simp [hc, toObject_object, QJsonObject.contains_remove_self]
      · simp [hc, toObject_object]
  | Name k :: r :: rs, v, x, _, hnn, hlast => by
    have hnn1 : nonNegative (r :: rs) = true := by simpa [nonNegative] using hnn
    have hlast1 : noElementAfter (QJsonObject.ref v.toObject k).2 (r :: rs) = true := by
      simpa [noElementAfter] using hlast
    obtain ⟨s1, s2, hset, hs1, hrem, hs2, hget⟩ :=
      handle_set_remove_get nv nv1 (r :: rs) _ x (by simp) hnn1 hlast1
    refine ⟨object (QJsonObject.put (QJsonObject.ref v.toObject k).1 k s1),
      object (QJsonObject.put (QJsonObject.put (QJsonObject.ref v.toObject k).1 k s1) k s2),
      ?_, rfl, ?_, rfl, ?_⟩
    · rw [handle_set_name_more, hset]
      simp only [insert_of_ne_undefined _ _ _ hs1]
    · rw [handle_remove_name_more, toObject_object, QJsonObject.contains_put_self,
        if_pos rfl, QJsonObject.value_put_self, hrem]
      simp only [insert_of_ne_undefined _ _ _ hs2]
    · rw [handle_get_name_more, toObject_object, QJsonObject.contains_put_self,
        if_pos rfl, QJsonObject.value_put_self, hget]
  | [Index n], v, x, _, hnn, hlast => by
    have hn : 0 ≤ n := by simpa [nonNegative] using hnn
    have hlen : (v.toArray.length : Int) ≤ n + 1 := by simpa [noElementAfter] using hlast
    have hg := QJsonArray.length_grow v.toArray n
    have hgl : ((QJsonArray.grow v.toArray n).length : Int) = n + 1 := by omega
    refine ⟨array (QJsonArray.assign (QJsonArray.grow v.toArray n) n.toNat x),
      array (QJsonArray.removeAt
        (QJsonArray.assign (QJsonArray.grow v.toArray n) n.toNat x) n.toNat),
      ?_, rfl, ?_, rfl, ?_⟩
    · rw [handle_set_index_last, resolveIndex_of_nonneg _ _ hn, if_pos ⟨hn, by omega⟩]
    · rw [handle_remove_index_last, toArray_array, resolveIndex_of_nonneg _ _ hn,
        length_assign, if_pos ⟨hn, by omega⟩]
    · rw [handle_get_index_last, toArray_array, resolveIndex_of_nonneg _ _ hn]
      have : (QJsonArray.removeAt
          (QJsonArray.assign (QJsonArray.grow v.toArray n) n.toNat x) n.toNat).length =
          n.toNat := by
        simp only [QJsonArray.removeAt, List.length_eraseIdx, length_assign]
        rw [if_pos (by omega)]
        omega
      rw [this, if_neg (by omega)]
  | Index n :: r :: rs, v, x, _, hnn, hlast => by
    have hboth : 0 ≤ n ∧ nonNegative (r :: rs) = true := by simpa [nonNegative] using hnn
    obtain ⟨hn, hnn1⟩ := hboth
    have hlast1 : noElementAfter
        ((QJsonArray.grow v.toArray n).getD n.toNat undefined) (r :: rs) = true := by
      simpa [noElementAfter] using hlast
    have hg := QJsonArray.length_grow v.toArray n
    have hin : 0 ≤ n ∧ n < ((QJsonArray.grow v.toArray n).length : Int) := ⟨hn, by omega⟩
    obtain ⟨s1, s2, hset, hs1, hrem, hs2, hget⟩ :=
      handle_set_remove_get nv nv1 (r :: rs) _ x (by simp) hnn1 hlast1
    refine ⟨array (QJsonArray.assign (QJsonArray.grow v.toArray n) n.toNat s1),
      array (QJsonArray.assign
        (QJsonArray.assign (QJsonArray.grow v.toArray n) n.toNat s1) n.toNat s2),
      ?_, rfl, ?_, rfl, ?_⟩
    · rw [handle_set_index_more, resolveIndex_of_nonneg _ _ hn, if_pos hin, hset]
    · rw [handle_remove_index_more, toArray_array, resolveIndex_of_nonneg _ _ hn,
        length_assign, if_pos hin, QJsonArray.getD_assign_self _ _ _ (by omega),
        stored_of_ne_undefined _ hs1, hrem]
    · rw [handle_get_index_more, toArray_array, resolveIndex_of_nonneg _ _ hn,
        length_assign, length_assign, if_pos hin,
        QJsonArray.getD_assign_self _ _ _ (by rw [length_assign]; omega),
        stored_of_ne_undefined _ hs2, hget]

theorem resolveIndex_spec (a : QJsonArray) (n : Int) :
    ((0 ≤ QJsonArray.resolveIndex a n ∧ QJsonArray.resolveIndex a n < a.length) ↔
      ¬ ((if n < 0 then (a.length : Int) + n else n) < 0 ∨
        (if n < 0 then (a.length : Int) + n else n) ≥ a.length)) ∧
    ((0 ≤ QJsonArray.resolveIndex a n ∧ QJsonArray.resolveIndex a n < a.length) →
      QJsonArray.resolveIndex a n = (if n < 0 then (a.length : Int) + n else n)) := by
  unfold QJsonArray.resolveIndex
  split_ifs <;> exact ⟨⟨fun h => by omega, fun h => by omega⟩, fun h => by omega⟩

theorem resolve_nil (v : QJsonValue) : resolve v [] = some v := by
  cases v <;> rfl

theorem resolve_index_array (a : QJsonArray) (n : Int) (rest : List Segment) :
    resolve (array a) (Index n :: rest) =
      if 0 ≤ QJsonArray.resolveIndex a n ∧ QJsonArray.resolveIndex a n < a.length then
        resolve (a.getD (QJsonArray.resolveIndex a n).toNat undefined) rest
      else none := by
  obtain ⟨hiff, heq⟩ := resolveIndex_spec a n
  simp only [resolve]
  by_cases h : 0 ≤ QJsonArray.resolveIndex a n ∧ QJsonArray.resolveIndex a n < a.length
  · rw [if_pos h, if_neg (hiff.1 h), heq h]
  · rw [if_neg h, if_pos (by
      by_contra hc
      exact h (hiff.2 hc))]

/-- GET computes the resolution of the path that the specification describes. -/
theorem handle_get_eq_resolve (nv : QJsonValue) :
    ∀ (path : List Segment) (v : QJsonValue), path ≠ [] →
      handleJsonAttribute v path nv GET = .ok ((resolve v path).getD undefined)
  | [], _, h => absurd rfl h
  | [Name k], v, _ => by
    rw [handle_get_name_last]
    cases v with
    | object o =>
      by_cases hc : QJsonObject.contains o k = true
      · simp [resolve, toObject_object, hc]
      · simp [resolve, toObject_object, hc]
    | _ => simp [resolve, toObject, QJsonObject.contains]
  | Name k :: r :: rs, v, _ => by
    rw [handle_get_name_more]
    cases v with
    | object o =>
      by_cases hc : QJsonObject.contains o k = true
      · simp only [toObject_object, hc, if_true, resolve]
        exact handle_get_eq_resolve nv (r :: rs) _ (by simp)
      · simp [resolve, toObject_object, hc]
    | _ => simp [resolve, toObject, QJsonObject.contains]
  | [Index n], v, _ => by
    rw [handle_get_index_last]
    cases v with
    | array a =>
      rw [resolve_index_array, toArray_array]
      by_cases h : 0 ≤ QJsonArray.resolveIndex a n ∧ QJsonArray.resolveIndex a n < a.length
      · rw [if_pos h, if_pos h, resolve_nil]
        rfl
      · rw [if_neg h, if_neg h]
        rfl
    | _ => simp [resolve, toArray, resolveIndex_nil_out]
  | Index n :: r :: rs, v, _ => by
    rw [handle_get_index_more]
    have ih := fun w => handle_get_eq_resolve nv (r :: rs) w (by simp)
    cases v with
    | array a =>
      rw [resolve_index_array, toArray_array]
      by_cases h : 0 ≤ QJsonArray.resolveIndex a n ∧ QJsonArray.resolveIndex a n < a.length
      · rw [if_pos h, if_pos h]
        exact ih _
      · rw [if_neg h, if_neg h]
        rfl
    | _ => simp [resolve, toArray, resolveIndex_nil_out]

theorem persistedEntries_value (o : QJsonObject) (k : QString)
    (h : persistedEntries o = true) (hc : QJsonObject.contains o k = true) :
    (QJsonObject.value o k).isUndefined = false ∧ (QJsonObject.value o k).persisted = true := by
  induction o with
  | nil => simp [QJsonObject.contains] at hc
  | cons e rest ih =>
    obtain ⟨k1, w⟩ := e
    simp only [persistedEntries, Bool.and_eq_true, Bool.not_eq_true'] at h
    by_cases h1 : k1 = k
    · simp [QJsonObject.value, h1, h.1.1, h.1.2]
    · have hrest : QJsonObject.contains rest k = true := by
        simpa [QJsonObject.contains, h1] using hc
      simpa [QJsonObject.value, h1] using ih h.2 hrest

theorem persistedAll_getD (a : QJsonArray) (i : Nat) (h : persistedAll a = true)
    (hi : i < a.length) :
    (a.getD i undefined).isUndefined = false ∧ (a.getD i undefined).persisted = true := by
  induction a generalizing i with
  | nil => simp at hi
  | cons w rest ih =>
    simp only [persistedAll, Bool.and_eq_true, Bool.not_eq_true'] at h
    cases i with
    | zero => simp [h.1.1, h.1.2]
    | succ j =>
      have hj : j < rest.length := by simpa using hi
      simpa using ih j h.2 hj

theorem toObject_of_contains (v : QJsonValue) (k : QString)
    (h : QJsonObject.contains v.toObject k = true) : v = object v.toObject := by
  cases v <;> simp [toObject, QJsonObject.contains] at h ⊢

theorem toArray_of_lt (v : QJsonValue) (i : Int)
    (h : 0 ≤ i ∧ i < (v.toArray.length : Int)) : v = array v.toArray := by
  cases v <;> simp [toArray] at h ⊢ <;> omega

theorem put_value_self (o : QJsonObject) (k : QString)
    (hc : QJsonObject.contains o k = true) :
    QJsonObject.put o k (QJsonObject.value o k) = o := by
  simp [QJsonObject.put, hc, QJsonObject.replace_value_self]

theorem assign_getD_self (a : QJsonArray) (i : Nat) (hi : i < a.length)
    (hu : (a.getD i undefined).isUndefined = false) :
    QJsonArray.assign a i (a.getD i undefined) = a := by
  rw [QJsonArray.assign, stored_of_ne_undefined _ hu]
  apply List.ext_getElem?
  intro j
  by_cases hj : i = j
  · subst hj
    simp [List.getElem?_set, List.getD_eq_getElem?_getD, hi]
  · simp [List.getElem?_set, hj]

/-- REMOVE along a path on which GET finds nothing leaves the value as it is. -/
theorem handle_remove_noop (nv nv1 : QJsonValue) :
    ∀ (path : List Segment) (v : QJsonValue), path ≠ [] → v.persisted = true →
      handleJsonAttribute v path nv GET = .ok undefined →
      handleJsonAttribute v path nv1 REMOVE = .ok v
  | [], _, h, _, _ => absurd rfl h
  | [Name k], v, _, hp, hget => by
    rw [handle_get_name_last] at hget
    rw [handle_remove_name_last]
    by_cases hc : QJsonObject.contains v.toObject k = true
    · have hv := toObject_of_contains v k hc
      rw [hv] at hp
      have := (persistedEntries_value _ k (by simpa [QJsonValue.persisted] using hp) hc).1
      rw [if_pos hc] at hget
      simp only [Except.ok.injEq] at hget
      rw [hget] at this
      simp [isUndefined] at this
    · rw [if_neg hc]
  | Name k :: r :: rs, v, _, hp, hget => by
    rw [handle_get_name_more] at hget
    rw [handle_remove_name_more]
    by_cases hc : QJsonObject.contains v.toObject k = true
    · have hv := toObject_of_contains v k hc
      rw [hv] at hp
      obtain ⟨hu, hp1⟩ :=
        persistedEntries_value _ k (by simpa [QJsonValue.persisted] using hp) hc
      rw [if_pos hc] at hget
      rw [if_pos hc, handle_remove_noop nv nv1 (r :: rs) _ (by simp) hp1 hget]
      simp only [insert_of_ne_undefined _ _ _ hu, put_value_self _ _ hc]
      rw [← hv]
    · rw [if_neg hc]
  | [Index n], v, _, hp, hget => by
    rw [handle_get_index_last] at hget
    rw [handle_remove_index_last]
    by_cases hc : 0 ≤ QJsonArray.resolveIndex v.toArray n ∧
        QJsonArray.resolveIndex v.toArray n < v.toArray.length
    · have hv := toArray_of_lt v _ hc
      rw [hv] at hp
      have := (persistedAll_getD v.toArray (QJsonArray.resolveIndex v.toArray n).toNat
        (by simpa [QJsonValue.persisted] using hp) (by omega)).1
      rw [if_pos hc] at hget
      simp only [Except.ok.injEq] at hget
      rw [hget] at this
      simp [isUndefined] at this
    · rw [if_neg hc]
  | Index n :: r :: rs, v, _, hp, hget => by
    rw [handle_get_index_more] at hget
    rw [handle_remove_index_more]
    by_cases hc : 0 ≤ QJsonArray.resolveIndex v.toArray n ∧
        QJsonArray.resolveIndex v.toArray n < v.toArray.length
    · have hv := toArray_of_lt v _ hc
      rw [hv] at hp
      obtain ⟨hu, hp1⟩ := persistedAll_getD v.toArray
        (QJsonArray.resolveIndex v.toArray n).toNat
        (by simpa [QJsonValue.persisted] using hp) (by omega)
      rw [if_pos hc] at hget
      rw [if_pos hc, handle_remove_noop nv nv1 (r :: rs) _ (by simp) hp1 hget]
      simp only [assign_getD_self _ _ (by omega : (QJsonArray.resolveIndex v.toArray n).toNat <
        v.toArray.length) hu]
      rw [← hv]
    · rw [if_neg hc]

theorem handle_index_congr (v : QJsonValue) (n m : Int) (rest : List Segment)
    (x : QJsonValue) (op : HANDLE_JSON_OP)
    (h : QJsonArray.resolveIndex v.toArray n = QJsonArray.resolveIndex v.toArray m) :
    handleJsonAttribute v (Index n :: rest) x op =
      handleJsonAttribute v (Index m :: rest) x op := by
  simp only [handleJsonAttribute, h]

theorem resolveIndex_from_end (a : QJsonArray) (k : Int) (hk1 : 1 ≤ k)
    (hk2 : k ≤ a.length) :
    QJsonArray.resolveIndex a (-k) = QJsonArray.resolveIndex a ((a.length : Int) - k) := by
  unfold QJsonArray.resolveIndex
  have h0 : a.length ≠ 0 := by
    intro h
    rw [h] at hk2
    simp at hk2
    omega
  rw [if_pos (by omega), if_pos h0, if_neg (by omega)]
  omega

theorem getElem?_grow_set (a : QJsonArray) (i : Nat) (w : QJsonValue) (j : Nat) :
    (QJsonArray.assign (QJsonArray.grow a i) i w)[j]? =
      if j = i then some w.stored
      else if j < a.length then a[j]?
      else if j < i then some null else none := by
  rw [QJsonArray.assign, QJsonArray.grow_eq, List.getElem?_set]
  have hlen : (a ++ List.replicate ((i : Int) + 1 - (a.length : Int)).toNat null).length =
      max a.length (i + 1) := by
    simp only [List.length_append, List.length_replicate]
    omega
  by_cases hji : j = i
  · subst hji
    simp only [if_true, hlen]
    rw [if_pos (by omega)]
  · rw [if_neg (fun h => hji h.symm), if_neg hji]
    by_cases hja : j < a.length
    · rw [if_pos hja, List.getElem?_append_left hja]
    · rw [if_neg hja, List.getElem?_append_right (by omega), List.getElem?_replicate]
      by_cases hlt : j < i
      · rw [if_pos hlt, if_pos (by omega)]
      · rw [if_neg hlt, if_neg (by omega)]

theorem splitPath_empty (sep : Char) (toInt : QString → Option Int) :
    splitPath sep toInt [] = [Name []] := by
  rfl

theorem scan_cons (sep : Char) (toInt : QString → Option Int) (st : ScanState) (c : Char)
    (cs : QString) :
    scan sep toInt st (c :: cs) = scan sep toInt (scanStep sep toInt st c) cs := rfl

theorem scan_nil (sep : Char) (toInt : QString → Option Int) (st : ScanState) :
    scan sep toInt st [] = st := rfl

theorem scan_append (sep : Char) (toInt : QString → Option Int) (st : ScanState)
    (s t : QString) :
    scan sep toInt st (s ++ t) = scan sep toInt (scan sep toInt st s) t := by
  simp [scan, List.foldl_append]

theorem scanStep_sep (sep : Char) (toInt : QString → Option Int) (st : ScanState) :
    scanStep sep toInt st sep =
      { p := match st.name with
             | some nm => st.p ++ [Name nm]
             | none => st.p,
        name := some [],
        idx := none } := by
  simp [scanStep]

theorem fieldsOf_ne_nil (sep : Char) (s : QString) : fieldsOf sep s ≠ [] := by
  cases s with
  | nil => simp [fieldsOf]
  | cons c cs =>
    unfold fieldsOf
    split
    · simp
    · split <;> simp

theorem length_fieldsOf (sep : Char) (s : QString) :
    (fieldsOf sep s).length = s.count sep + 1 := by
  induction s with
  | nil => simp [fieldsOf]
  | cons c cs ih =>
    unfold fieldsOf
    by_cases h : c = sep
    · simp [h, ih]
    · have hne := fieldsOf_ne_nil sep cs
      have hcount : (c :: cs).count sep = cs.count sep := by
        rw [List.count_cons]
        simp [h]
      rw [if_neg h, hcount, ← ih]
      cases hf : fieldsOf sep cs with
      | nil => exact absurd hf hne
      | cons f fs => simp

theorem intercalate_cons_cons (sep x y : QString) (ys : List QString) :
    List.intercalate sep (x :: y :: ys) = x ++ sep ++ List.intercalate sep (y :: ys) := by
  simp [List.intercalate, List.intersperse]

/-- The fields, joined by the separator, are the text. -/
theorem intercalate_fieldsOf (sep : Char) (s : QString) :
    List.intercalate [sep] (fieldsOf sep s) = s := by
  induction s with
  | nil => simp [fieldsOf, List.intercalate, List.intersperse]
  | cons c cs ih =>
    have hne := fieldsOf_ne_nil sep cs
    cases hf : fieldsOf sep cs with
    | nil => exact absurd hf hne
    | cons f fs =>
      rw [hf] at ih
      unfold fieldsOf
      by_cases h : c = sep
      · rw [if_pos h, hf, intercalate_cons_cons, ih, h]
        rfl
      · rw [if_neg h, hf]
        cases fs with
        | nil =>
          simp only [List.intercalate, List.intersperse] at ih ⊢
          simp only [List.flatten, List.append_nil] at ih ⊢
          rw [ih]
        | cons g gs =>
          rw [intercalate_cons_cons] at ih ⊢
          rw [← ih]
          simp

/-- No field holds the separator. -/
theorem sep_not_mem_fieldsOf (sep : Char) (s : QString) : ∀ f ∈ fieldsOf sep s, sep ∉ f := by
  induction s with
  | nil => simp [fieldsOf]
  | cons c cs ih =>
    have hne := fieldsOf_ne_nil sep cs
    cases hf : fieldsOf sep cs with
    | nil => exact absurd hf hne
    | cons g gs =>
      rw [hf] at ih
      unfold fieldsOf
      by_cases h : c = sep
      · rw [if_pos h, hf]
        intro f hmem
        rcases List.mem_cons.1 hmem with e | e
        · simp [e]
        · exact ih f e
      · rw [if_neg h, hf]
        intro f hmem
        rcases List.mem_cons.1 hmem with e | e
        · have hg := ih g (by simp)
          rw [e]
          intro hin
          rcases List.mem_cons.1 hin with e1 | e1
          · exact h e1.symm
          · exact hg e1
        · exact ih f (by simp [e])

/-- On a text without brackets the scan ends with the fields of the text, the first
of them joined to the pending name. -/
theorem scan_fields (sep : Char) (toInt : QString → Option Int) :
    ∀ (s : QString) (p : List Segment) (nm : QString), '[' ∉ s → ']' ∉ s →
      ∃ f fs, fieldsOf sep s = f :: fs ∧
        (scan sep toInt { p := p, name := some nm, idx := none } s).finish =
          p ++ Name (nm ++ f) :: fs.map Name
  | [], p, nm, _, _ => ⟨[], [], rfl, by simp [scan_nil, ScanState.finish]⟩
  | c :: cs, p, nm, h1, h2 => by
    have h1c : c ≠ '[' := fun h => h1 (by simp [h])
    have h2c : c ≠ ']' := fun h => h2 (by simp [h])
    have h1s : '[' ∉ cs := fun h => h1 (by simp [h])
    have h2s : ']' ∉ cs := fun h => h2 (by simp [h])
    by_cases hsep : c = sep
    · subst hsep
      obtain ⟨f, fs, hf, hscan⟩ := scan_fields c toInt cs (p ++ [Name nm]) [] h1s h2s
      refine ⟨[], f :: fs, by simp [fieldsOf, hf], ?_⟩
      rw [scan_cons, scanStep_sep]
      simp only [hscan]
      simp
    · obtain ⟨f, fs, hf, hscan⟩ := scan_fields sep toInt cs p (nm ++ [c]) h1s h2s
      refine ⟨c :: f, fs, by simp [fieldsOf, hsep, hf], ?_⟩
      rw [scan_cons, scanStep_push sep toInt _ c hsep h1c (Or.inl h2c)]
      simp only [ScanState.push, Option.map_some', Option.map_none', hscan]
      simp

theorem scanStep_replaceChar (c1 c2 : Char) (toInt : QString → Option Int) (st : ScanState)
    (c : Char) (hc : c ≠ c2) :
    scanStep c2 toInt st (if c = c1 then c2 else c) = scanStep c1 toInt st c := by
  by_cases h : c = c1
  · subst h
    rw [if_pos rfl, scanStep_sep, scanStep_sep]
  · rw [if_neg h]
    unfold scanStep
    rw [if_neg hc, if_neg h]

theorem scan_replaceChar (c1 c2 : Char) (toInt : QString → Option Int) :
    ∀ (p : QString) (st : ScanState), c2 ∉ p →
      scan c2 toInt st (replaceChar c1 c2 p) = scan c1 toInt st p
  | [], _, _ => rfl
  | c :: cs, st, h => by
    have hc : c ≠ c2 := fun e => h (by simp [e])
    have hcs : c2 ∉ cs := fun e => h (by simp [e])
    have ih := scan_replaceChar c1 c2 toInt cs (scanStep c1 toInt st c) hcs
    simp only [replaceChar, List.map_cons] at ih ⊢
    rw [scan_cons, scan_cons, scanStep_replaceChar c1 c2 toInt st c hc, ih]

theorem toNat_digitChar (d : Nat) (h : d < 10) : (digitChar d).toNat = 48 + d := by
  interval_cases d <;> rfl

theorem digitVal_digitChar (d : Nat) (h : d < 10) : digitVal (digitChar d) = some d := by
  interval_cases d <;> rfl

theorem natDigitsAux_digits :
    ∀ (fuel n : Nat), ∀ c ∈ natDigitsAux fuel n, 48 ≤ c.toNat ∧ c.toNat ≤ 57
  | 0, _, c, h => by simp [natDigitsAux] at h
  | fuel + 1, n, c, h => by
    unfold natDigitsAux at h
    by_cases hn : n < 10
    · rw [if_pos hn] at h
      simp only [List.mem_singleton] at h
      rw [h, toNat_digitChar n hn]
      omega
    · rw [if_neg hn] at h
      rcases List.mem_append.1 h with h | h
      · exact natDigitsAux_digits fuel (n / 10) c h
      · simp only [List.mem_singleton] at h
        rw [h, toNat_digitChar (n % 10) (Nat.mod_lt _ (by decide))]
        omega

theorem parseDigits_append (l1 l2 : List Char) (acc : Nat) :
    parseDigits (l1 ++ l2) acc =
      match parseDigits l1 acc with
      | some v => parseDigits l2 v
      | none => none := by
  induction l1 generalizing acc with
  | nil => rfl
  | cons c cs ih =>
    simp only [List.cons_append, parseDigits]
    cases digitVal c with
    | none => rfl
    | some d => exact ih _

theorem parseDigits_natDigitsAux :
    ∀ (fuel n : Nat), n < fuel → parseDigits (natDigitsAux fuel n) 0 = some n
  | 0, _, h => by omega
  | fuel + 1, n, h => by
    unfold natDigitsAux
    by_cases hn : n < 10
    · rw [if_pos hn]
      simp [parseDigits, digitVal_digitChar n hn]
    · rw [if_neg hn, parseDigits_append,
        parseDigits_natDigitsAux fuel (n / 10) (by omega)]
      simp only [parseDigits, digitVal_digitChar (n % 10) (Nat.mod_lt _ (by decide))]
      congr 1
      omega

theorem natDigitsAux_ne_nil (fuel n : Nat) (h : n < fuel) : natDigitsAux fuel n ≠ [] := by
  cases fuel with
  | zero => omega
  | succ f =>
    unfold natDigitsAux
    split <;> simp

theorem natDigits_ne_nil (n : Nat) : natDigits n ≠ [] :=
  natDigitsAux_ne_nil (n + 1) n (by omega)

theorem natDigits_digits (n : Nat) : ∀ c ∈ natDigits n, 48 ≤ c.toNat ∧ c.toNat ≤ 57 :=
  natDigitsAux_digits (n + 1) n

theorem parseDigits_natDigits (n : Nat) : parseDigits (natDigits n) 0 = some n :=
  parseDigits_natDigitsAux (n + 1) n (by omega)

theorem isDecimalChar_of_mem_decimal (n : Int) : ∀ c ∈ decimal n, isDecimalChar c = true := by
  intro c hc
  unfold decimal at hc
  unfold isDecimalChar
  split at hc
  · rcases List.mem_cons.1 hc with h | h
    · simp [h]
    · have := natDigits_digits _ c h
      simp [this]
  · have := natDigits_digits _ c hc
    simp [this]

theorem toIntDec_digits (ds : List Char) (v : Nat) (hne : ds ≠ [])
    (hd : ∀ c ∈ ds, 48 ≤ c.toNat ∧ c.toNat ≤ 57) (hp : parseDigits ds 0 = some v)
    (hv : v ≤ 2147483647) : toIntDec ds = some (v : Int) := by
  unfold toIntDec
  split
  · exact absurd rfl hne
  · have h := hd '-' (by simp)
    exact absurd h (by decide)
  · have h := hd '+' (by simp)
    exact absurd h (by decide)
  · simp [hp, hv]

theorem toIntDec_minus (ds : List Char) (v : Nat) (hne : ds ≠ [])
    (hp : parseDigits ds 0 = some v) (hv : v ≤ 2147483648) :
    toIntDec ('-' :: ds) = some (-(v : Int)) := by
  simp [toIntDec, hne, hp, hv]

/-- The model of `QString::toInt` reads back the decimal text of every `int`. -/
theorem toIntDec_decimal (n : Int) (h1 : -2147483648 ≤ n) (h2 : n ≤ 2147483647) :
    toIntDec (decimal n) = some n := by
  unfold decimal
  by_cases hn : n < 0
  · rw [if_pos hn, toIntDec_minus _ n.natAbs (natDigits_ne_nil _)
      (parseDigits_natDigits _) (by omega)]
    congr 1
    omega
  · rw [if_neg hn, toIntDec_digits _ n.natAbs (natDigits_ne_nil _)
      (natDigits_digits _) (parseDigits_natDigits _) (by omega)]
    congr 1
    omega

/-- Characters that are neither the separator nor a bracket extend the pending
texts. -/
theorem scan_plain (sep : Char) (toInt : QString → Option Int) :
    ∀ (t : QString) (st : ScanState), (∀ c ∈ t, c ≠ sep ∧ c ≠ '[' ∧ c ≠ ']') →
      scan sep toInt st t =
        { p := st.p, name := st.name.map (· ++ t), idx := st.idx.map (· ++ t) }
  | [], st, _ => by
    cases st with
    | mk p name idx => cases name <;> cases idx <;> simp [scan_nil]
  | c :: cs, st, h => by
    obtain ⟨h1, h2, h3⟩ := h c (by simp)
    have hcs : ∀ d ∈ cs, d ≠ sep ∧ d ≠ '[' ∧ d ≠ ']' := fun d hd => h d (by simp [hd])
    rw [scan_cons, scanStep_push sep toInt st c h1 h2 (Or.inl h3),
      scan_plain sep toInt cs _ hcs]
    cases st with
    | mk p name idx => cases name <;> cases idx <;> simp [ScanState.push]

theorem flushName_bracket (p : List Segment) (s ds : QString) :
    flushName p (some (s ++ '[' :: ds)) ds = if s ≠ [] then p ++ [Name s] else p := by
  unfold flushName
  have hlen : (s ++ '[' :: ds).length - (ds.length + 1) = s.length := by
    simp only [List.length_append, List.length_cons]
    omega
  simp only [hlen]
  by_cases hs : s = []
  · simp [hs]
  · have hpos : s.length > 0 := List.length_pos.2 hs
    rw [if_pos hpos, if_pos hs, List.take_left' rfl]

/-- The scan of a bracketed integer text. -/
theorem scan_index (sep : Char) (toInt : QString → Option Int) (p : List Segment)
    (nm : Option QString) (ds : QString) (n : Int) (hs1 : sep ≠ '[') (hs2 : sep ≠ ']')
    (hds : ∀ c ∈ ds, c ≠ sep ∧ c ≠ '[' ∧ c ≠ ']') (hto : toInt ds = some n) :
    scan sep toInt { p := p, name := nm, idx := none } ('[' :: ds ++ [']']) =
      { p := flushName p (nm.map (· ++ '[' :: ds)) ds ++ [Index n],
        name := none, idx := none } := by
  have hopen : scanStep sep toInt { p := p, name := nm, idx := none } '[' =
      { p := p, name := nm.map (· ++ ['[']), idx := some [] } := by
    unfold scanStep
    rw [if_neg (fun h => hs1 h.symm), if_pos rfl]
  rw [List.cons_append, scan_cons, hopen, scan_append, scan_plain sep toInt ds _ hds,
    scan_cons, scan_nil,
    scanStep_index sep toInt _ ds n (fun h => hs2 h.symm) (by simp) hto]
  cases nm <;> simp

theorem plain_of_canonical_name (sep : Char) (s : QString)
    (h : canonicalSegment sep (Name s) = true) :
    s ≠ [] ∧ ∀ c ∈ s, c ≠ sep ∧ c ≠ '[' ∧ c ≠ ']' := by
  simp only [canonicalSegment, Bool.and_eq_true, decide_eq_true_eq] at h
  obtain ⟨⟨⟨h0, h1⟩, h2⟩, h3⟩ := h
  refine ⟨h0, fun c hc => ⟨?_, ?_, ?_⟩⟩
  · intro e
    exact h1 (e ▸ hc)
  · intro e
    exact h2 (e ▸ hc)
  · intro e
    exact h3 (e ▸ hc)

theorem plain_of_decimal (sep : Char) (n : Int) (hsep : isDecimalChar sep = false) :
    ∀ c ∈ decimal n, c ≠ sep ∧ c ≠ '[' ∧ c ≠ ']' := by
  intro c hc
  have hd := isDecimalChar_of_mem_decimal n c hc
  refine ⟨?_, ?_, ?_⟩
  · intro e
    rw [e, hsep] at hd
    exact Bool.noConfusion hd
  · intro e
    rw [e] at hd
    revert hd
    decide
  · intro e
    rw [e] at hd
    revert hd
    decide

/-- The scan of the canonical text of a list of segments that follows a first
segment. -/
theorem scan_renderFrom (sep : Char) (toInt : QString → Option Int) (hs1 : sep ≠ '[')
    (hs2 : sep ≠ ']') (hsep : isDecimalChar sep = false)
    (hto : ∀ n : Int, -2147483648 ≤ n → n ≤ 2147483647 → toInt (decimal n) = some n) :
    ∀ (segs : List Segment), (∀ seg ∈ segs, canonicalSegment sep seg = true) →
      ∀ p : List Segment,
        (∀ s : QString, s ≠ [] →
          (scan sep toInt { p := p, name := some s, idx := none }
            (renderFrom sep false segs)).finish = p ++ Name s :: segs) ∧
        (scan sep toInt { p := p, name := none, idx := none }
            (renderFrom sep false segs)).finish = p ++ segs
  | [], _, p => by
    simp [renderFrom, scan_nil, ScanState.finish]
  | Name t :: rest, h, p => by
    obtain ⟨ht0, htp⟩ := plain_of_canonical_name sep t (h _ (by simp))
    have ih := scan_renderFrom sep toInt hs1 hs2 hsep hto rest
      (fun seg hseg => h seg (by simp [hseg]))
    have hrender : renderFrom sep false (Name t :: rest) =
        sep :: (t ++ renderFrom sep false rest) := by
      simp [renderFrom]
    rw [hrender]
    constructor
    · intro s _
      rw [scan_cons, scanStep_sep, scan_append, scan_plain sep toInt t _ htp]
      simp only [Option.map_some', List.nil_append, Option.map_none']
      rw [(ih (p ++ [Name s])).1 t ht0]
      simp
    · rw [scan_cons, scanStep_sep, scan_append, scan_plain sep toInt t _ htp]
      simp only [Option.map_some', List.nil_append, Option.map_none']
      rw [(ih p).1 t ht0]
  | Index n :: rest, h, p => by
    have hn : -2147483648 ≤ n ∧ n ≤ 2147483647 := by
      have := h (Index n) (by simp)
      simpa [canonicalSegment] using this
    have ih := scan_renderFrom sep toInt hs1 hs2 hsep hto rest
      (fun seg hseg => h seg (by simp [hseg]))
    have hrender : renderFrom sep false (Index n :: rest) =
        ('[' :: decimal n ++ [']']) ++ renderFrom sep false rest := by
      simp [renderFrom]
    rw [hrender]
    constructor
    · intro s hs
      rw [scan_append, scan_index sep toInt p _ _ n hs1 hs2 (plain_of_decimal sep n hsep)
        (hto n hn.1 hn.2)]
      simp only [Option.map_some', flushName_bracket, if_pos hs]
      rw [(ih _).2]
      simp
    · rw [scan_append, scan_index sep toInt p _ _ n hs1 hs2 (plain_of_decimal sep n hsep)
        (hto n hn.1 hn.2)]
      simp only [Option.map_none', flushName]
      rw [(ih _).2]
      simp

theorem toObject_of_not_object (v : QJsonValue) (h : v.isObject = false) :
    v.toObject = [] := by
  cases v <;> simp [toObject, isObject] at h ⊢

theorem toArray_of_not_array (v : QJsonValue) (h : v.isArray = false) :
    v.toArray = [] := by
  cases v <;> simp [toArray, isArray] at h ⊢

/-- SET through a Name sees of the value only the object it holds. -/
theorem handle_set_name_congr (v w : QJsonValue) (k : QString) (rest : List Segment)
    (x : QJsonValue) (h : v.toObject = w.toObject) :
    handleJsonAttribute v (Name k :: rest) x SET =
      handleJsonAttribute w (Name k :: rest) x SET := by
  cases rest with
  | nil => rw [handle_set_name_last, handle_set_name_last, h]
  | cons r rs => rw [handle_set_name_more, handle_set_name_more, h]

/-- SET through an Index sees of the value only the array it holds. -/
theorem handle_set_index_congr (v w : QJsonValue) (n : Int) (rest : List Segment)
    (x : QJsonValue) (h : v.toArray = w.toArray) :
    handleJsonAttribute v (Index n :: rest) x SET =
      handleJsonAttribute w (Index n :: rest) x SET := by
  cases rest with
  | nil => rw [handle_set_index_last, handle_set_index_last, h]
  | cons r rs => rw [handle_set_index_more, handle_set_index_more, h]

theorem negativeInRange_of_nonNegative :
    ∀ (path : List Segment) (v : QJsonValue), nonNegative path = true →
      negativeInRange v path = true
  | [], _, _ => rfl
  | Name k :: rest, v, h => by
    have h1 : nonNegative rest = true := by simpa [nonNegative] using h
    simpa [negativeInRange] using negativeInRange_of_nonNegative rest _ h1
  | Index n :: rest, v, h => by
    have hboth : 0 ≤ n ∧ nonNegative rest = true := by simpa [nonNegative] using h
    have hlen : -n ≤ ((QJsonArray.grow v.toArray (QJsonArray.resolveIndex v.toArray n)).length
        : Int) := by omega
    simp only [negativeInRange, Bool.and_eq_true, decide_eq_true_eq]
    exact ⟨hlen, negativeInRange_of_nonNegative rest _ hboth.2⟩

theorem contains_remove_ne (o : QJsonObject) (k k1 : QString) (h : k ≠ k1) :
    QJsonObject.contains (QJsonObject.remove o k) k1 = QJsonObject.contains o k1 := by
  induction o with
  | nil => simp [QJsonObject.remove]
  | cons e rest ih =>
    obtain ⟨k2, w⟩ := e
    unfold QJsonObject.remove
    by_cases h2 : k2 = k
    · have : ¬ k2 = k1 := by
        rw [h2]
        exact h
      simp [h2, QJsonObject.contains, h, ih]
    · simp [h2, QJsonObject.contains, ih]

theorem value_remove_ne (o : QJsonObject) (k k1 : QString) (h : k ≠ k1) :
    QJsonObject.value (QJsonObject.remove o k) k1 = QJsonObject.value o k1 := by
  induction o with
  | nil => simp [QJsonObject.remove]
  | cons e rest ih =>
    obtain ⟨k2, w⟩ := e
    unfold QJsonObject.remove
    by_cases h2 : k2 = k
    · simp [h2, QJsonObject.value, h, ih]
    · simp [h2, QJsonObject.value, ih]

theorem scanStep_open (sep : Char) (toInt : QString → Option Int) (st : ScanState)
    (hsep : '[' ≠ sep) :
    scanStep sep toInt st '[' =
      { p := st.p, name := st.name.map (· ++ ['[']), idx := some [] } := by
  unfold scanStep
  rw [if_neg hsep, if_pos rfl]

/-- When no bracketed text reads as an integer the scan ends with the fields of the
text, the first of them joined to the pending name. -/
theorem scan_fields_literal (sep : Char) (toInt : QString → Option Int) :
    ∀ (s : QString) (p : List Segment) (nm : QString) (ix : Option QString),
      (∀ t ∈ bracketTexts sep ix s, toInt t = none) →
      ∃ f fs, fieldsOf sep s = f :: fs ∧
        (scan sep toInt { p := p, name := some nm, idx := ix } s).finish =
          p ++ Name (nm ++ f) :: fs.map Name
  | [], p, nm, ix, _ => ⟨[], [], rfl, by simp [scan_nil, ScanState.finish]⟩
  | c :: cs, p, nm, ix, h => by
    by_cases hsep : c = sep
    · subst hsep
      have h1 : ∀ t ∈ bracketTexts c none cs, toInt t = none := by
        intro t ht
        apply h t
        simp only [bracketTexts, if_true]
        exact ht
      obtain ⟨f, fs, hf, hscan⟩ := scan_fields_literal c toInt cs (p ++ [Name nm]) [] none h1
      refine ⟨[], f :: fs, by simp [fieldsOf, hf], ?_⟩
      rw [scan_cons, scanStep_sep]
      simp only [hscan]
      simp
    · by_cases hopen : c = '['
      · subst hopen
        have h1 : ∀ t ∈ bracketTexts sep (some []) cs, toInt t = none := by
          intro t ht
          apply h t
          simp only [bracketTexts, if_neg hsep, if_true]
          exact ht
        obtain ⟨f, fs, hf, hscan⟩ :=
          scan_fields_literal sep toInt cs p (nm ++ ['[']) (some []) h1
        refine ⟨'[' :: f, fs, by simp [fieldsOf, hsep, hf], ?_⟩
        rw [scan_cons, scanStep_open sep toInt _ hsep]
        simp only [Option.map_some', hscan]
        simp
      · by_cases hclose : c = ']'
        · subst hclose
          cases ix with
          | none =>
            have h1 : ∀ t ∈ bracketTexts sep none cs, toInt t = none := by
              intro t ht
              apply h t
              simp only [bracketTexts, if_neg hsep, if_neg hopen, if_true]
              exact ht
            obtain ⟨f, fs, hf, hscan⟩ :=
              scan_fields_literal sep toInt cs p (nm ++ [']']) none h1
            refine ⟨']' :: f, fs, by simp [fieldsOf, hsep, hf], ?_⟩
            rw [scan_cons, scanStep_push sep toInt _ ']' hsep hopen (Or.inr (Or.inl rfl))]
            simp only [ScanState.push, Option.map_some', Option.map_none', hscan]
            simp
          | some t =>
            have hmem : bracketTexts sep (some t) (']' :: cs) =
                t :: bracketTexts sep (some (t ++ [']'])) cs := by
              simp only [bracketTexts, if_neg hsep, if_neg hopen, if_true]
            have ht : toInt t = none := h t (by rw [hmem]; simp)
            have h1 : ∀ u ∈ bracketTexts sep (some (t ++ [']'])) cs, toInt u = none := by
              intro u hu
              apply h u
              rw [hmem]
              simp [hu]
            obtain ⟨f, fs, hf, hscan⟩ :=
              scan_fields_literal sep toInt cs p (nm ++ [']']) (some (t ++ [']'])) h1
            refine ⟨']' :: f, fs, by simp [fieldsOf, hsep, hf], ?_⟩
            rw [scan_cons, scanStep_push sep toInt _ ']' hsep hopen
              (Or.inr (Or.inr ⟨t, rfl, ht⟩))]
            simp only [ScanState.push, Option.map_some', hscan]
            simp
        · have h1 : ∀ t ∈ bracketTexts sep (ix.map (· ++ [c])) cs, toInt t = none := by
            intro t ht
            apply h t
            simp only [bracketTexts, if_neg hsep, if_neg hopen, if_neg hclose]
            exact ht
          obtain ⟨f, fs, hf, hscan⟩ :=
            scan_fields_literal sep toInt cs p (nm ++ [c]) (ix.map (· ++ [c])) h1
          refine ⟨c :: f, fs, by simp [fieldsOf, hsep, hf], ?_⟩
          rw [scan_cons, scanStep_push sep toInt _ c hsep hopen (Or.inl hclose)]
          simp only [ScanState.push, Option.map_some', hscan]
          simp

theorem remove_insertSorted_self (o : QJsonObject) (k : QString) (v : QJsonValue)
    (h : QJsonObject.contains o k = false) :
    QJsonObject.remove (QJsonObject.insertSorted o k v) k = o := by
  induction o with
  | nil => simp [QJsonObject.insertSorted, QJsonObject.remove]
  | cons e rest ih =>
    obtain ⟨k1, w⟩ := e
    have hk : ¬ k1 = k := by
      intro e
      simp [QJsonObject.contains, e] at h
    have hrest : QJsonObject.contains rest k = false := by
      simpa [QJsonObject.contains, hk] using h
    unfold QJsonObject.insertSorted
    by_cases hlt : k < k1
    · rw [if_pos hlt]
      simp [QJsonObject.remove, hk, QJsonObject.remove_of_not_contains rest k hrest]
    · rw [if_neg hlt]
      simp [QJsonObject.remove, hk, ih hrest]

theorem remove_replace (o : QJsonObject) (k : QString) (v : QJsonValue) :
    QJsonObject.remove (QJsonObject.replace o k v) k = QJsonObject.remove o k := by
  induction o with
  | nil => simp [QJsonObject.replace]
  | cons e rest ih =>
    obtain ⟨k1, w⟩ := e
    unfold QJsonObject.replace
    by_cases h1 : k1 = k
    · simp [h1, QJsonObject.remove]
    · simp [h1, QJsonObject.remove, ih]

theorem ref_of_not_contains (o : QJsonObject) (k : QString)
    (h : QJsonObject.contains o k = false) :
    QJsonObject.ref o k = (QJsonObject.insertSorted o k null, null) := by
  simp [QJsonObject.ref, h]

theorem remove_insert_fresh (o : QJsonObject) (k : QString) (w : QJsonValue)
    (h : QJsonObject.contains o k = false) :
    QJsonObject.remove (QJsonObject.insert (QJsonObject.insertSorted o k null) k w) k = o := by
  unfold QJsonObject.insert
  by_cases hw : w.isUndefined = true
  · rw [if_pos hw]
    rw [remove_insertSorted_self o k null h, QJsonObject.remove_of_not_contains o k h]
  · rw [if_neg hw]
    unfold QJsonObject.put
    rw [if_pos (QJsonObject.contains_insertSorted_self o k null), remove_replace,
      remove_insertSorted_self o k null h]

/-- REMOVE of a key that SET has just created gives the object back. -/
theorem handle_remove_fresh_key (o : QJsonObject) (k : QString) (w nv : QJsonValue)
    (h : QJsonObject.contains o k = false) :
    handleJsonAttribute
        (object (QJsonObject.insert (QJsonObject.insertSorted o k null) k w)) [Name k] nv
        REMOVE = .ok (object o) := by
  rw [handle_remove_name_last, toObject_object, remove_insert_fresh o k w h]
  by_cases hc : QJsonObject.contains
      (QJsonObject.insert (QJsonObject.insertSorted o k null) k w) k = true
  · rw [if_pos hc]
  · rw [if_neg hc]
    have hrem := remove_insert_fresh o k w h
    rw [QJsonObject.remove_of_not_contains _ k (by simpa using hc)] at hrem
    rw [hrem]

theorem getD_grow_nil (idx : Int) (h : 0 ≤ idx) :
    (QJsonArray.grow [] idx).getD idx.toNat undefined = null := by
  rw [QJsonArray.grow_eq]
  simp only [List.nil_append, List.length_nil, Nat.cast_zero, sub_zero,
    List.getD_eq_getElem?_getD, List.getElem?_replicate]
  rw [if_pos (by omega)]
  rfl

theorem resolveIndex_nil_nonneg (n : Int) : 0 ≤ QJsonArray.resolveIndex [] n := by
  unfold QJsonArray.resolveIndex
  split_ifs <;> simp_all

/-- SET on a value that holds neither an object nor an array returns, whatever the
path. -/
theorem handle_set_fresh :
    ∀ (path : List Segment) (v x : QJsonValue), path ≠ [] → v.toObject = [] →
      v.toArray = [] →
      ∃ v1, handleJsonAttribute v path x SET = .ok v1 ∧ v1.isUndefined = false
  | [], _, _, h, _, _ => absurd rfl h
  | [Name k], v, x, _, _, _ => ⟨_, handle_set_name_last v k x, rfl⟩
  | Name k :: r :: rs, v, x, _, ho, _ => by
    have hsub : (QJsonObject.ref v.toObject k).2 = null := by
      rw [ho]
      rfl
    obtain ⟨s1, hs, -⟩ := handle_set_fresh (r :: rs) null x (by simp) rfl rfl
    refine ⟨object (QJsonObject.insert (QJsonObject.ref v.toObject k).1 k s1), ?_, rfl⟩
    rw [handle_set_name_more, hsub, hs]
  | [Index n], v, x, _, _, ha => by
    have h0 := resolveIndex_nil_nonneg n
    have hg := QJsonArray.length_grow [] (QJsonArray.resolveIndex [] n)
    refine ⟨array (QJsonArray.assign (QJsonArray.grow [] (QJsonArray.resolveIndex [] n))
      (QJsonArray.resolveIndex [] n).toNat x), ?_, rfl⟩
    rw [handle_set_index_last, ha, if_pos ⟨h0, by omega⟩]
  | Index n :: r :: rs, v, x, _, _, ha => by
    have h0 := resolveIndex_nil_nonneg n
    have hg := QJsonArray.length_grow [] (QJsonArray.resolveIndex [] n)
    obtain ⟨s1, hs, -⟩ := handle_set_fresh (r :: rs) null x (by simp) rfl rfl
    refine ⟨array (QJsonArray.assign (QJsonArray.grow [] (QJsonArray.resolveIndex [] n))
      (QJsonArray.resolveIndex [] n).toNat s1), ?_, rfl⟩
    rw [handle_set_index_more, ha, if_pos ⟨h0, by omega⟩, getD_grow_nil _ h0, hs]

/-- SET returns an Object when the path starts with a Name and an Array when it starts
with an Index. -/
theorem handle_set_shape (v x v1 : QJsonValue) :
    ∀ path : List Segment, handleJsonAttribute v path x SET = .ok v1 →
      (startsWithName path = true → v1 = object v1.toObject) ∧
      (startsWithIndex path = true → v1 = array v1.toArray)
  | [], h => by simp [handleJsonAttribute] at h
  | [Name k], h => by
    rw [handle_set_name_last] at h
    simp only [Except.ok.injEq] at h
    subst h
    simp [startsWithIndex, toObject_object]
  | Name k :: r :: rs, h => by
    rw [handle_set_name_more] at h
    split at h
    · exact absurd h (by simp)
    · simp only [Except.ok.injEq] at h
      subst h
      simp [startsWithIndex, toObject_object]
  | [Index n], h => by
    rw [handle_set_index_last] at h
    split at h
    · simp only [Except.ok.injEq] at h
      subst h
      simp [startsWithName, toArray_array]
    · exact absurd h (by simp)
  | Index n :: r :: rs, h => by
    rw [handle_set_index_more] at h
    split at h
    · split at h
      · exact absurd h (by simp)
      · simp only [Except.ok.injEq] at h
        subst h
        simp [startsWithName, toArray_array]
    · exact absurd h (by simp)

/-- SET returns on every non-empty path whose Indexes are not negative. -/
theorem handle_set_total :
    ∀ (path : List Segment) (v x : QJsonValue), path ≠ [] → nonNegative path = true →
      ∃ v1, handleJsonAttribute v path x SET = .ok v1
  | [], _, _, h, _ => absurd rfl h
  | [Name k], v, x, _, _ => ⟨_, handle_set_name_last v k x⟩
  | Name k :: r :: rs, v, x, _, hnn => by
    have hnn1 : nonNegative (r :: rs) = true := by simpa [nonNegative] using hnn
    obtain ⟨s1, hs⟩ := handle_set_total (r :: rs) (QJsonObject.ref v.toObject k).2 x
      (by simp) hnn1
    exact ⟨_, by rw [handle_set_name_more, hs]⟩
  | [Index n], v, x, _, hnn => by
    have hn : 0 ≤ n := by simpa [nonNegative] using hnn
    have hg := QJsonArray.length_grow v.toArray n
    exact ⟨_, by rw [handle_set_index_last, resolveIndex_of_nonneg _ _ hn,
      if_pos ⟨hn, by omega⟩]⟩
  | Index n :: r :: rs, v, x, _, hnn => by
    have hboth : 0 ≤ n ∧ nonNegative (r :: rs) = true := by simpa [nonNegative] using hnn
    have hg := QJsonArray.length_grow v.toArray n
    obtain ⟨s1, hs⟩ := handle_set_total (r :: rs)
      ((QJsonArray.grow v.toArray n).getD n.toNat undefined) x (by simp) hboth.2
    exact ⟨_, by rw [handle_set_index_more, resolveIndex_of_nonneg _ _ hboth.1,
      if_pos ⟨hboth.1, by omega⟩, hs]⟩

theorem startsWith_cases (path : List Segment) (h : path ≠ []) :
    (startsWithName path = true ∧ startsWithIndex path = false) ∨
      (startsWithName path = false ∧ startsWithIndex path = true) := by
  cases path with
  | nil => exact absurd rfl h
  | cons s rest => cases s <;> simp [startsWithName, startsWithIndex]

theorem isArray_object_toObject (v : QJsonValue) (h : v = object v.toObject) :
    v.isArray = false := by
  rw [h]
  rfl

theorem isArray_array_toArray (v : QJsonValue) (h : v = array v.toArray) :
    v.isArray = true := by
  rw [h]
  rfl

/-- A Set call that the object-rooted adapter accepts stores the result of the
accessor, an Object. -/
theorem set_QJsonObject_ok (o o1 : QJsonObject) (path : List Segment) (x : QJsonValue)
    (h : QJsonPath.set_QJsonObject o path x = .ok o1) :
    QJsonPath.set (object o) path x = .ok (object o1) ∧ startsWithName path = true := by
  unfold QJsonPath.set_QJsonObject handleJsonAttribute_QJsonObject at h
  unfold QJsonPath.set
  cases hv : handleJsonAttribute (object o) path x SET with
  | error e => simp [hv] at h
  | ok val =>
    simp only [hv] at h
    have hshape := handle_set_shape (object o) x val path hv
    have hne : path ≠ [] := by
      intro e
      rw [e] at hv
      simp [handleJsonAttribute] at hv
    rcases startsWith_cases path hne with ⟨hn, -⟩ | ⟨-, hi⟩
    · have hval := hshape.1 hn
      rw [if_pos (by simp [isArray_object_toObject val hval])] at h
      simp only [Except.ok.injEq] at h
      rw [← h, ← hval]
      exact ⟨rfl, hn⟩
    · have hval := hshape.2 hi
      rw [if_neg (by simp [isArray_array_toArray val hval])] at h
      exact absurd h (by simp)

/-- A Set call that the array-rooted adapter accepts stores the result of the
accessor, an Array. -/
theorem set_QJsonArray_ok (a a1 : QJsonArray) (path : List Segment) (x : QJsonValue)
    (h : QJsonPath.set_QJsonArray a path x = .ok a1) :
    QJsonPath.set (array a) path x = .ok (array a1) ∧ startsWithIndex path = true := by
  unfold QJsonPath.set_QJsonArray handleJsonAttribute_QJsonArray at h
  unfold QJsonPath.set
  cases hv : handleJsonAttribute (array a) path x SET with
  | error e => simp [hv] at h
  | ok val =>
    simp only [hv] at h
    have hshape := handle_set_shape (array a) x val path hv
    have hne : path ≠ [] := by
      intro e
      rw [e] at hv
      simp [handleJsonAttribute] at hv
    rcases startsWith_cases path hne with ⟨hn, -⟩ | ⟨-, hi⟩
    · have hval := hshape.1 hn
      rw [if_neg (by simp [isArray_object_toObject val hval])] at h
      exact absurd h (by simp)
    · have hval := hshape.2 hi
      rw [if_pos (isArray_array_toArray val hval)] at h
      simp only [Except.ok.injEq] at h
      rw [← h, ← hval]
      exact ⟨rfl, hi⟩

theorem setAll_QJsonObject_ok :
    ∀ (calls : List (List Segment × QJsonValue)) (o o1 : QJsonObject),
      QJsonPath.setAll_QJsonObject o calls = .ok o1 →
      QJsonPath.setAll (object o) calls = .ok (object o1)
  | [], o, o1, h => by
    simp only [QJsonPath.setAll_QJsonObject, Except.ok.injEq] at h
    rw [h]
    rfl
  | (path, x) :: calls, o, o1, h => by
    simp only [QJsonPath.setAll_QJsonObject] at h
    cases hs : QJsonPath.set_QJsonObject o path x with
    | error e => simp [hs] at h
    | ok o2 =>
      simp only [hs] at h
      have h1 := (set_QJsonObject_ok o o2 path x hs).1
      simp only [QJsonPath.setAll, h1]
      exact setAll_QJsonObject_ok calls o2 o1 h

theorem setAll_QJsonArray_ok :
    ∀ (calls : List (List Segment × QJsonValue)) (a a1 : QJsonArray),
      QJsonPath.setAll_QJsonArray a calls = .ok a1 →
      QJsonPath.setAll (array a) calls = .ok (array a1)
  | [], a, a1, h => by
    simp only [QJsonPath.setAll_QJsonArray, Except.ok.injEq] at h
    rw [h]
    rfl
  | (path, x) :: calls, a, a1, h => by
    simp only [QJsonPath.setAll_QJsonArray] at h
    cases hs : QJsonPath.set_QJsonArray a path x with
    | error e => simp [hs] at h
    | ok a2 =>
      simp only [hs] at h
      have h1 := (set_QJsonArray_ok a a2 path x hs).1
      simp only [QJsonPath.setAll, h1]
      exact setAll_QJsonArray_ok calls a2 a1 h

theorem ne_nil_of_startsWithName (path : List Segment) (h : startsWithName path = true) :
    path ≠ [] := by
  intro e
  rw [e] at h
  simp [startsWithName] at h

theorem ne_nil_of_startsWithIndex (path : List Segment) (h : startsWithIndex path = true) :
    path ≠ [] := by
  intro e
  rw [e] at h
  simp [startsWithIndex] at h

theorem set_QJsonObject_total (o : QJsonObject) (path : List Segment) (x : QJsonValue)
    (hn : startsWithName path = true) (hnn : nonNegative path = true) :
    ∃ o1, QJsonPath.set_QJsonObject o path x = .ok o1 := by
  obtain ⟨val, hv⟩ := handle_set_total path (object o) x (ne_nil_of_startsWithName path hn) hnn
  have hval := (handle_set_shape (object o) x val path hv).1 hn
  refine ⟨val.toObject, ?_⟩
  unfold QJsonPath.set_QJsonObject handleJsonAttribute_QJsonObject
  simp only [hv]
  rw [if_pos (by simp [isArray_object_toObject val hval])]

theorem set_QJsonArray_total (a : QJsonArray) (path : List Segment) (x : QJsonValue)
    (hi : startsWithIndex path = true) (hnn : nonNegative path = true) :
    ∃ a1, QJsonPath.set_QJsonArray a path x = .ok a1 := by
  obtain ⟨val, hv⟩ := handle_set_total path (array a) x (ne_nil_of_startsWithIndex path hi) hnn
  have hval := (handle_set_shape (array a) x val path hv).2 hi
  refine ⟨val.toArray, ?_⟩
  unfold QJsonPath.set_QJsonArray handleJsonAttribute_QJsonArray
  simp only [hv]
  rw [if_pos (isArray_array_toArray val hval)]

theorem setAll_QJsonObject_total :
    ∀ (calls : List (List Segment × QJsonValue)) (o : QJsonObject),
      (∀ c ∈ calls, startsWithName c.1 = true ∧ nonNegative c.1 = true) →
      ∃ o1, QJsonPath.setAll_QJsonObject o calls = .ok o1
  | [], o, _ => ⟨o, rfl⟩
  | (path, x) :: calls, o, h => by
    obtain ⟨hn, hnn⟩ := h (path, x) (by simp)
    obtain ⟨o2, hs⟩ := set_QJsonObject_total o path x hn hnn
    obtain ⟨o1, hrest⟩ := setAll_QJsonObject_total calls o2 (fun c hc => h c (by simp [hc]))
    exact ⟨o1, by simp only [QJsonPath.setAll_QJsonObject, hs, hrest]⟩

theorem setAll_QJsonArray_total :
    ∀ (calls : List (List Segment × QJsonValue)) (a : QJsonArray),
      (∀ c ∈ calls, startsWithIndex c.1 = true ∧ nonNegative c.1 = true) →
      ∃ a1, QJsonPath.setAll_QJsonArray a calls = .ok a1
  | [], a, _ => ⟨a, rfl⟩
  | (path, x) :: calls, a, h => by
    obtain ⟨hi, hnn⟩ := h (path, x) (by simp)
    obtain ⟨a2, hs⟩ := set_QJsonArray_total a path x hi hnn
    obtain ⟨a1, hrest⟩ := setAll_QJsonArray_total calls a2 (fun c hc => h c (by simp [hc]))
    exact ⟨a1, by simp only [QJsonPath.setAll_QJsonArray, hs, hrest]⟩

/-- REMOVE returns an Array exactly when it was given one. -/
theorem handle_remove_isArray (v nv v1 : QJsonValue) :
    ∀ path : List Segment, handleJsonAttribute v path nv REMOVE = .ok v1 →
      v1.isArray = v.isArray
  | [], h => by simp [handleJsonAttribute] at h
  | [Name k], h => by
    rw [handle_remove_name_last] at h
    simp only [Except.ok.injEq] at h
    by_cases hc : QJsonObject.contains v.toObject k = true
    · rw [if_pos hc] at h
      rw [← h, toObject_of_contains v k hc]
      rfl
    · rw [if_neg hc] at h
      rw [h]
  | Name k :: r :: rs, h => by
    rw [handle_remove_name_more] at h
    by_cases hc : QJsonObject.contains v.toObject k = true
    · rw [if_pos hc] at h
      split at h
      · exact absurd h (by simp)
      · simp only [Except.ok.injEq] at h
        rw [← h, toObject_of_contains v k hc]
        rfl
    · rw [if_neg hc] at h
      simp only [Except.ok.injEq] at h
      rw [h]
  | [Index n], h => by
    rw [handle_remove_index_last] at h
    simp only [Except.ok.injEq] at h
    by_cases hc : 0 ≤ QJsonArray.resolveIndex v.toArray n ∧
        QJsonArray.resolveIndex v.toArray n < v.toArray.length
    · rw [if_pos hc] at h
      rw [← h, toArray_of_lt v _ hc]
      rfl
    · rw [if_neg hc] at h
      rw [h]
  | Index n :: r :: rs, h => by
    rw [handle_remove_index_more] at h
    by_cases hc : 0 ≤ QJsonArray.resolveIndex v.toArray n ∧
        QJsonArray.resolveIndex v.toArray n < v.toArray.length
    · rw [if_pos hc] at h
      split at h
      · exact absurd h (by simp)
      · simp only [Except.ok.injEq] at h
        rw [← h, toArray_of_lt v _ hc]
        rfl
    · rw [if_neg hc] at h
      simp only [Except.ok.injEq] at h
      rw [h]

theorem set_QJsonObject_rootType_iff (o : QJsonObject) (path : List Segment)
    (x : QJsonValue) (hpath : path ≠ []) :
    QJsonPath.set_QJsonObject o path x = .error .rootType ↔ startsWithIndex path = true := by
  unfold QJsonPath.set_QJsonObject handleJsonAttribute_QJsonObject
  constructor
  · intro h
    cases hv : handleJsonAttribute (object o) path x SET with
    | error e => simp [hv] at h
    | ok val =>
      simp only [hv] at h
      rcases startsWith_cases path hpath with ⟨hn, -⟩ | ⟨-, hi⟩
      · have hval := (handle_set_shape (object o) x val path hv).1 hn
        rw [if_pos (by simp [isArray_object_toObject val hval])] at h
        exact absurd h (by simp)
      · exact hi
  · intro hi
    cases path with
    | nil => exact absurd rfl hpath
    | cons s rest =>
      cases s with
      | Name k => simp [startsWithIndex] at hi
      | Index n =>
        obtain ⟨val, hv, -⟩ := handle_set_fresh (Index n :: rest) (array []) x (by simp) rfl rfl
        have hcongr := handle_set_index_congr (object o) (array []) n rest x rfl
        rw [← hcongr] at hv
        have hval := (handle_set_shape (object o) x val _ hv).2 rfl
        simp only [hv]
        rw [if_neg (by simp [isArray_array_toArray val hval])]

theorem set_QJsonArray_rootType_iff (a : QJsonArray) (path : List Segment)
    (x : QJsonValue) (hpath : path ≠ []) :
    QJsonPath.set_QJsonArray a path x = .error .rootType ↔ startsWithName path = true := by
  unfold QJsonPath.set_QJsonArray handleJsonAttribute_QJsonArray
  constructor
  · intro h
    cases hv : handleJsonAttribute (array a) path x SET with
    | error e => simp [hv] at h
    | ok val =>
      simp only [hv] at h
      rcases startsWith_cases path hpath with ⟨hn, -⟩ | ⟨-, hi⟩
      · exact hn
      · have hval := (handle_set_shape (array a) x val path hv).2 hi
        rw [if_pos (isArray_array_toArray val hval)] at h
        exact absurd h (by simp)
  · intro hn
    cases path with
    | nil => exact absurd rfl hpath
    | cons s rest =>
      cases s with
      | Index n => simp [startsWithName] at hn
      | Name k =>
        obtain ⟨val, hv, -⟩ := handle_set_fresh (Name k :: rest) (object []) x (by simp) rfl rfl
        have hcongr := handle_set_name_congr (array a) (object []) k rest x rfl
        rw [← hcongr] at hv
        have hval := (handle_set_shape (array a) x val _ hv).1 rfl
        simp only [hv]
        rw [if_neg (by simp [isArray_object_toObject val hval])]

theorem remove_QJsonObject_not_rootType (o : QJsonObject) (path : List Segment) :
    QJsonPath.remove_QJsonObject o path ≠ .error .rootType := by
  unfold QJsonPath.remove_QJsonObject handleJsonAttribute_QJsonObject
  cases hv : handleJsonAttribute (object o) path null REMOVE with
  | error e => simp
  | ok val =>
    have hk : val.isArray = false := handle_remove_isArray (object o) null val path hv
    simp [hk]

theorem remove_QJsonArray_not_rootType (a : QJsonArray) (path : List Segment) :
    QJsonPath.remove_QJsonArray a path ≠ .error .rootType := by
  unfold QJsonPath.remove_QJsonArray handleJsonAttribute_QJsonArray
  cases hv : handleJsonAttribute (array a) path null REMOVE with
  | error e => simp
  | ok val =>
    have hk : val.isArray = true := handle_remove_isArray (array a) null val path hv
    simp [hk]

theorem persistedEntries_cons (k : QString) (v : QJsonValue) (es : QJsonObject) :
    persistedEntries ((k, v) :: es) = true ↔
      v.isUndefined = false ∧ v.persisted = true ∧ persistedEntries es = true := by
  simp only [persistedEntries, Bool.and_eq_true, Bool.not_eq_true']
  tauto

theorem persistedAll_cons (v : QJsonValue) (vs : QJsonArray) :
    persistedAll (v :: vs) = true ↔
      v.isUndefined = false ∧ v.persisted = true ∧ persistedAll vs = true := by
  simp only [persistedAll, Bool.and_eq_true, Bool.not_eq_true']
  tauto

theorem persistedEntries_insertSorted (o : QJsonObject) (k : QString) (v : QJsonValue)
    (ho : persistedEntries o = true) (hu : v.isUndefined = false)
    (hp : v.persisted = true) : persistedEntries (QJsonObject.insertSorted o k v) = true := by
  induction o with
  | nil => exact (persistedEntries_cons k v []).2 ⟨hu, hp, rfl⟩
  | cons e rest ih =>
    obtain ⟨k1, w⟩ := e
    obtain ⟨h1, h2, h3⟩ := (persistedEntries_cons k1 w rest).1 ho
    unfold QJsonObject.insertSorted
    by_cases hlt : k < k1
    · rw [if_pos hlt]
      exact (persistedEntries_cons k v _).2 ⟨hu, hp, ho⟩
    · rw [if_neg hlt]
      exact (persistedEntries_cons k1 w _).2 ⟨h1, h2, ih h3⟩

theorem persistedEntries_replace (o : QJsonObject) (k : QString) (v : QJsonValue)
    (ho : persistedEntries o = true) (hu : v.isUndefined = false)
    (hp : v.persisted = true) : persistedEntries (QJsonObject.replace o k v) = true := by
  induction o with
  | nil => exact ho
  | cons e rest ih =>
    obtain ⟨k1, w⟩ := e
    obtain ⟨h1, h2, h3⟩ := (persistedEntries_cons k1 w rest).1 ho
    unfold QJsonObject.replace
    by_cases hk : k1 = k
    · rw [if_pos hk]
      exact (persistedEntries_cons k1 v _).2 ⟨hu, hp, h3⟩
    · rw [if_neg hk]
      exact (persistedEntries_cons k1 w _).2 ⟨h1, h2, ih h3⟩

theorem persistedEntries_remove (o : QJsonObject) (k : QString)
    (ho : persistedEntries o = true) : persistedEntries (QJsonObject.remove o k) = true := by
  induction o with
  | nil => exact ho
  | cons e rest ih =>
    obtain ⟨k1, w⟩ := e
    obtain ⟨h1, h2, h3⟩ := (persistedEntries_cons k1 w rest).1 ho
    unfold QJsonObject.remove
    by_cases hk : k1 = k
    · rw [if_pos hk]
      exact ih h3
    · rw [if_neg hk]
      exact (persistedEntries_cons k1 w _).2 ⟨h1, h2, ih h3⟩

theorem persistedEntries_insert (o : QJsonObject) (k : QString) (v : QJsonValue)
    (ho : persistedEntries o = true) (hp : v.persisted = true) :
    persistedEntries (QJsonObject.insert o k v) = true := by
  unfold QJsonObject.insert
  by_cases hu : v.isUndefined = true
  · rw [if_pos hu]
    exact persistedEntries_remove o k ho
  · rw [if_neg hu]
    have hu1 : v.isUndefined = false := by simpa using hu
    unfold QJsonObject.put
    split
    · exact persistedEntries_replace o k v ho hu1 hp
    · exact persistedEntries_insertSorted o k v ho hu1 hp

theorem persistedEntries_ref (o : QJsonObject) (k : QString)
    (ho : persistedEntries o = true) :
    persistedEntries (QJsonObject.ref o k).1 = true ∧
      (QJsonObject.ref o k).2.persisted = true := by
  unfold QJsonObject.ref
  by_cases hc : QJsonObject.contains o k = true
  · rw [if_pos hc]
    exact ⟨ho, (persistedEntries_value o k ho hc).2⟩
  · rw [if_neg hc]
    exact ⟨persistedEntries_insertSorted o k null ho rfl rfl, rfl⟩

theorem persisted_toObject (v : QJsonValue) (h : v.persisted = true) :
    persistedEntries v.toObject = true := by
  cases v <;> first | exact h | rfl

theorem persisted_toArray (v : QJsonValue) (h : v.persisted = true) :
    persistedAll v.toArray = true := by
  cases v <;> first | exact h | rfl

theorem persistedAll_append_null (a : QJsonArray) (n : Nat) (ha : persistedAll a = true) :
    persistedAll (a ++ List.replicate n null) = true := by
  induction a with
  | nil =>
    induction n with
    | zero => rfl
    | succ m ih => exact (persistedAll_cons null _).2 ⟨rfl, rfl, ih⟩
  | cons w rest ih =>
    obtain ⟨h1, h2, h3⟩ := (persistedAll_cons w rest).1 ha
    exact (persistedAll_cons w _).2 ⟨h1, h2, ih h3⟩

theorem persistedAll_grow (a : QJsonArray) (idx : Int) (ha : persistedAll a = true) :
    persistedAll (QJsonArray.grow a idx) = true := by
  rw [QJsonArray.grow_eq]
  exact persistedAll_append_null a _ ha

theorem persistedAll_set (a : QJsonArray) (i : Nat) (v : QJsonValue)
    (ha : persistedAll a = true) (hu : v.isUndefined = false) (hp : v.persisted = true) :
    persistedAll (a.set i v) = true := by
  induction a generalizing i with
  | nil => exact ha
  | cons w rest ih =>
    obtain ⟨h1, h2, h3⟩ := (persistedAll_cons w rest).1 ha
    cases i with
    | zero => exact (persistedAll_cons v _).2 ⟨hu, hp, h3⟩
    | succ j => exact (persistedAll_cons w _).2 ⟨h1, h2, ih j h3⟩

theorem stored_persisted (v : QJsonValue) (hp : v.persisted = true) :
    v.stored.isUndefined = false ∧ v.stored.persisted = true := by
  cases v <;> exact ⟨rfl, hp⟩

theorem persistedAll_assign (a : QJsonArray) (i : Nat) (v : QJsonValue)
    (ha : persistedAll a = true) (hp : v.persisted = true) :
    persistedAll (QJsonArray.assign a i v) = true :=
  persistedAll_set a i v.stored ha (stored_persisted v hp).1 (stored_persisted v hp).2

theorem grow_slots_null (a : QJsonArray) (idx : Int) (w : QJsonValue) (h0 : 0 ≤ idx)
    (j : Nat) (hj : a.length ≤ j)
    (hlt : j < (QJsonArray.assign (QJsonArray.grow a idx) idx.toNat w).length)
    (hne : (j : Int) ≠ idx) :
    (QJsonArray.assign (QJsonArray.grow a idx) idx.toNat w)[j]? = some null := by
  obtain ⟨m, hm⟩ := Int.eq_ofNat_of_zero_le h0
  subst hm
  have hg := QJsonArray.length_grow a (m : Int)
  rw [length_assign] at hlt
  rw [Int.toNat_ofNat, getElem?_grow_set, if_neg (by omega), if_neg (by omega),
    if_pos (by omega)]

theorem getD_grow_persisted (a : QJsonArray) (idx : Int) (ha : persistedAll a = true)
    (hin : 0 ≤ idx ∧ idx < ((QJsonArray.grow a idx).length : Int)) :
    ((QJsonArray.grow a idx).getD idx.toNat undefined).persisted = true :=
  (persistedAll_getD (QJsonArray.grow a idx) idx.toNat (persistedAll_grow a idx ha)
    (by omega)).2

/-- SET keeps the invariant of the data model and fills the slots it creates with
Null. -/
theorem handle_set_persisted (x : QJsonValue) (hx : x.persisted = true) :
    ∀ (path : List Segment) (v v1 : QJsonValue), path ≠ [] → v.persisted = true →
      handleJsonAttribute v path x SET = .ok v1 →
      v1.isUndefined = false ∧ v1.persisted = true ∧ GrowthSlotsNull v v1 path
  | [], _, _, h, _, _ => absurd rfl h
  | [Name k], v, v1, _, hv, h => by
    rw [handle_set_name_last] at h
    simp only [Except.ok.injEq] at h
    subst h
    refine ⟨rfl, ?_, trivial⟩
    exact persistedEntries_insert _ k x
      (persistedEntries_ref _ k (persisted_toObject v hv)).1 hx
  | Name k :: r :: rs, v, v1, _, hv, h => by
    rw [handle_set_name_more] at h
    obtain ⟨ho1, hsub⟩ := persistedEntries_ref v.toObject k (persisted_toObject v hv)
    cases hs : handleJsonAttribute (QJsonObject.ref v.toObject k).2 (r :: rs) x SET with
    | error e =>
      rw [hs] at h
      exact absurd h (by simp)
    | ok s1 =>
      rw [hs] at h
      simp only [Except.ok.injEq] at h
      subst h
      obtain ⟨hu1, hp1, hg1⟩ := handle_set_persisted x hx (r :: rs) _ s1 (by simp) hsub hs
      refine ⟨rfl, persistedEntries_insert _ k s1 ho1 hp1, ?_⟩
      simp only [GrowthSlotsNull, toObject_object, insert_of_ne_undefined _ _ _ hu1,
        QJsonObject.value_put_self]
      exact hg1
  | [Index n], v, v1, _, hv, h => by
    rw [handle_set_index_last] at h
    by_cases hin : 0 ≤ QJsonArray.resolveIndex v.toArray n ∧
        QJsonArray.resolveIndex v.toArray n <
          ((QJsonArray.grow v.toArray (QJsonArray.resolveIndex v.toArray n)).length : Int)
    · rw [if_pos hin] at h
      simp only [Except.ok.injEq] at h
      subst h
      refine ⟨rfl, ?_, ?_, trivial⟩
      · exact persistedAll_assign _ _ x
          (persistedAll_grow _ _ (persisted_toArray v hv)) hx
      · intro j hj hlt hne
        exact grow_slots_null v.toArray _ x hin.1 j hj hlt hne
    · rw [if_neg hin] at h
      exact absurd h (by simp)
  | Index n :: r :: rs, v, v1, _, hv, h => by
    rw [handle_set_index_more] at h
    by_cases hin : 0 ≤ QJsonArray.resolveIndex v.toArray n ∧
        QJsonArray.resolveIndex v.toArray n <
          ((QJsonArray.grow v.toArray (QJsonArray.resolveIndex v.toArray n)).length : Int)
    · rw [if_pos hin] at h
      have hsub := getD_grow_persisted v.toArray _ (persisted_toArray v hv) hin
      cases hs : handleJsonAttribute
          ((QJsonArray.grow v.toArray (QJsonArray.resolveIndex v.toArray n)).getD
            (QJsonArray.resolveIndex v.toArray n).toNat undefined) (r :: rs) x SET with
      | error e =>
        rw [hs] at h
        exact absurd h (by simp)
      | ok s1 =>
        rw [hs] at h
        simp only [Except.ok.injEq] at h
        subst h
        obtain ⟨hu1, hp1, hg1⟩ := handle_set_persisted x hx (r :: rs) _ s1 (by simp) hsub hs
        refine ⟨rfl, ?_, ?_, ?_⟩
        · exact persistedAll_assign _ _ s1
            (persistedAll_grow _ _ (persisted_toArray v hv)) hp1
        · intro j hj hlt hne
          exact grow_slots_null v.toArray _ s1 hin.1 j hj hlt hne
        · simp only [toArray_array]
          rw [QJsonArray.getD_assign_self _ _ _ (by omega), stored_of_ne_undefined _ hu1]
          exact hg1
    · rw [if_neg hin] at h
      exact absurd h (by simp)

/-- A parse that ends with an Index has no pending name. -/
theorem name_none_of_finish_index (st : ScanState) (p : List Segment) (n : Int)
    (h : st.finish = p ++ [Index n]) : st.name = none := by
  cases hn : st.name with
  | none => rfl
  | some nm =>
    unfold ScanState.finish at h
    rw [hn] at h
    have hlast := congrArg List.getLast? h
    simp at hlast

/-- Plain characters read while no name is pending reach no segment. -/
theorem scan_dropped_text (sep : Char) (toInt : QString → Option Int) (st : ScanState)
    (t : QString) (hname : st.name = none) (ht : ∀ c ∈ t, c ≠ sep ∧ c ≠ '[' ∧ c ≠ ']') :
    (scan sep toInt st t).finish = st.finish := by
  rw [scan_plain sep toInt t st ht]
  simp [ScanState.finish, hname]

theorem contains_put_ne (o : QJsonObject) (k k1 : QString) (v : QJsonValue) (h : k ≠ k1) :
    QJsonObject.contains (QJsonObject.put o k v) k1 = QJsonObject.contains o k1 := by
  unfold QJsonObject.put
  split_ifs
  · exact QJsonObject.contains_replace o k k1 v
  · exact QJsonObject.contains_insertSorted_ne o k k1 v h

theorem value_put_ne (o : QJsonObject) (k k1 : QString) (v : QJsonValue) (h : k ≠ k1) :
    QJsonObject.value (QJsonObject.put o k v) k1 = QJsonObject.value o k1 := by
  unfold QJsonObject.put
  split_ifs
  · exact QJsonObject.value_replace_ne o k k1 v h
  · exact QJsonObject.value_insertSorted_ne o k k1 v h

theorem contains_insert_ne (o : QJsonObject) (k k1 : QString) (v : QJsonValue)
    (h : k ≠ k1) :
    QJsonObject.contains (QJsonObject.insert o k v) k1 = QJsonObject.contains o k1 := by
  unfold QJsonObject.insert
  split_ifs
  · exact contains_remove_ne o k k1 h
  · exact contains_put_ne o k k1 v h

theorem value_insert_ne (o : QJsonObject) (k k1 : QString) (v : QJsonValue) (h : k ≠ k1) :
    QJsonObject.value (QJsonObject.insert o k v) k1 = QJsonObject.value o k1 := by
  unfold QJsonObject.insert
  split_ifs
  · exact value_remove_ne o k k1 h
  · exact value_put_ne o k k1 v h

theorem contains_ref_ne (o : QJsonObject) (k k1 : QString) (h : k ≠ k1) :
    QJsonObject.contains (QJsonObject.ref o k).1 k1 = QJsonObject.contains o k1 := by
  unfold QJsonObject.ref
  split_ifs
  · rfl
  · exact QJsonObject.contains_insertSorted_ne o k k1 null h

theorem value_ref_ne (o : QJsonObject) (k k1 : QString) (h : k ≠ k1) :
    QJsonObject.value (QJsonObject.ref o k).1 k1 = QJsonObject.value o k1 := by
  unfold QJsonObject.ref
  split_ifs
  · rfl
  · exact QJsonObject.value_insertSorted_ne o k k1 null h

/-- GET through a Name sees of the value only the entry of that key. -/
theorem handle_get_name_congr (v w : QJsonValue) (k : QString) (rest : List Segment)
    (nv : QJsonValue)
    (hc : QJsonObject.contains v.toObject k = QJsonObject.contains w.toObject k)
    (hv : QJsonObject.value v.toObject k = QJsonObject.value w.toObject k) :
    handleJsonAttribute v (Name k :: rest) nv GET =
      handleJsonAttribute w (Name k :: rest) nv GET := by
  cases rest with
  | nil => rw [handle_get_name_last, handle_get_name_last, hc, hv]
  | cons r rs => rw [handle_get_name_more, handle_get_name_more, hc, hv]

/-- The value that SET through the Name `k` returns is the object found, with the
entry of `k` rewritten. -/
theorem handle_set_name_form (v x v1 : QJsonValue) (k : QString) (rest : List Segment)
    (h : handleJsonAttribute v (Name k :: rest) x SET = .ok v1) :
    ∃ w, v1 = object (QJsonObject.insert (QJsonObject.ref v.toObject k).1 k w) := by
  cases rest with
  | nil =>
    rw [handle_set_name_last] at h
    exact ⟨x, (Except.ok.inj h).symm⟩
  | cons r rs =>
    rw [handle_set_name_more] at h
    cases hs : handleJsonAttribute (QJsonObject.ref v.toObject k).2 (r :: rs) x SET with
    | error e => simp [hs] at h
    | ok s =>
      simp only [hs] at h
      exact ⟨s, (Except.ok.inj h).symm⟩

/-- SET through the Name `k` leaves the entries of the other keys as they are. -/
theorem handle_set_other_key (v x v1 : QJsonValue) (k k1 : QString) (rest : List Segment)
    (hk : k ≠ k1) (h : handleJsonAttribute v (Name k :: rest) x SET = .ok v1) :
    QJsonObject.contains v1.toObject k1 = QJsonObject.contains v.toObject k1 ∧
      QJsonObject.value v1.toObject k1 = QJsonObject.value v.toObject k1 := by
  obtain ⟨w, hw⟩ := handle_set_name_form v x v1 k rest h
  rw [hw, toObject_object, contains_insert_ne _ k k1 w hk, value_insert_ne _ k k1 w hk,
    contains_ref_ne _ k k1 hk, value_ref_ne _ k k1 hk]
  exact ⟨rfl, rfl⟩

/-- REMOVE through the Name `k` leaves the entries of the other keys as they are. -/
theorem handle_remove_other_key (v nv v1 : QJsonValue) (k k1 : QString)
    (rest : List Segment) (hk : k ≠ k1)
    (h : handleJsonAttribute v (Name k :: rest) nv REMOVE = .ok v1) :
    QJsonObject.contains v1.toObject k1 = QJsonObject.contains v.toObject k1 ∧
      QJsonObject.value v1.toObject k1 = QJsonObject.value v.toObject k1 := by
  cases rest with
  | nil =>
    rw [handle_remove_name_last] at h
    have h1 := Except.ok.inj h
    by_cases hc : QJsonObject.contains v.toObject k = true
    · rw [if_pos hc] at h1
      rw [← h1, toObject_object, contains_remove_ne _ k k1 hk, value_remove_ne _ k k1 hk]
      exact ⟨rfl, rfl⟩
    · rw [if_neg hc] at h1
      rw [← h1]
      exact ⟨rfl, rfl⟩
  | cons r rs =>
    rw [handle_remove_name_more] at h
    by_cases hc : QJsonObject.contains v.toObject k = true
    · rw [if_pos hc] at h
      cases hs : handleJsonAttribute (QJsonObject.value v.toObject k) (r :: rs) nv REMOVE with
      | error e => simp [hs] at h
      | ok s =>
        simp only [hs] at h
        rw [← Except.ok.inj h, toObject_object, contains_insert_ne _ k k1 s hk,
          value_insert_ne _ k k1 s hk]
        exact ⟨rfl, rfl⟩
    · rw [if_neg hc] at h
      rw [← Except.ok.inj h]
      exact ⟨rfl, rfl⟩

/-- REMOVE returns on every path that is not empty. -/
theorem handle_remove_total :
    ∀ (path : List Segment) (v nv : QJsonValue), path ≠ [] →
      ∃ v1, handleJsonAttribute v path nv REMOVE = .ok v1
  | [], _, _, h => absurd rfl h
  | [Name k], v, nv, _ => ⟨_, handle_remove_name_last v k nv⟩
  | Name k :: r :: rs, v, nv, _ => by
    obtain ⟨s, hs⟩ := handle_remove_total (r :: rs) (QJsonObject.value v.toObject k) nv
      (by simp)
    rw [handle_remove_name_more, hs]
    split_ifs
    · exact ⟨_, rfl⟩
    · exact ⟨_, rfl⟩
  | [Index n], v, nv, _ => ⟨_, handle_remove_index_last v n nv⟩
  | Index n :: r :: rs, v, nv, _ => by
    obtain ⟨s, hs⟩ := handle_remove_total (r :: rs)
      (v.toArray.getD (QJsonArray.resolveIndex v.toArray n).toNat undefined) nv (by simp)
    rw [handle_remove_index_more, hs]
    split_ifs
    · exact ⟨_, rfl⟩
    · exact ⟨_, rfl⟩

/-- SET returns on every path whose negative Indexes stay inside their arrays. -/
theorem handle_set_total_inRange :
    ∀ (path : List Segment) (v x : QJsonValue), path ≠ [] → negativeInRange v path = true →
      ∃ v1, handleJsonAttribute v path x SET = .ok v1
  | [], _, _, h, _ => absurd rfl h
  | [Name k], v, x, _, _ => ⟨_, handle_set_name_last v k x⟩
  | Name k :: r :: rs, v, x, _, hin => by
    have hin1 : negativeInRange (QJsonObject.ref v.toObject k).2 (r :: rs) = true := by
      simpa [negativeInRange] using hin
    obtain ⟨s1, hs⟩ := handle_set_total_inRange (r :: rs) (QJsonObject.ref v.toObject k).2 x
      (by simp) hin1
    exact ⟨_, by rw [handle_set_name_more, hs]⟩
  | [Index n], v, x, _, hin => by
    have hlen : -n ≤ ((QJsonArray.grow v.toArray (QJsonArray.resolveIndex v.toArray n)).length
        : Int) := by
      simpa [negativeInRange] using hin
    exact ⟨_, by rw [handle_set_index_last,
      if_pos (QJsonArray.resolveIndex_in_grow v.toArray n hlen)]⟩
  | Index n :: r :: rs, v, x, _, hin => by
    simp only [negativeInRange, Bool.and_eq_true, decide_eq_true_eq] at hin
    obtain ⟨s1, hs⟩ := handle_set_total_inRange (r :: rs) _ x (by simp) hin.2
    exact ⟨_, by rw [handle_set_index_more,
      if_pos (QJsonArray.resolveIndex_in_grow v.toArray n hin.1), hs]⟩

theorem keysAbove_not_contains (k : QString) (o : QJsonObject) (h : keysAbove k o = true) :
    QJsonObject.contains o k = false := by
  induction o with
  | nil => rfl
  | cons e rest ih =>
    obtain ⟨k2, w⟩ := e
    simp only [keysAbove, Bool.and_eq_true, decide_eq_true_eq] at h
    have hne : ¬ k2 = k := by
      intro e
      rw [e] at h
      exact lt_irrefl k h.1
    simp [QJsonObject.contains, hne, ih h.2]

theorem keysAbove_lt_of_contains (k1 k : QString) (o : QJsonObject)
    (h : keysAbove k1 o = true) (hc : QJsonObject.contains o k = true) : k1 < k := by
  induction o with
  | nil => simp [QJsonObject.contains] at hc
  | cons e rest ih =>
    obtain ⟨k2, w⟩ := e
    simp only [keysAbove, Bool.and_eq_true, decide_eq_true_eq] at h
    by_cases h2 : k2 = k
    · rw [← h2]
      exact h.1
    · exact ih h.2 (by simpa [QJsonObject.contains, h2] using hc)

/-- In an object in key order, taking a key out and placing it anew puts the entry
where it was. -/
theorem insertSorted_remove (o : QJsonObject) (k : QString) (v : QJsonValue)
    (ho : keysOrdered o = true) (hc : QJsonObject.contains o k = true) :
    QJsonObject.insertSorted (QJsonObject.remove o k) k v = QJsonObject.replace o k v := by
  induction o with
  | nil => simp [QJsonObject.contains] at hc
  | cons e rest ih =>
    obtain ⟨k1, w⟩ := e
    simp only [keysOrdered, Bool.and_eq_true] at ho
    by_cases h1 : k1 = k
    · subst h1
      have hnc := keysAbove_not_contains k1 rest ho.1
      simp only [QJsonObject.remove, QJsonObject.replace, if_true,
        QJsonObject.remove_of_not_contains rest k1 hnc]
      cases rest with
      | nil => rfl
      | cons e2 r2 =>
        obtain ⟨k2, w2⟩ := e2
        simp only [keysAbove, Bool.and_eq_true, decide_eq_true_eq] at ho
        simp only [QJsonObject.insertSorted, if_pos ho.1.1]
    · have hrest : QJsonObject.contains rest k = true := by
        simpa [QJsonObject.contains, h1] using hc
      have hlt := keysAbove_lt_of_contains k1 k rest ho.1 hrest
      simp only [QJsonObject.remove, QJsonObject.replace, if_neg h1, QJsonObject.insertSorted,
        if_neg (lt_asymm hlt), ih ho.2 hrest]

theorem ref_of_contains (o : QJsonObject) (k : QString)
    (h : QJsonObject.contains o k = true) :
    QJsonObject.ref o k = (o, QJsonObject.value o k) := by
  simp [QJsonObject.ref, h]

theorem replace_replace (o : QJsonObject) (k : QString) (x y : QJsonValue) :
    QJsonObject.replace (QJsonObject.replace o k x) k y = QJsonObject.replace o k y := by
  induction o with
  | nil => simp [QJsonObject.replace]
  | cons e rest ih =>
    obtain ⟨k1, w⟩ := e
    by_cases h1 : k1 = k
    · simp [QJsonObject.replace, h1]
    · simp [QJsonObject.replace, h1, ih]

theorem insert_replace (o : QJsonObject) (k : QString) (s t : QJsonValue)
    (hc : QJsonObject.contains o k = true) :
    QJsonObject.insert (QJsonObject.replace o k s) k t = QJsonObject.insert o k t := by
  have hc2 : QJsonObject.contains (QJsonObject.replace o k s) k = true := by
    rw [QJsonObject.contains_replace]
    exact hc
  unfold QJsonObject.insert
  split_ifs
  · exact remove_replace o k s
  · unfold QJsonObject.put
    rw [if_pos hc2, if_pos hc, replace_replace]

/-- What the entry of `k` held before the last assignment does not show in an object
in key order. -/
theorem insert_ref_insert (o : QJsonObject) (k : QString) (x y : QJsonValue)
    (ho : keysOrdered o = true) :
    QJsonObject.insert
        (QJsonObject.ref (QJsonObject.insert (QJsonObject.ref o k).1 k x) k).1 k y =
      QJsonObject.insert (QJsonObject.ref o k).1 k y := by
  have hc1 := QJsonObject.contains_ref o k
  by_cases hx : x.isUndefined = true
  · have h1 : QJsonObject.insert (QJsonObject.ref o k).1 k x =
        QJsonObject.remove (QJsonObject.ref o k).1 k := by
      simp [QJsonObject.insert, hx]
    rw [h1, ref_of_not_contains _ k (QJsonObject.contains_remove_self _ k)]
    by_cases hc : QJsonObject.contains o k = true
    · have ho1 : (QJsonObject.ref o k).1 = o := by simp [QJsonObject.ref, hc]
      rw [ho1, insertSorted_remove o k null ho hc, insert_replace o k null y hc]
    · have ho1 : (QJsonObject.ref o k).1 = QJsonObject.insertSorted o k null := by
        simp [QJsonObject.ref, hc]
      rw [ho1, remove_insertSorted_self o k null (by simpa using hc)]
  · rw [insert_of_ne_undefined (QJsonObject.ref o k).1 k x (by simpa using hx)]
    have hput : QJsonObject.put (QJsonObject.ref o k).1 k x =
        QJsonObject.replace (QJsonObject.ref o k).1 k x := by
      simp [QJsonObject.put, hc1]
    rw [hput]
    have hc2 : QJsonObject.contains (QJsonObject.replace (QJsonObject.ref o k).1 k x) k
        = true := by
      rw [QJsonObject.contains_replace]
      exact hc1
    have href : (QJsonObject.ref (QJsonObject.replace (QJsonObject.ref o k).1 k x) k).1 =
        QJsonObject.replace (QJsonObject.ref o k).1 k x := by
      rw [ref_of_contains _ k hc2]
    rw [href, insert_replace _ k x y hc1]

theorem assign_assign (a : QJsonArray) (i : Nat) (x y : QJsonValue) :
    QJsonArray.assign (QJsonArray.assign a i x) i y = QJsonArray.assign a i y := by
  simp [QJsonArray.assign, List.set_set]

theorem keysOrdered_toObject (v : QJsonValue) (h : v.keysSorted = true) :
    keysOrdered v.toObject = true := by
  cases v with
  | object o =>
    simp only [QJsonValue.keysSorted, Bool.and_eq_true] at h
    exact h.1
  | _ => rfl

theorem keysSortedEntries_toObject (v : QJsonValue) (h : v.keysSorted = true) :
    keysSortedEntries v.toObject = true := by
  cases v with
  | object o =>
    simp only [QJsonValue.keysSorted, Bool.and_eq_true] at h
    exact h.2
  | _ => rfl

theorem keysSortedAll_toArray (v : QJsonValue) (h : v.keysSorted = true) :
    keysSortedAll v.toArray = true := by
  cases v with
  | array a =>
    simp only [QJsonValue.keysSorted] at h
    exact h
  | _ => rfl

theorem keysSortedEntries_value (o : QJsonObject) (k : QString)
    (h : keysSortedEntries o = true) : (QJsonObject.value o k).keysSorted = true := by
  induction o with
  | nil => rfl
  | cons e rest ih =>
    obtain ⟨k1, w⟩ := e
    simp only [keysSortedEntries, Bool.and_eq_true] at h
    by_cases h1 : k1 = k
    · simp [QJsonObject.value, h1, h.1]
    · simpa [QJsonObject.value, h1] using ih h.2

theorem keysSortedAll_getD (a : QJsonArray) (i : Nat) (h : keysSortedAll a = true) :
    (a.getD i undefined).keysSorted = true := by
  induction a generalizing i with
  | nil => rfl
  | cons w rest ih =>
    simp only [keysSortedAll, Bool.and_eq_true] at h
    cases i with
    | zero => simpa using h.1
    | succ j => simpa using ih j h.2

theorem keysSortedAll_append_null (a : QJsonArray) (n : Nat) (ha : keysSortedAll a = true) :
    keysSortedAll (a ++ List.replicate n null) = true := by
  induction a with
  | nil =>
    induction n with
    | zero => rfl
    | succ m ih =>
      simp only [List.nil_append, List.replicate_succ, keysSortedAll, Bool.and_eq_true]
      exact ⟨rfl, by simpa using ih⟩
  | cons w rest ih =>
    simp only [keysSortedAll, Bool.and_eq_true, List.cons_append] at ha ⊢
    exact ⟨ha.1, ih ha.2⟩

/-- The value that the reference of `operator[]` designates keeps the key order. -/
theorem keysSorted_ref (v : QJsonValue) (k : QString) (h : v.keysSorted = true) :
    (QJsonObject.ref v.toObject k).2.keysSorted = true := by
  unfold QJsonObject.ref
  split_ifs
  · exact keysSortedEntries_value _ k (keysSortedEntries_toObject v h)
  · rfl

/-- The element that SET finds in the grown array keeps the key order. -/
theorem keysSorted_getD_grow (v : QJsonValue) (idx : Int) (i : Nat)
    (h : v.keysSorted = true) :
    ((QJsonArray.grow v.toArray idx).getD i undefined).keysSorted = true := by
  rw [QJsonArray.grow_eq]
  exact keysSortedAll_getD _ i (keysSortedAll_append_null _ _ (keysSortedAll_toArray v h))

/-- A second SET at the same path sees nothing of the value the first one wrote. -/
theorem handle_set_set (x y : QJsonValue) :
    ∀ (path : List Segment) (v : QJsonValue), path ≠ [] → nonNegative path = true →
      v.keysSorted = true →
      ∃ v1, handleJsonAttribute v path x SET = .ok v1 ∧ v1.isUndefined = false ∧
        handleJsonAttribute v1 path y SET = handleJsonAttribute v path y SET
  | [], _, h, _, _ => absurd rfl h
  | [Name k], v, _, _, hv => by
    refine ⟨_, handle_set_name_last v k x, rfl, ?_⟩
    rw [handle_set_name_last, handle_set_name_last, toObject_object,
      insert_ref_insert v.toObject k x y (keysOrdered_toObject v hv)]
  | Name k :: r :: rs, v, _, hnn, hv => by
    have hnn1 : nonNegative (r :: rs) = true := by simpa [nonNegative] using hnn
    obtain ⟨s1, hs, hu, hss⟩ := handle_set_set x y (r :: rs) (QJsonObject.ref v.toObject k).2
      (by simp) hnn1 (keysSorted_ref v k hv)
    have hc1 := QJsonObject.contains_ref v.toObject k
    have hins : QJsonObject.insert (QJsonObject.ref v.toObject k).1 k s1 =
        QJsonObject.replace (QJsonObject.ref v.toObject k).1 k s1 := by
      rw [insert_of_ne_undefined _ _ _ hu]
      simp [QJsonObject.put, hc1]
    have hc2 : QJsonObject.contains
        (QJsonObject.replace (QJsonObject.ref v.toObject k).1 k s1) k = true := by
      rw [QJsonObject.contains_replace]
      exact hc1
    have href : QJsonObject.ref (QJsonObject.replace (QJsonObject.ref v.toObject k).1 k s1) k =
        (QJsonObject.replace (QJsonObject.ref v.toObject k).1 k s1, s1) := by
      rw [ref_of_contains _ k hc2, QJsonObject.value_replace_self _ k s1 hc1]
    refine ⟨object (QJsonObject.insert (QJsonObject.ref v.toObject k).1 k s1),
      by rw [handle_set_name_more, hs], rfl, ?_⟩
    rw [handle_set_name_more, handle_set_name_more, toObject_object, hins, href]
    simp only [hss]
    cases handleJsonAttribute (QJsonObject.ref v.toObject k).2 (r :: rs) y SET with
    | error e => rfl
    | ok s => simp only [insert_replace _ k s1 s hc1]
  | [Index n], v, _, hnn, _ => by
    have hn : 0 ≤ n := by simpa [nonNegative] using hnn
    have hg := QJsonArray.length_grow v.toArray n
    have hin : 0 ≤ n ∧ n < ((QJsonArray.grow v.toArray n).length : Int) := ⟨hn, by omega⟩
    have hset : ∀ z, handleJsonAttribute v [Index n] z SET =
        .ok (array (QJsonArray.assign (QJsonArray.grow v.toArray n) n.toNat z)) := by
      intro z
      rw [handle_set_index_last, resolveIndex_of_nonneg _ _ hn, if_pos hin]
    have hlen := length_assign (QJsonArray.grow v.toArray n) n.toNat x
    have hin2 : 0 ≤ n ∧ n < ((QJsonArray.assign (QJsonArray.grow v.toArray n) n.toNat x).length
        : Int) := by
      rw [hlen]
      exact hin
    refine ⟨_, hset x, rfl, ?_⟩
    rw [hset y, handle_set_index_last, toArray_array, resolveIndex_of_nonneg _ _ hn,
      QJsonArray.grow_of_lt _ _ hin2.2, if_pos hin2, assign_assign]
  | Index n :: r :: rs, v, _, hnn, hv => by
    have hboth : 0 ≤ n ∧ nonNegative (r :: rs) = true := by simpa [nonNegative] using hnn
    have hn := hboth.1
    have hg := QJsonArray.length_grow v.toArray n
    have hin : 0 ≤ n ∧ n < ((QJsonArray.grow v.toArray n).length : Int) := ⟨hn, by omega⟩
    obtain ⟨s1, hs, hu, hss⟩ := handle_set_set x y (r :: rs)
      ((QJsonArray.grow v.toArray n).getD n.toNat undefined) (by simp) hboth.2
      (keysSorted_getD_grow v n n.toNat hv)
    have hlen := length_assign (QJsonArray.grow v.toArray n) n.toNat s1
    have hin2 : 0 ≤ n ∧ n < ((QJsonArray.assign (QJsonArray.grow v.toArray n) n.toNat s1).length
        : Int) := by
      rw [hlen]
      exact hin
    refine ⟨array (QJsonArray.assign (QJsonArray.grow v.toArray n) n.toNat s1),
      by rw [handle_set_index_more, resolveIndex_of_nonneg _ _ hn, if_pos hin, hs], rfl, ?_⟩
    rw [handle_set_index_more, handle_set_index_more, toArray_array,
      resolveIndex_of_nonneg _ _ hn, resolveIndex_of_nonneg _ _ hn,
      QJsonArray.grow_of_lt _ _ hin2.2, if_pos hin2, if_pos hin,
      QJsonArray.getD_assign_self _ _ _ (by omega), stored_of_ne_undefined s1 hu, hss]
    cases handleJsonAttribute ((QJsonArray.grow v.toArray n).getD n.toNat undefined)
        (r :: rs) y SET with
    | error e => rfl
    | ok s => simp only [assign_assign]

theorem keysAbove_of_lt (k k1 : QString) (o : QJsonObject) (h : keysAbove k1 o = true)
    (hlt : k < k1) : keysAbove k o = true := by
  induction o with
  | nil => rfl
  | cons e rest ih =>
    obtain ⟨k2, w⟩ := e
    simp only [keysAbove, Bool.and_eq_true, decide_eq_true_eq] at h ⊢
    exact ⟨lt_trans hlt h.1, ih h.2⟩

theorem keysAbove_insertSorted (k1 k : QString) (v : QJsonValue) (o : QJsonObject)
    (h : keysAbove k1 o = true) (hlt : k1 < k) :
    keysAbove k1 (QJsonObject.insertSorted o k v) = true := by
  induction o with
  | nil => simp [QJsonObject.insertSorted, keysAbove, hlt]
  | cons e rest ih =>
    obtain ⟨k2, w⟩ := e
    simp only [keysAbove, Bool.and_eq_true, decide_eq_true_eq] at h
    unfold QJsonObject.insertSorted
    by_cases h2 : k < k2
    · simp [h2, keysAbove, hlt, h.1, h.2]
    · simp [h2, keysAbove, h.1, ih h.2]

theorem keysAbove_replace (k1 k : QString) (v : QJsonValue) (o : QJsonObject)
    (h : keysAbove k1 o = true) : keysAbove k1 (QJsonObject.replace o k v) = true := by
  induction o with
  | nil => rfl
  | cons e rest ih =>
    obtain ⟨k2, w⟩ := e
    simp only [keysAbove, Bool.and_eq_true, decide_eq_true_eq] at h
    unfold QJsonObject.replace
    by_cases h2 : k2 = k
    · rw [if_pos h2]
      simp only [keysAbove, Bool.and_eq_true, decide_eq_true_eq]
      exact h
    · rw [if_neg h2]
      simp only [keysAbove, Bool.and_eq_true, decide_eq_true_eq]
      exact ⟨h.1, ih h.2⟩

theorem keysAbove_remove (k1 k : QString) (o : QJsonObject) (h : keysAbove k1 o = true) :
    keysAbove k1 (QJsonObject.remove o k) = true := by
  induction o with
  | nil => rfl
  | cons e rest ih =>
    obtain ⟨k2, w⟩ := e
    simp only [keysAbove, Bool.and_eq_true, decide_eq_true_eq] at h
    unfold QJsonObject.remove
    by_cases h2 : k2 = k
    · simp [h2, ih h.2]
    · simp [h2, keysAbove, h.1, ih h.2]

/-- A new key goes to its place in the key order. -/
theorem keysOrdered_insertSorted (o : QJsonObject) (k : QString) (v : QJsonValue)
    (ho : keysOrdered o = true) (hc : QJsonObject.contains o k = false) :
    keysOrdered (QJsonObject.insertSorted o k v) = true := by
  induction o with
  | nil => rfl
  | cons e rest ih =>
    obtain ⟨k1, w⟩ := e
    simp only [keysOrdered, Bool.and_eq_true] at ho
    have hk : ¬ k1 = k := by
      intro e
      simp [QJsonObject.contains, e] at hc
    have hrest : QJsonObject.contains rest k = false := by
      simpa [QJsonObject.contains, hk] using hc
    unfold QJsonObject.insertSorted
    by_cases hlt : k < k1
    · rw [if_pos hlt]
      simp only [keysOrdered, keysAbove, Bool.and_eq_true, decide_eq_true_eq]
      exact ⟨⟨hlt, keysAbove_of_lt k k1 rest ho.1 hlt⟩, ho.1, ho.2⟩
    · rw [if_neg hlt]
      have hgt : k1 < k := by
        rcases lt_trichotomy k k1 with h | h | h
        · exact absurd h hlt
        · exact absurd h.symm hk
        · exact h
      simp only [keysOrdered, Bool.and_eq_true]
      exact ⟨keysAbove_insertSorted k1 k v rest ho.1 hgt, ih ho.2 hrest⟩

theorem keysOrdered_replace (o : QJsonObject) (k : QString) (v : QJsonValue)
    (ho : keysOrdered o = true) : keysOrdered (QJsonObject.replace o k v) = true := by
  induction o with
  | nil => rfl
  | cons e rest ih =>
    obtain ⟨k1, w⟩ := e
    simp only [keysOrdered, Bool.and_eq_true] at ho
    unfold QJsonObject.replace
    by_cases h1 : k1 = k
    · rw [if_pos h1]
      simp only [keysOrdered, Bool.and_eq_true]
      exact ho
    · rw [if_neg h1]
      simp only [keysOrdered, Bool.and_eq_true]
      exact ⟨keysAbove_replace k1 k v rest ho.1, ih ho.2⟩

theorem keysOrdered_remove (o : QJsonObject) (k : QString) (ho : keysOrdered o = true) :
    keysOrdered (QJsonObject.remove o k) = true := by
  induction o with
  | nil => rfl
  | cons e rest ih =>
    obtain ⟨k1, w⟩ := e
    simp only [keysOrdered, Bool.and_eq_true] at ho
    unfold QJsonObject.remove
    by_cases h1 : k1 = k
    · rw [if_pos h1]
      exact ih ho.2
    · rw [if_neg h1]
      simp only [keysOrdered, Bool.and_eq_true]
      exact ⟨keysAbove_remove k1 k rest ho.1, ih ho.2⟩

theorem keysOrdered_insert (o : QJsonObject) (k : QString) (v : QJsonValue)
    (ho : keysOrdered o = true) : keysOrdered (QJsonObject.insert o k v) = true := by
  unfold QJsonObject.insert
  split_ifs
  · exact keysOrdered_remove o k ho
  · unfold QJsonObject.put
    by_cases hc : QJsonObject.contains o k = true
    · rw [if_pos hc]
      exact keysOrdered_replace o k v ho
    · rw [if_neg hc]
      exact keysOrdered_insertSorted o k v ho (by simpa using hc)

theorem keysOrdered_ref (o : QJsonObject) (k : QString) (ho : keysOrdered o = true) :
    keysOrdered (QJsonObject.ref o k).1 = true := by
  unfold QJsonObject.ref
  by_cases hc : QJsonObject.contains o k = true
  · rw [if_pos hc]
    exact ho
  · rw [if_neg hc]
    exact keysOrdered_insertSorted o k null ho (by simpa using hc)

theorem keysSortedEntries_insertSorted (o : QJsonObject) (k : QString) (v : QJsonValue)
    (ho : keysSortedEntries o = true) (hv : v.keysSorted = true) :
    keysSortedEntries (QJsonObject.insertSorted o k v) = true := by
  induction o with
  | nil => simp [QJsonObject.insertSorted, keysSortedEntries, hv]
  | cons e rest ih =>
    obtain ⟨k1, w⟩ := e
    simp only [keysSortedEntries, Bool.and_eq_true] at ho
    unfold QJsonObject.insertSorted
    by_cases hlt : k < k1
    · simp [hlt, keysSortedEntries, hv, ho.1, ho.2]
    · simp [hlt, keysSortedEntries, ho.1, ih ho.2]

theorem keysSortedEntries_replace (o : QJsonObject) (k : QString) (v : QJsonValue)
    (ho : keysSortedEntries o = true) (hv : v.keysSorted = true) :
    keysSortedEntries (QJsonObject.replace o k v) = true := by
  induction o with
  | nil => rfl
  | cons e rest ih =>
    obtain ⟨k1, w⟩ := e
    simp only [keysSortedEntries, Bool.and_eq_true] at ho
    unfold QJsonObject.replace
    by_cases h1 : k1 = k
    · simp [h1, keysSortedEntries, hv, ho.2]
    · simp [h1, keysSortedEntries, ho.1, ih ho.2]

theorem keysSortedEntries_remove (o : QJsonObject) (k : QString)
    (ho : keysSortedEntries o = true) :
    keysSortedEntries (QJsonObject.remove o k) = true := by
  induction o with
  | nil => rfl
  | cons e rest ih =>
    obtain ⟨k1, w⟩ := e
    simp only [keysSortedEntries, Bool.and_eq_true] at ho
    unfold QJsonObject.remove
    by_cases h1 : k1 = k
    · simp [h1, ih ho.2]
    · simp [h1, keysSortedEntries, ho.1, ih ho.2]

theorem keysSortedEntries_insert (o : QJsonObject) (k : QString) (v : QJsonValue)
    (ho : keysSortedEntries o = true) (hv : v.keysSorted = true) :
    keysSortedEntries (QJsonObject.insert o k v) = true := by
  unfold QJsonObject.insert
  split_ifs
  · exact keysSortedEntries_remove o k ho
  · unfold QJsonObject.put
    split_ifs
    · exact keysSortedEntries_replace o k v ho hv
    · exact keysSortedEntries_insertSorted o k v ho hv

theorem keysSortedEntries_ref (o : QJsonObject) (k : QString)
    (ho : keysSortedEntries o = true) : keysSortedEntries (QJsonObject.ref o k).1 = true := by
  unfold QJsonObject.ref
  split_ifs
  · exact ho
  · exact keysSortedEntries_insertSorted o k null ho rfl

theorem keysSortedAll_set (a : QJsonArray) (i : Nat) (v : QJsonValue)
    (ha : keysSortedAll a = true) (hv : v.keysSorted = true) :
    keysSortedAll (a.set i v) = true := by
  induction a generalizing i with
  | nil => exact ha
  | cons w rest ih =>
    simp only [keysSortedAll, Bool.and_eq_true] at ha
    cases i with
    | zero => simp [keysSortedAll, hv, ha.2]
    | succ j => simp [keysSortedAll, ha.1, ih j ha.2]

theorem keysSorted_stored (v : QJsonValue) (hv : v.keysSorted = true) :
    v.stored.keysSorted = true := by
  cases v <;> exact hv

theorem keysSorted_object (o : QJsonObject) (h1 : keysOrdered o = true)
    (h2 : keysSortedEntries o = true) : (object o).keysSorted = true := by
  simp only [QJsonValue.keysSorted, Bool.and_eq_true]
  exact ⟨h1, h2⟩

theorem keysSorted_array (a : QJsonArray) (h : keysSortedAll a = true) :
    (array a).keysSorted = true := by
  simp only [QJsonValue.keysSorted]
  exact h

/-- SET keeps the key order of every object of the tree. -/
theorem handle_set_keysSorted (x : QJsonValue) (hx : x.keysSorted = true) :
    ∀ (path : List Segment) (v v1 : QJsonValue), v.keysSorted = true →
      handleJsonAttribute v path x SET = .ok v1 → v1.keysSorted = true
  | [], _, _, _, h => by simp [handleJsonAttribute] at h
  | [Name k], v, v1, hv, h => by
    rw [handle_set_name_last] at h
    simp only [Except.ok.injEq] at h
    subst h
    exact keysSorted_object _
      (keysOrdered_insert _ k x (keysOrdered_ref _ k (keysOrdered_toObject v hv)))
      (keysSortedEntries_insert _ k x
        (keysSortedEntries_ref _ k (keysSortedEntries_toObject v hv)) hx)
  | Name k :: r :: rs, v, v1, hv, h => by
    rw [handle_set_name_more] at h
    cases hs : handleJsonAttribute (QJsonObject.ref v.toObject k).2 (r :: rs) x SET with
    | error e =>
      rw [hs] at h
      exact absurd h (by simp)
    | ok s1 =>
      rw [hs] at h
      simp only [Except.ok.injEq] at h
      subst h
      have hs1 := handle_set_keysSorted x hx (r :: rs) _ s1 (keysSorted_ref v k hv) hs
      exact keysSorted_object _
        (keysOrdered_insert _ k s1 (keysOrdered_ref _ k (keysOrdered_toObject v hv)))
        (keysSortedEntries_insert _ k s1
          (keysSortedEntries_ref _ k (keysSortedEntries_toObject v hv)) hs1)
  | [Index n], v, v1, hv, h => by
    rw [handle_set_index_last] at h
    split_ifs at h
    simp only [Except.ok.injEq] at h
    subst h
    rw [QJsonArray.grow_eq]
    exact keysSorted_array _ (keysSortedAll_set _ _ _
      (keysSortedAll_append_null _ _ (keysSortedAll_toArray v hv)) (keysSorted_stored x hx))
  | Index n :: r :: rs, v, v1, hv, h => by
    rw [handle_set_index_more] at h
    split_ifs at h
    cases hs : handleJsonAttribute
        ((QJsonArray.grow v.toArray (QJsonArray.resolveIndex v.toArray n)).getD
          (QJsonArray.resolveIndex v.toArray n).toNat undefined) (r :: rs) x SET with
    | error e =>
      rw [hs] at h
      exact absurd h (by simp)
    | ok s1 =>
      rw [hs] at h
      simp only [Except.ok.injEq] at h
      subst h
      have hs1 := handle_set_keysSorted x hx (r :: rs) _ s1
        (keysSorted_getD_grow v _ _ hv) hs
      rw [QJsonArray.grow_eq]
      exact keysSorted_array _ (keysSortedAll_set _ _ _
        (keysSortedAll_append_null _ _ (keysSortedAll_toArray v hv))
        (keysSorted_stored s1 hs1))

theorem get_undefined_default (v : QJsonValue) (path : List Segment) :
    QJsonPath.get v path undefined = handleJsonAttribute v path null GET := by
  unfold QJsonPath.get
  cases handleJsonAttribute v path null GET with
  | error e => rfl
  | ok w => cases w <;> rfl

theorem setRemoveGet_eq (v : QJsonValue) (path : List Segment) (x : QJsonValue) :
    setRemoveGet v path x =
      (handleJsonAttribute v path x SET).bind fun root =>
        (handleJsonAttribute root path null REMOVE).bind fun root1 =>
          handleJsonAttribute root1 path null GET := by
  simp only [setRemoveGet, QJsonPath.set, QJsonPath.remove, get_undefined_default]

/-- What SET returns is an Object or an Array, never Undefined. -/
theorem handle_set_defined (v x v1 : QJsonValue) (path : List Segment)
    (h : handleJsonAttribute v path x SET = .ok v1) : v1.isUndefined = false := by
  have hne : path ≠ [] := by
    intro e
    rw [e] at h
    simp [handleJsonAttribute] at h
  have hshape := handle_set_shape v x v1 path h
  rcases startsWith_cases path hne with ⟨hn, -⟩ | ⟨-, hi⟩
  · rw [hshape.1 hn]
    rfl
  · rw [hshape.2 hi]
    rfl

/-- REMOVE on a value other than Undefined returns a value other than Undefined. -/
theorem handle_remove_defined (v nv v1 : QJsonValue) (path : List Segment)
    (hv : v.isUndefined = false) (h : handleJsonAttribute v path nv REMOVE = .ok v1) :
    v1.isUndefined = false := by
  match path, h with
  | [], h => simp [handleJsonAttribute] at h
  | [Name k], h =>
    rw [handle_remove_name_last] at h
    rw [← Except.ok.inj h]
    split_ifs
    · rfl
    · exact hv
  | Name k :: r :: rs, h =>
    rw [handle_remove_name_more] at h
    split_ifs at h
    · cases hs : handleJsonAttribute (QJsonObject.value v.toObject k) (r :: rs) nv REMOVE with
      | error e => simp [hs] at h
      | ok s =>
        simp only [hs] at h
        rw [← Except.ok.inj h]
        rfl
    · rw [← Except.ok.inj h]
      exact hv
  | [Index n], h =>
    rw [handle_remove_index_last] at h
    rw [← Except.ok.inj h]
    split_ifs
    · rfl
    · exact hv
  | Index n :: r :: rs, h =>
    rw [handle_remove_index_more] at h
    split_ifs at h
    · cases hs : handleJsonAttribute
          (v.toArray.getD (QJsonArray.resolveIndex v.toArray n).toNat undefined) (r :: rs) nv
          REMOVE with
      | error e =>
        rw [hs] at h
        exact absurd h (by simp)
      | ok s =>
        rw [hs] at h
        rw [← Except.ok.inj h]
        rfl
    · rw [← Except.ok.inj h]
      exact hv

/-- The resolution of an Index sees of the array only its length. -/
theorem resolveIndex_congr_length (a b : QJsonArray) (n : Int) (h : a.length = b.length) :
    QJsonArray.resolveIndex a n = QJsonArray.resolveIndex b n := by
  simp only [QJsonArray.resolveIndex, h]

theorem eraseIdx_set_self (l : QJsonArray) (i : Nat) (w : QJsonValue) :
    (l.set i w).eraseIdx i = l.eraseIdx i := by
  induction l generalizing i with
  | nil => rfl
  | cons e rest ih =>
    cases i with
    | zero => rfl
    | succ j => simp only [List.set_cons_succ, List.eraseIdx_cons_succ, ih]

theorem persistedAll_eraseIdx (a : QJsonArray) (i : Nat) (ha : persistedAll a = true) :
    persistedAll (a.eraseIdx i) = true := by
  induction a generalizing i with
  | nil => exact ha
  | cons w rest ih =>
    obtain ⟨h1, h2, h3⟩ := (persistedAll_cons w rest).1 ha
    cases i with
    | zero => exact h3
    | succ j => exact (persistedAll_cons w _).2 ⟨h1, h2, ih j h3⟩

/-- SET, REMOVE and GET at a last Name: the key is gone. -/
theorem setRemoveGet_name_last (v : QJsonValue) (k : QString) (x : QJsonValue) :
    setRemoveGet v [Name k] x = .ok undefined := by
  obtain ⟨v1, v2, hset, -, hrem, -, hget⟩ :=
    handle_set_remove_get null null [Name k] v x (by simp) rfl rfl
  rw [setRemoveGet_eq, hset]
  simp only [Except.bind, hrem, hget]

/-- SET, REMOVE and GET through a Name that is not the last segment do what they do
from the value the Name finds. -/
theorem setRemoveGet_name_more (v : QJsonValue) (k : QString) (r : Segment)
    (rs : List Segment) (x : QJsonValue) :
    setRemoveGet v (Name k :: r :: rs) x =
      setRemoveGet (QJsonObject.ref v.toObject k).2 (r :: rs) x := by
  rw [setRemoveGet_eq, setRemoveGet_eq, handle_set_name_more]
  cases hs : handleJsonAttribute (QJsonObject.ref v.toObject k).2 (r :: rs) x SET with
  | error e => rfl
  | ok s1 =>
    have hs1 := handle_set_defined _ x s1 _ hs
    simp only [Except.bind, insert_of_ne_undefined _ _ _ hs1]
    rw [handle_remove_name_more, toObject_object, QJsonObject.contains_put_self, if_pos rfl,
      QJsonObject.value_put_self]
    cases hr : handleJsonAttribute s1 (r :: rs) null REMOVE with
    | error e => rfl
    | ok s2 =>
      have hs2 := handle_remove_defined s1 null s2 _ hs1 hr
      simp only [insert_of_ne_undefined _ _ _ hs2]
      rw [handle_get_name_more, toObject_object, QJsonObject.contains_put_self, if_pos rfl,
        QJsonObject.value_put_self]

/-- SET, REMOVE and GET through an Index that is not the last segment and stays
inside the grown array do what they do from the element the Index addresses. -/
theorem setRemoveGet_index_more (v : QJsonValue) (n : Int) (r : Segment)
    (rs : List Segment) (x : QJsonValue)
    (h : -n ≤ ((QJsonArray.grow v.toArray (QJsonArray.resolveIndex v.toArray n)).length
      : Int)) :
    setRemoveGet v (Index n :: r :: rs) x =
      setRemoveGet ((QJsonArray.grow v.toArray (QJsonArray.resolveIndex v.toArray n)).getD
        (QJsonArray.resolveIndex v.toArray n).toNat undefined) (r :: rs) x := by
  have hin := QJsonArray.resolveIndex_in_grow v.toArray n h
  rw [setRemoveGet_eq, setRemoveGet_eq, handle_set_index_more, if_pos hin]
  cases hs : handleJsonAttribute
      ((QJsonArray.grow v.toArray (QJsonArray.resolveIndex v.toArray n)).getD
        (QJsonArray.resolveIndex v.toArray n).toNat undefined) (r :: rs) x SET with
  | error e => rfl
  | ok s1 =>
    have hs1 := handle_set_defined _ x s1 _ hs
    have hres1 := QJsonArray.resolveIndex_assign_grow v.toArray n s1 h
    simp only [Except.bind]
    rw [handle_remove_index_more, toArray_array, hres1, length_assign, if_pos hin,
      QJsonArray.getD_assign_self _ _ _ (by omega), stored_of_ne_undefined _ hs1]
    cases hr : handleJsonAttribute s1 (r :: rs) null REMOVE with
    | error e => rfl
    | ok s2 =>
      have hs2 := handle_remove_defined s1 null s2 _ hs1 hr
      have hres2 : QJsonArray.resolveIndex (QJsonArray.assign (QJsonArray.assign
          (QJsonArray.grow v.toArray (QJsonArray.resolveIndex v.toArray n))
          (QJsonArray.resolveIndex v.toArray n).toNat s1)
          (QJsonArray.resolveIndex v.toArray n).toNat s2) n =
          QJsonArray.resolveIndex v.toArray n := by
        exact (resolveIndex_congr_length _ _ n (length_assign _ _ _)).trans hres1
      simp only []
      rw [handle_get_index_more, toArray_array, hres2, length_assign, length_assign,
        if_pos hin, QJsonArray.getD_assign_self _ _ _ (by rw [length_assign]; omega),
        stored_of_ne_undefined _ hs2]

/-- SET, REMOVE and GET at a last Index that stays inside the grown array: GET reads
the array without the element that was addressed. -/
theorem setRemoveGet_index_last (v : QJsonValue) (n : Int) (x : QJsonValue)
    (h : -n ≤ ((QJsonArray.grow v.toArray (QJsonArray.resolveIndex v.toArray n)).length
      : Int)) :
    setRemoveGet v [Index n] x =
      .ok (if 0 ≤ QJsonArray.resolveIndex
            ((QJsonArray.grow v.toArray (QJsonArray.resolveIndex v.toArray n)).eraseIdx
              (QJsonArray.resolveIndex v.toArray n).toNat) n ∧
          QJsonArray.resolveIndex
            ((QJsonArray.grow v.toArray (QJsonArray.resolveIndex v.toArray n)).eraseIdx
              (QJsonArray.resolveIndex v.toArray n).toNat) n <
            (((QJsonArray.grow v.toArray (QJsonArray.resolveIndex v.toArray n)).eraseIdx
              (QJsonArray.resolveIndex v.toArray n).toNat).length : Int) then
        ((QJsonArray.grow v.toArray (QJsonArray.resolveIndex v.toArray n)).eraseIdx
            (QJsonArray.resolveIndex v.toArray n).toNat).getD
          (QJsonArray.resolveIndex
            ((QJsonArray.grow v.toArray (QJsonArray.resolveIndex v.toArray n)).eraseIdx
              (QJsonArray.resolveIndex v.toArray n).toNat) n).toNat undefined
      else undefined) := by
  have hin := QJsonArray.resolveIndex_in_grow v.toArray n h
  have hres1 := QJsonArray.resolveIndex_assign_grow v.toArray n x h
  rw [setRemoveGet_eq, handle_set_index_last, if_pos hin]
  simp only [Except.bind]
  rw [handle_remove_index_last, toArray_array, hres1, length_assign, if_pos hin]
  simp only []
  rw [handle_get_index_last, toArray_array]
  simp only [QJsonArray.removeAt, QJsonArray.assign, eraseIdx_set_self]

/-- REMOVE and GET at an Index that resolves outside the array find nothing. -/
theorem handle_index_outside (v nv : QJsonValue) (n : Int) (rest : List Segment)
    (h : ¬ (0 ≤ QJsonArray.resolveIndex v.toArray n ∧
      QJsonArray.resolveIndex v.toArray n < (v.toArray.length : Int))) :
    handleJsonAttribute v (Index n :: rest) nv REMOVE = .ok v ∧
      handleJsonAttribute v (Index n :: rest) nv GET = .ok undefined := by
  cases rest with
  | nil =>
    rw [handle_remove_index_last, handle_get_index_last, if_neg h, if_neg h]
    exact ⟨rfl, rfl⟩
  | cons r rs =>
    rw [handle_remove_index_more, handle_get_index_more, if_neg h, if_neg h]
    exact ⟨rfl, rfl⟩

/-- An Index `-k`, `k >= 2`, on an empty array: SET makes a one-element array, REMOVE
and GET resolve below its start. -/
theorem setRemoveGet_index_below_empty (v : QJsonValue) (n : Int) (rest : List Segment)
    (x : QJsonValue) (ha : v.toArray = []) (hn : n < -1) :
    setRemoveGet v (Index n :: rest) x = .ok undefined := by
  have hidx : QJsonArray.resolveIndex [] n = 0 := by
    unfold QJsonArray.resolveIndex
    rw [if_pos (by omega)]
    rfl
  have hgrow : QJsonArray.grow [] 0 = [null] := rfl
  have hout : ∀ w : QJsonValue, ¬ (0 ≤ QJsonArray.resolveIndex (array [w]).toArray n ∧
      QJsonArray.resolveIndex (array [w]).toArray n < ((array [w]).toArray.length : Int)) := by
    intro w
    rw [toArray_array]
    unfold QJsonArray.resolveIndex
    rw [if_pos (by omega), if_pos (by simp)]
    simp only [List.length_singleton, Nat.cast_one]
    omega
  have hfin : ∀ w : QJsonValue,
      ((handleJsonAttribute (array [w]) (Index n :: rest) null REMOVE).bind fun root1 =>
        handleJsonAttribute root1 (Index n :: rest) null GET) = .ok undefined := by
    intro w
    obtain ⟨hr, hg⟩ := handle_index_outside (array [w]) null n rest (hout w)
    rw [hr]
    exact hg
  rw [setRemoveGet_eq]
  cases rest with
  | nil =>
    rw [handle_set_index_last, ha, hidx, hgrow, if_pos ⟨le_refl 0, by simp⟩]
    exact hfin x.stored
  | cons r rs =>
    obtain ⟨s1, hs, -⟩ := handle_set_fresh (r :: rs) null x (by simp) rfl rfl
    rw [handle_set_index_more, ha, hidx, hgrow, if_pos ⟨le_refl 0, by simp⟩]
    have hsub : ([null] : QJsonArray).getD (0 : Int).toNat undefined = null := rfl
    rw [hsub, hs]
    exact hfin s1.stored

/-- An Index `-k` on an array that holds elements, but fewer than `k`: SET reads
outside the array. -/
theorem setRemoveGet_index_below_fault (v : QJsonValue) (n : Int) (rest : List Segment)
    (x : QJsonValue) (ha : v.toArray.length ≠ 0)
    (hb : ¬ -n ≤ ((QJsonArray.grow v.toArray (QJsonArray.resolveIndex v.toArray n)).length
      : Int)) :
    setRemoveGet v (Index n :: rest) x = .error .arrayIndexOutOfRange := by
  have hl := QJsonArray.length_grow v.toArray (QJsonArray.resolveIndex v.toArray n)
  have hneg : ¬ (0 ≤ QJsonArray.resolveIndex v.toArray n ∧
      QJsonArray.resolveIndex v.toArray n <
        ((QJsonArray.grow v.toArray (QJsonArray.resolveIndex v.toArray n)).length : Int)) := by
    rw [hl] at hb ⊢
    unfold QJsonArray.resolveIndex at hb ⊢
    by_cases hn : n < 0
    · simp only [hn, ha, ne_eq, not_false_eq_true, if_true] at hb ⊢
      omega
    · simp only [hn, if_false] at hb ⊢
      omega
  rw [setRemoveGet_eq]
  cases rest with
  | nil =>
    rw [handle_set_index_last, if_neg hneg]
    rfl
  | cons r rs =>
    rw [handle_set_index_more, if_neg hneg]
    rfl

/-- An Index that leaves the array SET has grown, on an empty array, is an Index `-k`
with `k >= 2`. -/
theorem below_of_empty (n : Int)
    (hb : ¬ -n ≤ ((QJsonArray.grow [] (QJsonArray.resolveIndex [] n)).length : Int)) :
    n < -1 := by
  have hl := QJsonArray.length_grow [] (QJsonArray.resolveIndex [] n)
  rw [hl] at hb
  unfold QJsonArray.resolveIndex at hb
  by_cases hn : n < 0
  · simp only [hn, if_true, List.length_nil, ne_eq, not_true_eq_false, if_false] at hb
    omega
  · simp only [hn, if_false, List.length_nil] at hb
    omega

theorem closesGap_index_last (v : QJsonValue) (n : Int) :
    closesGap v [Index n] = true ↔
      if 0 ≤ n then (v.toArray.length : Int) ≤ n + 1
      else (v.toArray.length = 0 ∨ (v.toArray.length : Int) = -n) := by
  simp only [closesGap]
  split_ifs <;> simp

/-- After SET and REMOVE at a last Index, GET resolves inside the array exactly when
the condition of `closesGap` on the last Index fails. -/
theorem last_index_inside_iff (a : QJsonArray) (n : Int)
    (h : -n ≤ ((QJsonArray.grow a (QJsonArray.resolveIndex a n)).length : Int)) :
    (0 ≤ QJsonArray.resolveIndex
        ((QJsonArray.grow a (QJsonArray.resolveIndex a n)).eraseIdx
          (QJsonArray.resolveIndex a n).toNat) n ∧
      QJsonArray.resolveIndex
        ((QJsonArray.grow a (QJsonArray.resolveIndex a n)).eraseIdx
          (QJsonArray.resolveIndex a n).toNat) n <
        (((QJsonArray.grow a (QJsonArray.resolveIndex a n)).eraseIdx
          (QJsonArray.resolveIndex a n).toNat).length : Int)) ↔
      ¬ (if 0 ≤ n then (a.length : Int) ≤ n + 1
        else (a.length = 0 ∨ (a.length : Int) = -n)) := by
  have hin := QJsonArray.resolveIndex_in_grow a n h
  have hl := QJsonArray.length_grow a (QJsonArray.resolveIndex a n)
  have hlen : ((((QJsonArray.grow a (QJsonArray.resolveIndex a n)).eraseIdx
      (QJsonArray.resolveIndex a n).toNat).length : Nat) : Int) =
      ((QJsonArray.grow a (QJsonArray.resolveIndex a n)).length : Int) - 1 := by
    rw [List.length_eraseIdx, if_pos (by omega)]
    omega
  generalize ((QJsonArray.grow a (QJsonArray.resolveIndex a n)).eraseIdx
      (QJsonArray.resolveIndex a n).toNat) = b at hlen ⊢
  generalize (QJsonArray.grow a (QJsonArray.resolveIndex a n)).length = lg at h hin hl hlen
  simp only [QJsonArray.resolveIndex] at hin hl ⊢
  split_ifs at hin hl ⊢ <;> constructor <;> intro h1 <;> omega

/-- GET after REMOVE after SET finds nothing on the paths of `closesGap`, and on a
value of the data model on those paths only. -/
theorem setRemoveGet_undefined_iff (x : QJsonValue) :
    ∀ (path : List Segment) (v : QJsonValue),
      (closesGap v path = true → setRemoveGet v path x = .ok undefined) ∧
      (v.persisted = true → setRemoveGet v path x = .ok undefined →
        closesGap v path = true)
  | [], v => by
    refine ⟨fun h => absurd h (by simp [closesGap]), fun _ h => ?_⟩
    rw [setRemoveGet_eq] at h
    simp [handleJsonAttribute, Except.bind] at h
  | [Name k], v => ⟨fun _ => setRemoveGet_name_last v k x, fun _ _ => rfl⟩
  | Name k :: r :: rs, v => by
    have ih := setRemoveGet_undefined_iff x (r :: rs) (QJsonObject.ref v.toObject k).2
    have hcg : closesGap v (Name k :: r :: rs) =
        closesGap (QJsonObject.ref v.toObject k).2 (r :: rs) := by
      simp only [closesGap]
    rw [setRemoveGet_name_more, hcg]
    exact ⟨ih.1, fun hv => ih.2 (persistedEntries_ref _ k (persisted_toObject v hv)).2⟩
  | [Index n], v => by
    rw [closesGap_index_last]
    by_cases h : -n ≤ ((QJsonArray.grow v.toArray (QJsonArray.resolveIndex v.toArray n)).length
        : Int)
    · have hin := QJsonArray.resolveIndex_in_grow v.toArray n h
      have hiff := last_index_inside_iff v.toArray n h
      rw [setRemoveGet_index_last v n x h]
      constructor
      · intro hc
        rw [if_neg (fun hi => hiff.1 hi hc)]
      · intro hv hget
        by_contra hc
        have hi := hiff.2 hc
        rw [if_pos hi] at hget
        have hp := persistedAll_eraseIdx _ (QJsonArray.resolveIndex v.toArray n).toNat
          (persistedAll_grow _ (QJsonArray.resolveIndex v.toArray n) (persisted_toArray v hv))
        have hd := (persistedAll_getD _ (QJsonArray.resolveIndex
          ((QJsonArray.grow v.toArray (QJsonArray.resolveIndex v.toArray n)).eraseIdx
            (QJsonArray.resolveIndex v.toArray n).toNat) n).toNat hp (by omega)).1
        rw [Except.ok.inj hget] at hd
        exact absurd hd (by simp [isUndefined])
    · by_cases ha : v.toArray.length = 0
      · have ha0 : v.toArray = [] := List.length_eq_zero.1 ha
        rw [ha0] at h
        have hn := below_of_empty n h
        rw [setRemoveGet_index_below_empty v n [] x ha0 hn, if_neg (by omega)]
        exact ⟨fun _ => rfl, fun _ _ => Or.inl ha⟩
      · have hl := QJsonArray.length_grow v.toArray (QJsonArray.resolveIndex v.toArray n)
        rw [setRemoveGet_index_below_fault v n [] x ha h]
        have hn : ¬ 0 ≤ n := by omega
        rw [if_neg hn]
        constructor
        · intro hc
          rcases hc with hc | hc
          · exact absurd hc ha
          · omega
        · intro _ hget
          exact absurd hget (by simp)
  | Index n :: r :: rs, v => by
    have ih := setRemoveGet_undefined_iff x (r :: rs)
      ((QJsonArray.grow v.toArray (QJsonArray.resolveIndex v.toArray n)).getD
        (QJsonArray.resolveIndex v.toArray n).toNat undefined)
    by_cases h : -n ≤ ((QJsonArray.grow v.toArray (QJsonArray.resolveIndex v.toArray n)).length
        : Int)
    · have hin := QJsonArray.resolveIndex_in_grow v.toArray n h
      have hcg : closesGap v (Index n :: r :: rs) =
          closesGap ((QJsonArray.grow v.toArray (QJsonArray.resolveIndex v.toArray n)).getD
            (QJsonArray.resolveIndex v.toArray n).toNat undefined) (r :: rs) := by
        simp only [closesGap, if_pos h]
      rw [setRemoveGet_index_more v n r rs x h, hcg]
      exact ⟨ih.1, fun hv => ih.2 (getD_grow_persisted v.toArray _ (persisted_toArray v hv) hin)⟩
    · have hcg : closesGap v (Index n :: r :: rs) = decide (v.toArray.length = 0) := by
        simp only [closesGap, if_neg h]
      rw [hcg]
      by_cases ha : v.toArray.length = 0
      · have ha0 : v.toArray = [] := List.length_eq_zero.1 ha
        rw [ha0] at h
        have hn := below_of_empty n h
        rw [setRemoveGet_index_below_empty v n (r :: rs) x ha0 hn]
        exact ⟨fun _ => rfl, fun _ _ => by simp [ha]⟩
      · rw [setRemoveGet_index_below_fault v n (r :: rs) x ha h]
        constructor
        · intro hc
          exact absurd hc (by simp [ha])
        · intro _ hget
          exact absurd hget (by simp)

/-- C1 (as stated, refuted): SET through the Index -2 on an empty array writes
position 0, and GET through the Index -2 on the resulting one-element array resolves
to position -1, so the value read back is not the value written. -/
theorem set_get_roundtrip_fails_from_end :
    (QJsonPath.set (array []) [Index (-2)] (string ['a'])).bind
        (fun root => QJsonPath.get root [Index (-2)] undefined) ≠ .ok (string ['a']) := by
  have h : (QJsonPath.set (array []) [Index (-2)] (string ['a'])).bind
      (fun root => QJsonPath.get root [Index (-2)] undefined) = .ok undefined := rfl
  rw [h]
  simp

/-- C1 (amended): for every value V, every non-empty path P and every value X other
than Undefined such that each negative Index -k of P meets, when SET reaches it, an
array of at least k elements after growth, GET of P on the result of SET of X at P
returns X. -/
theorem set_get_roundtrip (v : QJsonValue) (path : List Segment) (x : QJsonValue)
    (hpath : path ≠ []) (hx : x ≠ undefined) (hneg : negativeInRange v path = true) :
    (QJsonPath.set v path x).bind (fun root => QJsonPath.get root path undefined) = .ok x := by
  have hx1 : x.isUndefined = false := by
    cases x <;> simp [isUndefined] at hx ⊢
  obtain ⟨v1, hset, -, hget⟩ := handle_set_then_get null path v x hpath hx1 hneg
  simp [QJsonPath.set, QJsonPath.get, hset, Except.bind, hget, hx1]

/-- C1 (amended), at an instance: the path `[-1]/a` on the array `[1, 2]`. -/
theorem set_get_roundtrip_witness :
    (QJsonPath.set (array [double 1, double 2]) [Index (-1), Name ['a']] (string ['x'])).bind
        (fun root => QJsonPath.get root [Index (-1), Name ['a']] undefined) = .ok (string ['x']) :=
  set_get_roundtrip (array [double 1, double 2]) [Index (-1), Name ['a']] (string ['x'])
    (by simp) (by simp) rfl

/-- C2 (as stated, refuted): on the array `[1, 2, 3]` and the path `[0]`, REMOVE
shifts the elements behind the removed one forward, and GET of the same path then
returns the former second element, 2; on the array `[1, 2]` and the path `[-1]`, the
Index counts from the end of the array REMOVE has shortened, and GET returns the
former first element, 1. -/
theorem get_after_remove_finds_next :
    (QJsonPath.set (array [double 1, double 2, double 3]) [Index 0] (string ['x'])).bind
        (fun root => (QJsonPath.remove root [Index 0]).bind
          (fun root1 => QJsonPath.get root1 [Index 0] undefined)) ≠ .ok undefined ∧
    (QJsonPath.set (array [double 1, double 2]) [Index (-1)] (string ['x'])).bind
        (fun root => (QJsonPath.remove root [Index (-1)]).bind
          (fun root1 => QJsonPath.get root1 [Index (-1)] undefined)) ≠ .ok undefined := by
  have h : (QJsonPath.set (array [double 1, double 2, double 3]) [Index 0]
      (string ['x'])).bind (fun root => (QJsonPath.remove root [Index 0]).bind
        (fun root1 => QJsonPath.get root1 [Index 0] undefined)) = .ok (double 2) := rfl
  have h1 : (QJsonPath.set (array [double 1, double 2]) [Index (-1)]
      (string ['x'])).bind (fun root => (QJsonPath.remove root [Index (-1)]).bind
        (fun root1 => QJsonPath.get root1 [Index (-1)] undefined)) = .ok (double 1) := rfl
  rw [h, h1]
  simp

/-- C2 (amended): for every value V, every path P and every value X, GET of P after
REMOVE of P after SET of X at P is Undefined on the paths of `closesGap`: each Index
before the last segment is an Index i >= 0, or an Index -k on an array that holds at
least k elements once SET has grown it, or an Index -k, k >= 2, on an empty array
(nothing more is then asked of the rest of the path); and the last segment reached is
a Name, or an Index i >= 0 on an array with no element behind position i, or an Index
-k on an array that is empty or holds exactly k elements.  When no container of V
holds Undefined, these are the only paths on which SET returns and the GET is
Undefined. -/
theorem get_after_remove_undefined (v : QJsonValue) (path : List Segment) (x : QJsonValue) :
    (closesGap v path = true →
      (QJsonPath.set v path x).bind
        (fun root => (QJsonPath.remove root path).bind
          (fun root1 => QJsonPath.get root1 path undefined)) = .ok undefined) ∧
    (v.persisted = true →
      (QJsonPath.set v path x).bind
        (fun root => (QJsonPath.remove root path).bind
          (fun root1 => QJsonPath.get root1 path undefined)) = .ok undefined →
      closesGap v path = true) :=
  setRemoveGet_undefined_iff x path v

/-- C2 (amended), at instances: the path `a/[2]` on an object whose array under `a`
has two elements; the path `[-1]/[0]` on `[[1]]`; the path `[-2]` on `[1, 2]`; the
path `a/[-1]/b` on `{"a": [{}]}`; and, in the other direction, the path `[-2]/a` on
the empty array. -/
theorem get_after_remove_undefined_witness :
    (QJsonPath.set (object [(['a'], array [double 1, double 2])]) [Name ['a'], Index 2]
        (string ['x'])).bind
        (fun root => (QJsonPath.remove root [Name ['a'], Index 2]).bind
          (fun root1 => QJsonPath.get root1 [Name ['a'], Index 2] undefined)) = .ok undefined ∧
    (QJsonPath.set (array [array [double 1]]) [Index (-1), Index 0] (string ['x'])).bind
        (fun root => (QJsonPath.remove root [Index (-1), Index 0]).bind
          (fun root1 => QJsonPath.get root1 [Index (-1), Index 0] undefined)) = .ok undefined ∧
    (QJsonPath.set (array [double 1, double 2]) [Index (-2)] (string ['x'])).bind
        (fun root => (QJsonPath.remove root [Index (-2)]).bind
          (fun root1 => QJsonPath.get root1 [Index (-2)] undefined)) = .ok undefined ∧
    (QJsonPath.set (object [(['a'], array [object []])]) [Name ['a'], Index (-1), Name ['b']]
        (string ['x'])).bind
        (fun root => (QJsonPath.remove root [Name ['a'], Index (-1), Name ['b']]).bind
          (fun root1 => QJsonPath.get root1 [Name ['a'], Index (-1), Name ['b']] undefined)) =
      .ok undefined ∧
    closesGap (array []) [Index (-2), Name ['a']] = true :=
  ⟨(get_after_remove_undefined (object [(['a'], array [double 1, double 2])])
      [Name ['a'], Index 2] (string ['x'])).1 rfl,
    (get_after_remove_undefined (array [array [double 1]]) [Index (-1), Index 0]
      (string ['x'])).1 rfl,
    (get_after_remove_undefined (array [double 1, double 2]) [Index (-2)]
      (string ['x'])).1 rfl,
    (get_after_remove_undefined (object [(['a'], array [object []])])
      [Name ['a'], Index (-1), Name ['b']] (string ['x'])).1 rfl,
    (get_after_remove_undefined (array []) [Index (-2), Name ['a']] (string ['x'])).2 rfl
      rfl⟩

/-- C3: for every value V, every non-empty path P and every default D: when P does
not resolve in V, GET without a default is Undefined and GET with the default D
returns D; when P resolves to a stored value W (a value other than Undefined), GET
with the default D returns W. -/
theorem get_default_or_value (v : QJsonValue) (path : List Segment) (d : QJsonValue)
    (hpath : path ≠ []) :
    (resolve v path = none →
      QJsonPath.get v path undefined = .ok undefined ∧ QJsonPath.get v path d = .ok d) ∧
    (∀ w, resolve v path = some w → w ≠ undefined → QJsonPath.get v path d = .ok w) := by
  have hget := handle_get_eq_resolve null path v hpath
  constructor
  · intro hnone
    simp [QJsonPath.get, hget, hnone, isUndefined]
  · intro w hsome hw
    have hw1 : w.isUndefined = false := by
      cases w <;> simp [isUndefined] at hw ⊢
    simp [QJsonPath.get, hget, hsome, hw1]

/-- C3, at two instances: a missing key with the default 55, and the second element
of the array under `a` with a default that is not used. -/
theorem get_default_or_value_witness :
    (QJsonPath.get (object []) [Name ['n']] undefined = .ok undefined ∧
      QJsonPath.get (object []) [Name ['n']] (double 55) = .ok (double 55)) ∧
    QJsonPath.get (object [(['a'], array [null, string ['x']])]) [Name ['a'], Index (-1)]
      (double 55) = .ok (string ['x']) :=
  ⟨(get_default_or_value (object []) [Name ['n']] (double 55) (by simp)).1 rfl,
    (get_default_or_value (object [(['a'], array [null, string ['x']])])
      [Name ['a'], Index (-1)] (double 55) (by simp)).2 (string ['x']) rfl (by simp)⟩

/-- C4: for every value V of the data model (no container of V holds Undefined) and
every non-empty path P such that GET of P on V is Undefined, REMOVE of P returns V
itself. -/
theorem remove_unresolved_is_noop (v : QJsonValue) (path : List Segment)
    (hpath : path ≠ []) (hv : v.persisted = true)
    (hget : QJsonPath.get v path undefined = .ok undefined) :
    QJsonPath.remove v path = .ok v := by
  unfold QJsonPath.remove
  apply handle_remove_noop null null path v hpath hv
  unfold QJsonPath.get at hget
  cases hh : handleJsonAttribute v path null GET with
  | error e => simp [hh] at hget
  | ok w =>
    simp only [hh, Except.ok.injEq] at hget
    cases w <;> simp_all [isUndefined]

/-- C4, at an instance: the path `a/[5]/b` on an object whose array under `a` has
two elements. -/
theorem remove_unresolved_is_noop_witness :
    QJsonPath.remove (object [(['a'], array [double 1, object []])])
        [Name ['a'], Index 5, Name ['b']] =
      .ok (object [(['a'], array [double 1, object []])]) :=
  remove_unresolved_is_noop (object [(['a'], array [double 1, object []])])
    [Name ['a'], Index 5, Name ['b']] (by simp) rfl rfl

/-- C5: for every array A of length n >= 1, every k with 1 <= k <= n, every rest R
of the path, every value X and every default D, GET, SET and REMOVE with the path
`Index (-k) :: R` give what they give with `Index (n - k) :: R`; and GET of
`[Index (-1)]` is the last element of A. -/
theorem negative_index_counts_from_end (a : QJsonArray) (k : Int) (rest : List Segment)
    (x d : QJsonValue) (hk1 : 1 ≤ k) (hk2 : k ≤ a.length) :
    QJsonPath.get (array a) (Index (-k) :: rest) d =
        QJsonPath.get (array a) (Index ((a.length : Int) - k) :: rest) d ∧
      QJsonPath.set (array a) (Index (-k) :: rest) x =
        QJsonPath.set (array a) (Index ((a.length : Int) - k) :: rest) x ∧
      QJsonPath.remove (array a) (Index (-k) :: rest) =
        QJsonPath.remove (array a) (Index ((a.length : Int) - k) :: rest) ∧
      ∃ w, a.getLast? = some w ∧ QJsonPath.get (array a) [Index (-1)] undefined = .ok w := by
  have h := resolveIndex_from_end a k hk1 hk2
  have hc := fun y op => handle_index_congr (array a) (-k) ((a.length : Int) - k) rest y op
    (by rw [toArray_array]; exact h)
  refine ⟨?_, ?_, ?_, ?_⟩
  · simp only [QJsonPath.get, hc]
  · simp only [QJsonPath.set, hc]
  · simp only [QJsonPath.remove, hc]
  · have h0 : 0 < a.length := by omega
    have hr : QJsonArray.resolveIndex a (-1) = (a.length : Int) - 1 := by
      unfold QJsonArray.resolveIndex
      rw [if_pos (by omega), if_pos (by omega)]
      omega
    refine ⟨a[a.length - 1], ?_, ?_⟩
    · rw [List.getLast?_eq_getElem?, List.getElem?_eq_getElem]
    · have ht : ((a.length : Int) - 1).toNat = a.length - 1 := by omega
      have hget : handleJsonAttribute (array a) [Index (-1)] null GET =
          .ok a[a.length - 1] := by
        rw [handle_get_index_last, toArray_array]
        simp only [hr]
        rw [if_pos ⟨by omega, by omega⟩]
        simp only [ht, List.getD_eq_getElem?_getD,
          List.getElem?_eq_getElem (by omega : a.length - 1 < a.length), Option.getD_some]
      unfold QJsonPath.get
      rw [hget]
      cases hw : a[a.length - 1] <;> simp [isUndefined]

/-- C5, at an instance: the Index -2 on the array `[1, 2, 3]`. -/
theorem negative_index_counts_from_end_witness :
    QJsonPath.get (array [double 1, double 2, double 3]) [Index (-2)] null =
        QJsonPath.get (array [double 1, double 2, double 3]) [Index (3 - 2)] null ∧
      QJsonPath.set (array [double 1, double 2, double 3]) [Index (-2)] (string ['x']) =
        QJsonPath.set (array [double 1, double 2, double 3]) [Index (3 - 2)] (string ['x']) ∧
      QJsonPath.remove (array [double 1, double 2, double 3]) [Index (-2)] =
        QJsonPath.remove (array [double 1, double 2, double 3]) [Index (3 - 2)] ∧
      ∃ w, [double 1, double 2, double 3].getLast? = some w ∧
        QJsonPath.get (array [double 1, double 2, double 3]) [Index (-1)] undefined = .ok w :=
  negative_index_counts_from_end [double 1, double 2, double 3] 2 [] (string ['x']) null
    (by decide) (by decide)

/-- C6: for every array A of length n, every index i >= 0 and every assigned value X
(a value other than Undefined, the marker of absence), SET of X at `[Index i]` gives
an array of length max(n, i + 1) that agrees with A at every position j < n other
than i, holds Null at every position j with n <= j < i, and holds X at position i;
and SET of X at the path string "a[2]" on the empty object gives the object whose key
"a" holds the array of Null, Null and X. -/
theorem set_index_grows_with_null (a : QJsonArray) (i : Int) (x : QJsonValue)
    (hi : 0 ≤ i) (hx : x ≠ undefined) :
    (∃ r : QJsonArray, QJsonPath.set (array a) [Index i] x = .ok (array r) ∧
      (r.length : Int) = max (a.length : Int) (i + 1) ∧
      (∀ j : Nat, j < a.length → (j : Int) ≠ i → r[j]? = a[j]?) ∧
      (∀ j : Nat, a.length ≤ j → (j : Int) < i → r[j]? = some null) ∧
      r[i.toNat]? = some x) ∧
    QJsonPath.set_str '/' toIntDec (object []) "a[2]".toList x =
      .ok (object [("a".toList, array [null, null, x])]) := by
  have hx1 : x.isUndefined = false := by
    cases x <;> simp [isUndefined] at hx ⊢
  have hst : x.stored = x := stored_of_ne_undefined x hx1
  constructor
  · obtain ⟨m, hm⟩ := Int.eq_ofNat_of_zero_le hi
    subst hm
    have hg := QJsonArray.length_grow a (m : Int)
    refine ⟨QJsonArray.assign (QJsonArray.grow a (m : Int)) m x, ?_, ?_, ?_, ?_, ?_⟩
    · unfold QJsonPath.set
      rw [handle_set_index_last, toArray_array, resolveIndex_of_nonneg _ _ hi,
        if_pos ⟨hi, by omega⟩]
      rfl
    · rw [length_assign, hg]
    · intro j hj hne
      rw [getElem?_grow_set, if_neg (by omega), if_pos hj]
    · intro j hj hlt
      rw [getElem?_grow_set, if_neg (by omega), if_neg (by omega), if_pos (by omega)]
    · rw [Int.toNat_ofNat, getElem?_grow_set, if_pos rfl, hst]
  · have h : QJsonPath.set_str '/' toIntDec (object []) "a[2]".toList x =
        .ok (object [("a".toList, array [null, null, x.stored])]) := by
      cases x <;> rfl
    rw [h, hst]

/-- C6, at instances: position 4 of the array `[1, 2]`, and the path string "a[2]" on
the empty object. -/
theorem set_index_grows_with_null_witness :
    QJsonPath.set (array [double 1, double 2]) [Index 4] (string ['x']) =
      .ok (array [double 1, double 2, null, null, string ['x']]) ∧
    ((∃ r : QJsonArray, QJsonPath.set (array [double 1, double 2]) [Index 4] (string ['x']) =
        .ok (array r) ∧
      (r.length : Int) = max (([double 1, double 2] : QJsonArray).length : Int) (4 + 1) ∧
      (∀ j : Nat, j < ([double 1, double 2] : QJsonArray).length → (j : Int) ≠ 4 →
        r[j]? = ([double 1, double 2] : QJsonArray)[j]?) ∧
      (∀ j : Nat, ([double 1, double 2] : QJsonArray).length ≤ j → (j : Int) < 4 →
        r[j]? = some null) ∧
      r[(4 : Int).toNat]? = some (string ['x'])) ∧
    QJsonPath.set_str '/' toIntDec (object []) "a[2]".toList (string ['x']) =
      .ok (object [("a".toList, array [null, null, string ['x']])])) :=
  ⟨rfl, set_index_grows_with_null [double 1, double 2] 4 (string ['x']) (by decide)
    (by simp)⟩

/-- C7 (as stated, refuted): SET of "abc" at the empty path string on the empty object
does not make the root equal to "abc"; it stores "abc" under the key with the empty
name. -/
theorem set_empty_path_keeps_root_object :
    QJsonPath.set_str '/' toIntDec (object []) [] (string "abc".toList) ≠
      .ok (string "abc".toList) := by
  have h : QJsonPath.set_str '/' toIntDec (object []) [] (string "abc".toList) =
      .ok (object [([], string "abc".toList)]) := rfl
  rw [h]
  simp

/-- C7 (amended): the empty path string parses to the single segment `Name ""` and so
addresses the key with the empty name: for every value V, every value X other than
Undefined and every default D, SET of X at "" gives an Object in which the key ""
holds X and every other key holds what it held in V, and GET at "" returns the value
under the key "" of V, or D when V has none. -/
theorem empty_path_addresses_empty_key (sep : Char) (toInt : QString → Option Int)
    (v x d : QJsonValue) (hx : x ≠ undefined) :
    splitPath sep toInt [] = [Name []] ∧
    (∃ o : QJsonObject, QJsonPath.set_str sep toInt v [] x = .ok (object o) ∧
      QJsonObject.value o [] = x ∧
      ∀ k : QString, k ≠ [] → QJsonObject.value o k = QJsonObject.value v.toObject k) ∧
    QJsonPath.get_str sep toInt v [] d =
      .ok (if (QJsonObject.value v.toObject []).isUndefined then d
        else QJsonObject.value v.toObject []) := by
  have hx1 : x.isUndefined = false := by
    cases x <;> simp [isUndefined] at hx ⊢
  refine ⟨splitPath_empty sep toInt, ?_, ?_⟩
  · refine ⟨QJsonObject.put (QJsonObject.ref v.toObject []).1 [] x, ?_, ?_, ?_⟩
    · unfold QJsonPath.set_str QJsonPath.set
      rw [splitPath_empty, handle_set_name_last, insert_of_ne_undefined _ _ _ hx1]
    · exact QJsonObject.value_put_self _ _ _
    · intro k hk
      have hne : ([] : QString) ≠ k := fun h => hk h.symm
      have h1 : QJsonObject.value (QJsonObject.ref v.toObject []).1 k =
          QJsonObject.value v.toObject k := by
        unfold QJsonObject.ref
        split
        · rfl
        · exact QJsonObject.value_insertSorted_ne _ _ _ _ hne
      unfold QJsonObject.put
      split
      · rw [QJsonObject.value_replace_ne _ _ _ _ hne, h1]
      · rw [QJsonObject.value_insertSorted_ne _ _ _ _ hne, h1]
  · unfold QJsonPath.get_str QJsonPath.get
    rw [splitPath_empty, handle_get_name_last]
    by_cases hc : QJsonObject.contains v.toObject [] = true
    · simp [hc]
    · have := QJsonObject.value_of_not_contains v.toObject [] (by simpa using hc)
      simp [hc, this, isUndefined]

/-- C7 (amended), at an instance: the object `{"": 1, "b": 2}` and the value "abc". -/
theorem empty_path_addresses_empty_key_witness :
    splitPath '/' toIntDec [] = [Name []] ∧
    (∃ o : QJsonObject,
      QJsonPath.set_str '/' toIntDec (object [([], double 1), (['b'], double 2)]) []
        (string "abc".toList) = .ok (object o) ∧
      QJsonObject.value o [] = string "abc".toList ∧
      ∀ k : QString, k ≠ [] → QJsonObject.value o k =
        QJsonObject.value (object [([], double 1), (['b'], double 2)]).toObject k) ∧
    QJsonPath.get_str '/' toIntDec (object [([], double 1), (['b'], double 2)]) [] null =
      .ok (if (QJsonObject.value
          (object [([], double 1), (['b'], double 2)]).toObject []).isUndefined then null
        else QJsonObject.value (object [([], double 1), (['b'], double 2)]).toObject []) :=
  empty_path_addresses_empty_key '/' toIntDec (object [([], double 1), (['b'], double 2)])
    (string "abc".toList) null (by simp)

/-- C8: for every path string p and every two separators c1 and c2, neither of them
'[' or ']', such that c2 does not occur in p, `splitPath` with the separator c1 on p
returns the segment list that `splitPath` with the separator c2 returns on p with
every c1 replaced by c2. -/
theorem splitPath_separator_independent (toInt : QString → Option Int) (p : QString)
    (c1 c2 : Char) (_h1 : c1 ≠ '[' ∧ c1 ≠ ']') (_h2 : c2 ≠ '[' ∧ c2 ≠ ']')
    (hp : c2 ∉ p) :
    splitPath c1 toInt p = splitPath c2 toInt (replaceChar c1 c2 p) := by
  rw [splitPath_eq_scan, splitPath_eq_scan]
  unfold splitPathScan
  rw [scan_replaceChar c1 c2 toInt p _ hp]

/-- C8, at the instance of the claim: "a/b[1]" with '/' against "a.b[1]" with '.'. -/
theorem splitPath_separator_independent_witness :
    splitPath '/' toIntDec "a/b[1]".toList = splitPath '.' toIntDec "a.b[1]".toList ∧
      splitPath '/' toIntDec "a/b[1]".toList = [Name ['a'], Name ['b'], Index 1] :=
  ⟨splitPath_separator_independent toIntDec "a/b[1]".toList '/' '.'
    (by decide) (by decide) (by decide), by decide⟩

/-- C10: for every path string s that contains no '[' and no ']', `splitPath` returns
the substrings of s between consecutive separators, each as a Name segment, in
order; their number is the number of separators in s plus one.  The substrings are
the texts free of the separator that give s back when joined by the separator. -/
theorem splitPath_without_brackets (sep : Char) (toInt : QString → Option Int)
    (s : QString) (h1 : '[' ∉ s) (h2 : ']' ∉ s) :
    splitPath sep toInt s = (fieldsOf sep s).map Name ∧
      (splitPath sep toInt s).length = s.count sep + 1 ∧
      List.intercalate [sep] (fieldsOf sep s) = s ∧
      ∀ f ∈ fieldsOf sep s, sep ∉ f := by
  obtain ⟨f, fs, hf, hscan⟩ := scan_fields sep toInt s [] [] h1 h2
  have h : splitPath sep toInt s = (fieldsOf sep s).map Name := by
    rw [splitPath_eq_scan]
    unfold splitPathScan
    rw [hscan, hf]
    simp
  refine ⟨h, ?_, intercalate_fieldsOf sep s, sep_not_mem_fieldsOf sep s⟩
  rw [h, List.length_map, length_fieldsOf]

/-- C10, at an instance: a leading, a doubled and a trailing separator each give a
Name segment with the empty text. -/
theorem splitPath_without_brackets_witness :
    (splitPath '/' toIntDec "/a//b/".toList =
        (fieldsOf '/' "/a//b/".toList).map Name ∧
      (splitPath '/' toIntDec "/a//b/".toList).length = "/a//b/".toList.count '/' + 1 ∧
      List.intercalate ['/'] (fieldsOf '/' "/a//b/".toList) = "/a//b/".toList ∧
      ∀ f ∈ fieldsOf '/' "/a//b/".toList, '/' ∉ f) ∧
    (fieldsOf '/' "/a//b/".toList).map Name =
      [Name [], Name ['a'], Name [], Name ['b'], Name []] :=
  ⟨splitPath_without_brackets '/' toIntDec "/a//b/".toList (by decide) (by decide),
    by decide⟩

/-- C9 (as stated, refuted): with the separator '1' the canonical text "[1]" of the
list `[Index 1]` is cut at its digit into the two Names "[" and "]". -/
theorem splitPath_render_fails_digit_separator :
    canonicalSegment '1' (Index 1) = true ∧
      renderPath '1' [Index 1] = "[1]".toList ∧
      splitPath '1' toIntDec (renderPath '1' [Index 1]) ≠ [Index 1] := by
  decide

/-- C9 (amended): for a separator that is not '[', not ']', not '-' and not a decimal
digit, and for every non-empty list of segments whose Names are non-empty and hold
neither the separator nor '[' nor ']' and whose Indexes fit a 32-bit signed integer,
`splitPath` on the canonical text of the list returns the list; `toInt` is any
integer reader that reads back the decimal text of every 32-bit integer. -/
theorem splitPath_renderPath (sep : Char) (toInt : QString → Option Int)
    (segs : List Segment) (hs1 : sep ≠ '[') (hs2 : sep ≠ ']')
    (hsep : isDecimalChar sep = false)
    (hto : ∀ n : Int, -2147483648 ≤ n → n ≤ 2147483647 → toInt (decimal n) = some n)
    (hne : segs ≠ []) (hcan : ∀ seg ∈ segs, canonicalSegment sep seg = true) :
    splitPath sep toInt (renderPath sep segs) = segs := by
  rw [splitPath_eq_scan]
  unfold splitPathScan renderPath
  cases segs with
  | nil => exact absurd rfl hne
  | cons seg rest =>
    have ih := scan_renderFrom sep toInt hs1 hs2 hsep hto rest
      (fun x hx => hcan x (by simp [hx]))
    cases seg with
    | Name t =>
      obtain ⟨ht0, htp⟩ := plain_of_canonical_name sep t (hcan _ (by simp))
      have hrender : renderFrom sep true (Name t :: rest) = t ++ renderFrom sep false rest := by
        simp [renderFrom]
      rw [hrender, scan_append, scan_plain sep toInt t _ htp]
      simp only [Option.map_some', List.nil_append, Option.map_none']
      rw [(ih []).1 t ht0]
      simp
    | Index n =>
      have hn : -2147483648 ≤ n ∧ n ≤ 2147483647 := by
        have := hcan (Index n) (by simp)
        simpa [canonicalSegment] using this
      have hrender : renderFrom sep true (Index n :: rest) =
          ('[' :: decimal n ++ [']']) ++ renderFrom sep false rest := by
        simp [renderFrom]
      rw [hrender, scan_append,
        scan_index sep toInt [] _ _ n hs1 hs2 (plain_of_decimal sep n hsep) (hto n hn.1 hn.2)]
      have hf : flushName ([] : List Segment) (some ('[' :: decimal n)) (decimal n) = [] := by
        have := flushName_bracket [] [] (decimal n)
        simpa using this
      simp only [Option.map_some', List.nil_append, hf]
      rw [(ih _).2]
      rfl

/-- C9 (amended), at the instance of the claim: "name3[1]/name30/name31" against the
list of "name3", 1, "name30", "name31". -/
theorem splitPath_renderPath_witness :
    renderPath '/' [Name "name3".toList, Index 1, Name "name30".toList, Name "name31".toList] =
        "name3[1]/name30/name31".toList ∧
      splitPath '/' toIntDec
        (renderPath '/'
          [Name "name3".toList, Index 1, Name "name30".toList, Name "name31".toList]) =
        [Name "name3".toList, Index 1, Name "name30".toList, Name "name31".toList] :=
  ⟨by decide,
    splitPath_renderPath '/' toIntDec
      [Name "name3".toList, Index 1, Name "name30".toList, Name "name31".toList]
      (by decide) (by decide) (by decide) toIntDec_decimal (by simp) (by decide)⟩

/-- C12 (as stated, refuted): on the empty string `splitPath` does not return the
list with no segments. -/
theorem splitPath_empty_string_not_empty_list :
    splitPath '/' toIntDec "".toList ≠ [] := by
  decide

/-- C12 (amended): on the empty string `splitPath` returns, for every separator, the
list whose single segment is the Name with the empty text. -/
theorem splitPath_empty_string (sep : Char) (toInt : QString → Option Int) :
    splitPath sep toInt "".toList = [Name "".toList] ∧
      (splitPath sep toInt "".toList).length = 1 := by
  constructor <;> rfl

/-- C13: for every value V that is not an Object, every key k, rest R of the path and
value X, SET at `Name k :: R` on V gives what it gives on the empty Object; for every
value V that is not an Array, every index i, R and X, SET at `Index i :: R` on V gives
what it gives on the empty Array. -/
theorem set_overwrites_mismatched_container (v : QJsonValue) (k : QString) (i : Int)
    (rest : List Segment) (x : QJsonValue) :
    (v.isObject = false →
      QJsonPath.set v (Name k :: rest) x = QJsonPath.set (object []) (Name k :: rest) x) ∧
    (v.isArray = false →
      QJsonPath.set v (Index i :: rest) x = QJsonPath.set (array []) (Index i :: rest) x) := by
  constructor
  · intro h
    exact handle_set_name_congr v (object []) k rest x
      (by rw [toObject_of_not_object v h, toObject_object])
  · intro h
    exact handle_set_index_congr v (array []) i rest x
      (by rw [toArray_of_not_array v h, toArray_array])

/-- C13, at two instances: an Array holding content under a Name path, and an Object
holding content under an Index path. -/
theorem set_overwrites_mismatched_container_witness :
    QJsonPath.set (array [double 1]) [Name ['a'], Index 1] (string ['x']) =
        QJsonPath.set (object []) [Name ['a'], Index 1] (string ['x']) ∧
      QJsonPath.set (object [(['b'], double 2)]) [Index (-3), Name ['a']] (string ['x']) =
        QJsonPath.set (array []) [Index (-3), Name ['a']] (string ['x']) :=
  ⟨(set_overwrites_mismatched_container (array [double 1]) ['a'] 0 [Index 1]
      (string ['x'])).1 rfl,
    (set_overwrites_mismatched_container (object [(['b'], double 2)]) [] (-3) [Name ['a']]
      (string ['x'])).2 rfl⟩

/-- C15: for every value V, every non-empty path P of Names and non-negative Indexes,
and every value X other than Undefined, GET of P on the result of SET of X at P
returns X, whatever V held along P. -/
theorem set_get_roundtrip_nonnegative (v : QJsonValue) (path : List Segment)
    (x : QJsonValue) (hpath : path ≠ []) (hnn : nonNegative path = true)
    (hx : x ≠ undefined) :
    (QJsonPath.set v path x).bind (fun root => QJsonPath.get root path undefined) = .ok x := by
  have hx1 : x.isUndefined = false := by
    cases x <;> simp [isUndefined] at hx ⊢
  obtain ⟨v1, hset, -, hget⟩ := handle_set_then_get null path v x hpath hx1
    (negativeInRange_of_nonNegative path v hnn)
  simp [QJsonPath.set, QJsonPath.get, hset, Except.bind, hget, hx1]

/-- C15, at an instance of the tests: the path `name3[1]/name31[2]/name31` on a root
that holds a scalar under `name3`. -/
theorem set_get_roundtrip_nonnegative_witness :
    (QJsonPath.set (object [("name3".toList, double 7)])
        [Name "name3".toList, Index 1, Name "name31".toList, Index 2, Name "name31".toList]
        (string "qqq".toList)).bind
      (fun root => QJsonPath.get root
        [Name "name3".toList, Index 1, Name "name31".toList, Index 2, Name "name31".toList]
        undefined) = .ok (string "qqq".toList) :=
  set_get_roundtrip_nonnegative (object [("name3".toList, double 7)])
    [Name "name3".toList, Index 1, Name "name31".toList, Index 2, Name "name31".toList]
    (string "qqq".toList) (by simp) rfl (by simp)

/-- C16: for every Object O that contains the key k, REMOVE at `[Name k]` gives an
Object that lacks k and maps every other key as O does; for every Array A of length n
and every Index whose resolved position i satisfies 0 <= i < n, REMOVE at that Index
gives an Array of length n - 1 that equals A at every position j < i and holds
A[j + 1] at every position j with i <= j < n - 1. -/
theorem remove_deletes_addressed_leaf (o : QJsonObject) (k : QString) (a : QJsonArray)
    (m : Int) :
    (QJsonObject.contains o k = true →
      ∃ o1 : QJsonObject, QJsonPath.remove (object o) [Name k] = .ok (object o1) ∧
        QJsonObject.contains o1 k = false ∧
        ∀ k1 : QString, k1 ≠ k →
          QJsonObject.contains o1 k1 = QJsonObject.contains o k1 ∧
            QJsonObject.value o1 k1 = QJsonObject.value o k1) ∧
    (0 ≤ QJsonArray.resolveIndex a m ∧ QJsonArray.resolveIndex a m < a.length →
      ∃ a1 : QJsonArray, QJsonPath.remove (array a) [Index m] = .ok (array a1) ∧
        a1.length = a.length - 1 ∧
        (∀ j : Nat, (j : Int) < QJsonArray.resolveIndex a m → a1[j]? = a[j]?) ∧
        ∀ j : Nat, QJsonArray.resolveIndex a m ≤ (j : Int) → j < a.length - 1 →
          a1[j]? = a[j + 1]?) := by
  constructor
  · intro hc
    refine ⟨QJsonObject.remove o k, ?_, QJsonObject.contains_remove_self o k, ?_⟩
    · unfold QJsonPath.remove
      rw [handle_remove_name_last, toObject_object, if_pos hc]
    · intro k1 hk
      have hne : k ≠ k1 := fun e => hk e.symm
      exact ⟨contains_remove_ne o k k1 hne, value_remove_ne o k k1 hne⟩
  · intro hr
    refine ⟨QJsonArray.removeAt a (QJsonArray.resolveIndex a m).toNat, ?_, ?_, ?_, ?_⟩
    · unfold QJsonPath.remove
      rw [handle_remove_index_last, toArray_array, if_pos hr]
    · simp only [QJsonArray.removeAt, List.length_eraseIdx]
      rw [if_pos (by omega)]
    · intro j hj
      simp only [QJsonArray.removeAt, List.getElem?_eraseIdx]
      rw [if_pos (by omega)]
    · intro j hj _
      simp only [QJsonArray.removeAt, List.getElem?_eraseIdx]
      rw [if_neg (by omega)]

/-- C16, at two instances: the key `b` of `{"a": 1, "b": 2}` and the Index -2 of
`[1, 2, 3]`. -/
theorem remove_deletes_addressed_leaf_witness :
    QJsonPath.remove (object [(['a'], double 1), (['b'], double 2)]) [Name ['b']] =
        .ok (object [(['a'], double 1)]) ∧
      QJsonPath.remove (array [double 1, double 2, double 3]) [Index (-2)] =
        .ok (array [double 1, double 3]) ∧
      (∃ o1 : QJsonObject,
        QJsonPath.remove (object [(['a'], double 1), (['b'], double 2)]) [Name ['b']] =
          .ok (object o1) ∧
        QJsonObject.contains o1 ['b'] = false ∧
        ∀ k1 : QString, k1 ≠ ['b'] →
          QJsonObject.contains o1 k1 =
              QJsonObject.contains [(['a'], double 1), (['b'], double 2)] k1 ∧
            QJsonObject.value o1 k1 =
              QJsonObject.value [(['a'], double 1), (['b'], double 2)] k1) ∧
      ∃ a1 : QJsonArray,
        QJsonPath.remove (array [double 1, double 2, double 3]) [Index (-2)] =
          .ok (array a1) ∧
        a1.length = ([double 1, double 2, double 3] : QJsonArray).length - 1 ∧
        (∀ j : Nat, (j : Int) <
            QJsonArray.resolveIndex [double 1, double 2, double 3] (-2) →
          a1[j]? = ([double 1, double 2, double 3] : QJsonArray)[j]?) ∧
        ∀ j : Nat, QJsonArray.resolveIndex [double 1, double 2, double 3] (-2) ≤ (j : Int) →
          j < ([double 1, double 2, double 3] : QJsonArray).length - 1 →
          a1[j]? = ([double 1, double 2, double 3] : QJsonArray)[j + 1]? :=
  ⟨rfl, rfl,
    (remove_deletes_addressed_leaf [(['a'], double 1), (['b'], double 2)] ['b']
      [double 1, double 2, double 3] (-2)).1 rfl,
    (remove_deletes_addressed_leaf [(['a'], double 1), (['b'], double 2)] ['b']
      [double 1, double 2, double 3] (-2)).2 (by decide)⟩

/-- C17 (the code at the failing input): SET at the Index -5 on the array `[1, 2]`
resolves the position -3, the growth loop does not run, and the element access at
line 101 falls outside the array. -/
theorem set_below_start_out_of_bounds :
    QJsonArray.resolveIndex [double 1, double 2] (-5) = -3 ∧
      QJsonArray.grow [double 1, double 2] (-3) = [double 1, double 2] ∧
      QJsonPath.set (array [double 1, double 2]) [Index (-5)] (string ['x']) =
        .error .arrayIndexOutOfRange := by
  refine ⟨rfl, rfl, rfl⟩

/-- C11: for every path string s in which no text between a `]` and the nearest `[`
before it in the same separator-delimited part reads as an integer, `splitPath`
returns Name segments only, and their texts joined by the separator are s, character
for character. -/
theorem splitPath_literal_brackets (sep : Char) (toInt : QString → Option Int)
    (s : QString) (h : ∀ t ∈ bracketTexts sep none s, toInt t = none) :
    ∃ names : List QString, splitPath sep toInt s = names.map Name ∧
      List.intercalate [sep] names = s := by
  obtain ⟨f, fs, hf, hscan⟩ := scan_fields_literal sep toInt s [] [] none h
  refine ⟨fieldsOf sep s, ?_, intercalate_fieldsOf sep s⟩
  rw [splitPath_eq_scan]
  unfold splitPathScan
  rw [hscan, hf]
  simp

/-- C11, at the instance of the claim: "time [ms]" parses to the single Name
"time [ms]". -/
theorem splitPath_literal_brackets_witness :
    splitPath '/' toIntDec "time [ms]".toList = [Name "time [ms]".toList] ∧
      bracketTexts '/' none "time [ms]".toList = ["ms".toList] ∧
      ∃ names : List QString, splitPath '/' toIntDec "time [ms]".toList = names.map Name ∧
        List.intercalate ['/'] names = "time [ms]".toList :=
  ⟨by decide, by decide,
    splitPath_literal_brackets '/' toIntDec "time [ms]".toList (by decide)⟩

/-- C20: for every Object O that does not contain the key k, every rest R of the
path (empty or not, with any Names and Indexes) and every value X, REMOVE at
`[Name k]` on the result of SET of X at `Name k :: R` on O returns O. -/
theorem remove_fresh_key_restores_root (o : QJsonObject) (k : QString)
    (rest : List Segment) (x : QJsonValue) (h : QJsonObject.contains o k = false) :
    (QJsonPath.set (object o) (Name k :: rest) x).bind
        (fun root => QJsonPath.remove root [Name k]) = .ok (object o) := by
  unfold QJsonPath.set QJsonPath.remove
  cases rest with
  | nil =>
    rw [handle_set_name_last, toObject_object, ref_of_not_contains o k h]
    exact handle_remove_fresh_key o k x null h
  | cons r rs =>
    obtain ⟨s1, hs, -⟩ := handle_set_fresh (r :: rs) null x (by simp) rfl rfl
    rw [handle_set_name_more, toObject_object, ref_of_not_contains o k h]
    simp only [hs]
    exact handle_remove_fresh_key o k s1 null h

/-- C20, at an instance of the tests: the key `name3` created with the path
`name3[3][3]` on an object that holds `name0`. -/
theorem remove_fresh_key_restores_root_witness :
    (QJsonPath.set (object [("name0".toList, string "def".toList)])
        [Name "name3".toList, Index 3, Index 3] (string "qwe".toList)).bind
      (fun root => QJsonPath.remove root [Name "name3".toList]) =
        .ok (object [("name0".toList, string "def".toList)]) :=
  remove_fresh_key_restores_root [("name0".toList, string "def".toList)] "name3".toList
    [Index 3, Index 3] (string "qwe".toList) rfl

/-- C14: from any Object root, after every call of a finite sequence of Set calls
through the object-rooted adapter, the value that the accessor produced and the
adapter stored is Object-typed and not Array-typed; the sequence goes through
whenever every path starts with a Name and has no negative Index.  Symmetrically,
an Array root under the array-rooted adapter stays Array-typed and never becomes
Object-typed. -/
theorem root_shape_invariant (calls : List (List Segment × QJsonValue)) (o : QJsonObject)
    (a : QJsonArray) :
    (∀ (n : Nat) (o1 : QJsonObject),
      QJsonPath.setAll_QJsonObject o (calls.take n) = .ok o1 →
        QJsonPath.setAll (object o) (calls.take n) = .ok (object o1) ∧
          (object o1).isObject = true ∧ (object o1).isArray = false) ∧
    ((∀ c ∈ calls, startsWithName c.1 = true ∧ nonNegative c.1 = true) →
      ∃ o1, QJsonPath.setAll_QJsonObject o calls = .ok o1) ∧
    (∀ (n : Nat) (a1 : QJsonArray),
      QJsonPath.setAll_QJsonArray a (calls.take n) = .ok a1 →
        QJsonPath.setAll (array a) (calls.take n) = .ok (array a1) ∧
          (array a1).isArray = true ∧ (array a1).isObject = false) ∧
    ((∀ c ∈ calls, startsWithIndex c.1 = true ∧ nonNegative c.1 = true) →
      ∃ a1, QJsonPath.setAll_QJsonArray a calls = .ok a1) :=
  ⟨fun n o1 h => ⟨setAll_QJsonObject_ok (calls.take n) o o1 h, rfl, rfl⟩,
    setAll_QJsonObject_total calls o,
    fun n a1 h => ⟨setAll_QJsonArray_ok (calls.take n) a a1 h, rfl, rfl⟩,
    setAll_QJsonArray_total calls a⟩

/-- C14, at an instance: two Set calls on the empty object, the second with a path
that runs through an array. -/
theorem root_shape_invariant_witness :
    QJsonPath.setAll_QJsonObject []
        [([Name ['a']], double 1), ([Name ['b'], Index 1], string ['x'])] =
      .ok [(['a'], double 1), (['b'], array [null, string ['x']])] ∧
    QJsonPath.setAll (object [])
        (List.take 2 [([Name ['a']], double 1), ([Name ['b'], Index 1], string ['x'])]) =
      .ok (object [(['a'], double 1), (['b'], array [null, string ['x']])]) ∧
    ∃ o1, QJsonPath.setAll_QJsonObject []
        [([Name ['a']], double 1), ([Name ['b'], Index 1], string ['x'])] = .ok o1 :=
  ⟨rfl,
    ((root_shape_invariant [([Name ['a']], double 1), ([Name ['b'], Index 1], string ['x'])]
      [] []).1 2 [(['a'], double 1), (['b'], array [null, string ['x']])] rfl).1,
    (root_shape_invariant [([Name ['a']], double 1), ([Name ['b'], Index 1], string ['x'])]
      [] []).2.1 (by decide)⟩

/-- C19: for every Object root, non-empty path P and value X, the assertion of the
object-rooted adapter fails under Set exactly when the first segment of P is an
Index; for every Array root the assertion of the array-rooted adapter fails under Set
exactly when the first segment of P is a Name; under Remove neither assertion
fails. -/
theorem root_assertion_fires_iff (o : QJsonObject) (a : QJsonArray) (path : List Segment)
    (x : QJsonValue) (hpath : path ≠ []) :
    (QJsonPath.set_QJsonObject o path x = .error .rootType ↔ startsWithIndex path = true) ∧
    (QJsonPath.set_QJsonArray a path x = .error .rootType ↔ startsWithName path = true) ∧
    QJsonPath.remove_QJsonObject o path ≠ .error .rootType ∧
    QJsonPath.remove_QJsonArray a path ≠ .error .rootType :=
  ⟨set_QJsonObject_rootType_iff o path x hpath, set_QJsonArray_rootType_iff a path x hpath,
    remove_QJsonObject_not_rootType o path, remove_QJsonArray_not_rootType a path⟩

/-- C19, at an instance: the path `[1]/a` on the object `{"a": 1}` and on the array
`[1]`. -/
theorem root_assertion_fires_iff_witness :
    QJsonPath.set_QJsonObject [(['a'], double 1)] [Index 1, Name ['a']] (string ['x']) =
        .error .rootType ∧
      QJsonPath.set_QJsonArray [double 1] [Index 1, Name ['a']] (string ['x']) =
        .ok [double 1, object [(['a'], string ['x'])]] ∧
      QJsonPath.remove_QJsonObject [(['a'], double 1)] [Index 1, Name ['a']] ≠
        .error .rootType ∧
      QJsonPath.remove_QJsonArray [double 1] [Index 1, Name ['a']] ≠ .error .rootType :=
  ⟨(root_assertion_fires_iff [(['a'], double 1)] [double 1] [Index 1, Name ['a']]
      (string ['x']) (by simp)).1.2 rfl,
    rfl,
    (root_assertion_fires_iff [(['a'], double 1)] [double 1] [Index 1, Name ['a']]
      (string ['x']) (by simp)).2.2.1,
    (root_assertion_fires_iff [(['a'], double 1)] [double 1] [Index 1, Name ['a']]
      (string ['x']) (by simp)).2.2.2⟩

/-- C18: for every root V and every value X of the data model (no container of V or
of X holds Undefined) and every non-empty path P, the result of SET of X at P is not
Undefined and holds no Undefined in any array or object reachable from it, and
every array slot that the growth created off the path P holds Null; SET returns a
result whenever P has no negative Index. -/
theorem set_leaves_no_undefined (v : QJsonValue) (path : List Segment) (x : QJsonValue)
    (hpath : path ≠ []) (hv : v.persisted = true) (hx : x.persisted = true) :
    (∀ v1, QJsonPath.set v path x = .ok v1 →
      v1.isUndefined = false ∧ v1.persisted = true ∧ GrowthSlotsNull v v1 path) ∧
    (nonNegative path = true → ∃ v1, QJsonPath.set v path x = .ok v1) :=
  ⟨fun v1 h => handle_set_persisted x hx path v v1 hpath hv h,
    fun hnn => handle_set_total path v x hpath hnn⟩

/-- C18, at an instance: SET of Undefined at `a[2]` on the empty object leaves the
array of three Null under `a`. -/
theorem set_leaves_no_undefined_witness :
    QJsonPath.set (object []) [Name ['a'], Index 2] undefined =
        .ok (object [(['a'], array [null, null, null])]) ∧
      ((object [(['a'], array [null, null, null])]).isUndefined = false ∧
        (object [(['a'], array [null, null, null])]).persisted = true ∧
        GrowthSlotsNull (object []) (object [(['a'], array [null, null, null])])
          [Name ['a'], Index 2]) ∧
      ∃ v1, QJsonPath.set (object []) [Name ['a'], Index 2] undefined = .ok v1 :=
  ⟨rfl,
    (set_leaves_no_undefined (object []) [Name ['a'], Index 2] undefined (by simp) rfl rfl).1
      (object [(['a'], array [null, null, null])]) rfl,
    (set_leaves_no_undefined (object []) [Name ['a'], Index 2] undefined (by simp) rfl rfl).2
      rfl⟩


/-- C23: text written after a parsed index is dropped.  For every string a and
integer n such that the parse of a + "[" + decimal(n) + "]" ends with the segment
Index n, and every string t that holds no separator, no `[` and no `]`, `splitPath`
gives for a + "[" + decimal(n) + "]" + t the list it gives for
a + "[" + decimal(n) + "]". -/
theorem splitPath_drops_text_after_index (sep : Char) (toInt : QString → Option Int)
    (a : QString) (n : Int) (t : QString)
    (hidx : ∃ p, splitPath sep toInt (a ++ ('[' :: decimal n ++ [']'])) = p ++ [Index n])
    (ht : ∀ c ∈ t, c ≠ sep ∧ c ≠ '[' ∧ c ≠ ']') :
    splitPath sep toInt (a ++ ('[' :: decimal n ++ [']']) ++ t) =
      splitPath sep toInt (a ++ ('[' :: decimal n ++ [']'])) := by
  obtain ⟨p, hp⟩ := hidx
  rw [splitPath_eq_scan] at hp
  rw [splitPath_eq_scan, splitPath_eq_scan]
  unfold splitPathScan at hp ⊢
  rw [scan_append]
  exact scan_dropped_text sep toInt _ t (name_none_of_finish_index _ p n hp) ht

/-- C23, at the instance of the claim: "a[1]b" parses to [Name "a", Index 1], the
list of "a[1]", and the "b" is in no segment. -/
theorem splitPath_drops_text_after_index_witness :
    splitPath '/' toIntDec "a[1]b".toList = [Name "a".toList, Index 1] ∧
      splitPath '/' toIntDec ("a".toList ++ ('[' :: decimal 1 ++ [']'])) =
        [Name "a".toList] ++ [Index 1] ∧
      splitPath '/' toIntDec ("a".toList ++ ('[' :: decimal 1 ++ [']']) ++ "b".toList) =
        splitPath '/' toIntDec ("a".toList ++ ('[' :: decimal 1 ++ [']'])) :=
  ⟨by decide, by decide,
    splitPath_drops_text_after_index '/' toIntDec "a".toList 1 "b".toList
      ⟨[Name "a".toList], by decide⟩ (by decide)⟩

/-- C21: Set and Remove under one key do not disturb the other keys.  For every value
V, every value X, every default d and all paths P and Q that start with Names of
different keys: whenever Set at P returns a root, Get at Q finds in it what it finds
in V; Set at P returns whenever every negative Index of P stays inside its array
(the other paths run into the element access outside the array that C17 records);
Remove at P always returns a root, and Get at Q finds in it what it finds in V. -/
theorem set_remove_keep_other_keys (v x d : QJsonValue) (k1 k2 : QString)
    (rp rq : List Segment) (hk : k1 ≠ k2) :
    (∀ v1, QJsonPath.set v (Name k1 :: rp) x = .ok v1 →
        QJsonPath.get v1 (Name k2 :: rq) d = QJsonPath.get v (Name k2 :: rq) d) ∧
      (negativeInRange v (Name k1 :: rp) = true →
        ∃ v1, QJsonPath.set v (Name k1 :: rp) x = .ok v1) ∧
      ∃ v2, QJsonPath.remove v (Name k1 :: rp) = .ok v2 ∧
        QJsonPath.get v2 (Name k2 :: rq) d = QJsonPath.get v (Name k2 :: rq) d := by
  refine ⟨?_, ?_, ?_⟩
  · intro v1 h1
    obtain ⟨hc, hv⟩ := handle_set_other_key v x v1 k1 k2 rp hk h1
    unfold QJsonPath.get
    rw [handle_get_name_congr v1 v k2 rq null hc hv]
  · intro hin
    exact handle_set_total_inRange (Name k1 :: rp) v x (by simp) hin
  · obtain ⟨v2, h2⟩ := handle_remove_total (Name k1 :: rp) v null (by simp)
    obtain ⟨hc, hv⟩ := handle_remove_other_key v null v2 k1 k2 rp hk h2
    refine ⟨v2, h2, ?_⟩
    unfold QJsonPath.get
    rw [handle_get_name_congr v2 v k2 rq null hc hv]

/-- C21, at an instance: on the root `{"a": [1, 2], "b": {"c": 5}}`, Set and Remove at
`a[-1]` leave what Get finds at `b/c`, the number 5. -/
theorem set_remove_keep_other_keys_witness :
    QJsonPath.get (object [("a".toList, array [double 1, double 2]),
        ("b".toList, object [("c".toList, double 5)])])
      [Name "b".toList, Name "c".toList] undefined = .ok (double 5) ∧
    ((∀ v1, QJsonPath.set (object [("a".toList, array [double 1, double 2]),
          ("b".toList, object [("c".toList, double 5)])])
          [Name "a".toList, Index (-1)] (string "x".toList) = .ok v1 →
        QJsonPath.get v1 [Name "b".toList, Name "c".toList] undefined =
          QJsonPath.get (object [("a".toList, array [double 1, double 2]),
            ("b".toList, object [("c".toList, double 5)])])
            [Name "b".toList, Name "c".toList] undefined) ∧
      (negativeInRange (object [("a".toList, array [double 1, double 2]),
          ("b".toList, object [("c".toList, double 5)])])
          [Name "a".toList, Index (-1)] = true →
        ∃ v1, QJsonPath.set (object [("a".toList, array [double 1, double 2]),
          ("b".toList, object [("c".toList, double 5)])])
          [Name "a".toList, Index (-1)] (string "x".toList) = .ok v1) ∧
      ∃ v2, QJsonPath.remove (object [("a".toList, array [double 1, double 2]),
          ("b".toList, object [("c".toList, double 5)])])
          [Name "a".toList, Index (-1)] = .ok v2 ∧
        QJsonPath.get v2 [Name "b".toList, Name "c".toList] undefined =
          QJsonPath.get (object [("a".toList, array [double 1, double 2]),
            ("b".toList, object [("c".toList, double 5)])])
            [Name "b".toList, Name "c".toList] undefined) :=
  ⟨rfl, set_remove_keep_other_keys
    (object [("a".toList, array [double 1, double 2]),
      ("b".toList, object [("c".toList, double 5)])])
    (string "x".toList) undefined "a".toList "b".toList [Index (-1)] [Name "c".toList]
    (by decide)⟩

/-- C22: last write wins.  For every value V whose objects keep their entries in key
order, every non-empty path P of Names and non-negative Indexes and all values X and
Y: Set at P returns a root, Set of Y at P on the root that Set of X at P returned
gives the root that Set of Y at P gives on V, and Set of X at P a second time changes
nothing (Set is idempotent). -/
theorem set_last_write_wins (v : QJsonValue) (path : List Segment) (x y : QJsonValue)
    (hpath : path ≠ []) (hnn : nonNegative path = true) (hv : v.keysSorted = true) :
    (∃ v2, QJsonPath.set v path y = .ok v2) ∧
      (QJsonPath.set v path x).bind (fun r => QJsonPath.set r path y) =
        QJsonPath.set v path y ∧
      (QJsonPath.set v path x).bind (fun r => QJsonPath.set r path x) =
        QJsonPath.set v path x := by
  obtain ⟨v1, h1, -, h2⟩ := handle_set_set x y path v hpath hnn hv
  obtain ⟨v3, h3, -, h4⟩ := handle_set_set x x path v hpath hnn hv
  refine ⟨handle_set_total path v y hpath hnn, ?_, ?_⟩
  · unfold QJsonPath.set
    rw [h1]
    exact h2
  · unfold QJsonPath.set
    rw [h3]
    exact h4.trans h3

/-- C22, at an instance: on the root `{"a": {"c": 1, "d": 2}, "b": [3]}` and the path
`a/c`, Set of Undefined and then of "z" gives `{"a": {"c": "z", "d": 2}, "b": [3]}`,
the root that Set of "z" alone gives. -/
theorem set_last_write_wins_witness :
    QJsonPath.set (object [("a".toList, object [("c".toList, double 1),
        ("d".toList, double 2)]), ("b".toList, array [double 3])])
      [Name "a".toList, Name "c".toList] (string "z".toList) =
      .ok (object [("a".toList, object [("c".toList, string "z".toList),
        ("d".toList, double 2)]), ("b".toList, array [double 3])]) ∧
    ((∃ v2, QJsonPath.set (object [("a".toList, object [("c".toList, double 1),
          ("d".toList, double 2)]), ("b".toList, array [double 3])])
        [Name "a".toList, Name "c".toList] (string "z".toList) = .ok v2) ∧
      (QJsonPath.set (object [("a".toList, object [("c".toList, double 1),
            ("d".toList, double 2)]), ("b".toList, array [double 3])])
          [Name "a".toList, Name "c".toList] undefined).bind
        (fun r => QJsonPath.set r [Name "a".toList, Name "c".toList] (string "z".toList)) =
        QJsonPath.set (object [("a".toList, object [("c".toList, double 1),
            ("d".toList, double 2)]), ("b".toList, array [double 3])])
          [Name "a".toList, Name "c".toList] (string "z".toList) ∧
      (QJsonPath.set (object [("a".toList, object [("c".toList, double 1),
            ("d".toList, double 2)]), ("b".toList, array [double 3])])
          [Name "a".toList, Name "c".toList] undefined).bind
        (fun r => QJsonPath.set r [Name "a".toList, Name "c".toList] undefined) =
        QJsonPath.set (object [("a".toList, object [("c".toList, double 1),
            ("d".toList, double 2)]), ("b".toList, array [double 3])])
          [Name "a".toList, Name "c".toList] undefined) :=
  ⟨rfl, set_last_write_wins
    (object [("a".toList, object [("c".toList, double 1), ("d".toList, double 2)]),
      ("b".toList, array [double 3])])
    [Name "a".toList, Name "c".toList] undefined (string "z".toList) (by simp) rfl rfl⟩
